import Mathlib

/-!
# A shallow embedding of `mythread.c`

The cooperative threading library keeps a fixed pool `threads[THREADS]` of
thread control blocks, a circular doubly-linked ready queue threaded through
that pool by raw `next`/`prev` pointers, and one futex ("baton") per TCB.

Conventions of the embedding

* A `struct queue_entry *` is an `Option Nat`: `none` is `NULL`, `some i` is
  `&threads[i]`.  Dereferencing `NULL`, or a slot index outside the pool, is
  undefined behaviour in C and is the outcome `Res.fault` here.
* A futex is its counter.  `futex_down` on a counter that is zero does not
  return in a sequential run; that is the outcome `Res.blocked`.
* Globals and function-local statics (`head`, `queue_futex`, `init`,
  `thread_num`) are fields of `State`.
* The 64 KiB stack of a TCB and the `clone` system call have no effect on the
  fields modelled here and are left out.
-/

namespace MyThread

/-! ## Outcomes -/

/-- Outcome of running a piece of the library sequentially. -/
inductive Res (α : Type) where
  | ok (a : α) : Res α
  | blocked : Res α
  | fault : Res α
  deriving DecidableEq, Repr

/-- Sequencing of outcomes: the first non-`ok` outcome wins. -/
def Res.bind {α β : Type} (x : Res α) (f : α → Res β) : Res β :=
  match x with
  | .ok a => f a
  | .blocked => .blocked
  | .fault => .fault

instance : Monad Res where
  pure := Res.ok
  bind := Res.bind

/-! ## Data model (lines 10-43) -/

def STACK_SIZE : Nat := 64 * 1024

def THREADS : Nat := 101

inductive mythread_state where
  | RUNNING
  | READY
  | BLOCKED
  | EXITED
  deriving DecidableEq, Repr

/-- The entry function of a thread: a code address and an opaque argument. -/
structure func_t where
  func : Nat
  arg : Nat
  deriving DecidableEq, Repr

/-- One thread control block.  `fut` is the counter of the TCB's futex. -/
structure queue_entry where
  id : Nat
  fut : Nat
  state : mythread_state
  func : func_t
  next : Option Nat
  prev : Option Nat
  retval : Int
  deriving DecidableEq, Repr

/-- A zero-initialised TCB, as static storage starts out. -/
def queue_entry.zero : queue_entry :=
  { id := 0, fut := 0, state := .RUNNING, func := { func := 0, arg := 0 },
    next := none, prev := none, retval := 0 }

/-- The globals of `mythread.c` together with its function-local statics. -/
structure State where
  threads : Nat → queue_entry
  head : Option Nat
  queue_futex : Nat
  init : Nat
  thread_num : Nat

/-- The state of the program before any library call: all statics are zero. -/
def initial : State :=
  { threads := fun _ => queue_entry.zero, head := none, queue_futex := 0,
    init := 0, thread_num := 0 }

/-! ## The futex primitive -/

/-- Modelled from the spec: `futex.h` is not among the sources.  The spec
describes a semaphore with `init(value)`; the futex is represented by its
counter. -/
def futex_init (val : Nat) : Nat := val

/-- Modelled from the spec: `up` increments the counter (and wakes a waiter). -/
def futex_up (count : Nat) : Nat := count + 1

/-- Modelled from the spec: `down` is a blocking wait that decrements the
counter and suspends the caller when the counter is zero. -/
def futex_down (count : Nat) : Res Nat :=
  if count = 0 then .blocked else .ok (count - 1)

/-! ## Memory access -/

/-- Dereference a TCB pointer: the slot index it designates. -/
def deref (p : Option Nat) : Res Nat :=
  match p with
  | none => .fault
  | some i => if i < THREADS then .ok i else .fault

/-- Rewrite the TCB in slot `i`; every other slot and every global is kept. -/
def modify (s : State) (i : Nat) (f : queue_entry → queue_entry) : State :=
  { s with threads := Function.update s.threads i (f (s.threads i)) }

@[reducible] def setNext (s : State) (i : Nat) (v : Option Nat) : State :=
  modify s i (fun e => { e with next := v })

@[reducible] def setPrev (s : State) (i : Nat) (v : Option Nat) : State :=
  modify s i (fun e => { e with prev := v })

@[reducible] def setFut (s : State) (i : Nat) (v : Nat) : State :=
  modify s i (fun e => { e with fut := v })

@[reducible] def setId (s : State) (i : Nat) (v : Nat) : State :=
  modify s i (fun e => { e with id := v })

@[reducible] def setState (s : State) (i : Nat) (v : mythread_state) : State :=
  modify s i (fun e => { e with state := v })

@[reducible] def setFunc (s : State) (i : Nat) (v : func_t) : State :=
  modify s i (fun e => { e with func := v })

@[reducible] def setRetval (s : State) (i : Nat) (v : Int) : State :=
  modify s i (fun e => { e with retval := v })

/-- The read `p->next`. -/
def load_next (s : State) (p : Option Nat) : Res (Option Nat) := do
  let i ← deref p
  pure (s.threads i).next

/-- The read `p->prev`. -/
def load_prev (s : State) (p : Option Nat) : Res (Option Nat) := do
  let i ← deref p
  pure (s.threads i).prev

/-- The write `p->next = v`. -/
def store_next (s : State) (p : Option Nat) (v : Option Nat) : Res State := do
  let i ← deref p
  pure (setNext s i v)

/-- The write `p->prev = v`. -/
def store_prev (s : State) (p : Option Nat) (v : Option Nat) : Res State := do
  let i ← deref p
  pure (setPrev s i v)

/-- The call `futex_up(&p->fut)`. -/
def baton_up (s : State) (p : Option Nat) : Res State := do
  let i ← deref p
  pure (setFut s i (futex_up (s.threads i).fut))

/-- The call `futex_down(&p->fut)`. -/
def baton_down (s : State) (p : Option Nat) : Res State := do
  let i ← deref p
  let c ← futex_down (s.threads i).fut
  pure (setFut s i c)

/-- The call `futex_down(&queue_futex)`. -/
def queue_lock (s : State) : Res State := do
  let c ← futex_down s.queue_futex
  pure { s with queue_futex := c }

/-- The call `futex_up(&queue_futex)`. -/
def queue_unlock (s : State) : State :=
  { s with queue_futex := futex_up s.queue_futex }

/-! ## The ready queue (lines 45-99) -/

/-- Lines 45-67.  `thread` is the slot index of the TCB passed by pointer. -/
def insert_at_tail (s : State) (thread : Nat) : Res State := do
  let s := if s.init = 0 then { s with init := 1, queue_futex := futex_init 1 } else s
  let s ← queue_lock s
  let s ←
    if s.head = none then do
      let s := { s with head := some thread }
      let s ← store_next s s.head s.head
      store_prev s s.head s.head
    else do
      let tail ← load_prev s s.head
      let s ← store_prev s (some thread) tail
      let tail ← load_prev s s.head
      let s ← store_next s tail (some thread)
      let s ← store_prev s s.head (some thread)
      store_next s (some thread) s.head
  pure (queue_unlock s)

/-- Lines 69-78. -/
def move_head (s : State) : Res State := do
  let s ← queue_lock s
  let s ←
    if s.head ≠ none then do
      let n ← load_next s s.head
      pure { s with head := n }
    else pure s
  pure (queue_unlock s)

/-- Lines 80-99. -/
def remove_from_head (s : State) : Res State := do
  let s ← queue_lock s
  if s.head = none then
    pure (queue_unlock s)
  else do
    let n ← load_next s s.head
    if n = s.head then
      let s := { s with head := none }
      pure (queue_unlock s)
    else do
      let p ← load_prev s s.head
      let n ← load_next s s.head
      let s ← store_next s p n
      let n ← load_next s s.head
      let p ← load_prev s s.head
      let s ← store_prev s n p
      let n ← load_next s s.head
      let s := { s with head := n }
      pure (queue_unlock s)

/-! ## Thread bodies and the public interface (lines 101-215) -/

/-- The conversion `(int)` applied to a pointer-sized value: the value is
reduced modulo `2^32` and read as a signed 32-bit integer. -/
def to_int (r : Nat) : Int :=
  if r % 2 ^ 32 < 2 ^ 31 then (r % 2 ^ 32 : Nat) else (r % 2 ^ 32 : Nat) - 2 ^ 32

/-- Lines 136-139. -/
def mythread_self (s : State) : Res Nat := do
  let h ← deref s.head
  pure (s.threads h).id

/-- Lines 150-160 of `mythread_create`: the body of `if (thread_num == 0)`,
which sets up slot 0 for the idle thread. -/
def create_bootstrap (s : State) : Res State := do
  let i ← deref (some s.thread_num)
  let s := setFut s i (futex_init 1)
  let i ← deref (some s.thread_num)
  let s := setId s i s.thread_num
  let s ← insert_at_tail s s.thread_num
  pure { s with thread_num := (s.thread_num + 1) % 2 ^ 32 }

/-- Lines 163-177 of `mythread_create`: the set-up of the new thread's slot.
The result is the new state, the value written to `*new_thread_ID`, and the
returned `int`. -/
def create_thread (s : State) (start_func arg : Nat) : Res (State × Nat × Int) := do
  let i ← deref (some s.thread_num)
  let s := setFut s i (futex_init 0)
  let new_thread_ID := s.thread_num
  let i ← deref (some s.thread_num)
  let s := setId s i s.thread_num
  let i ← deref (some s.thread_num)
  let s := setFunc s i { (s.threads i).func with func := start_func }
  let i ← deref (some s.thread_num)
  let s := setFunc s i { (s.threads i).func with arg := arg }
  let s ← insert_at_tail s s.thread_num
  let s := { s with thread_num := (s.thread_num + 1) % 2 ^ 32 }
  pure (s, new_thread_ID, 0)

/-- Lines 141-178.  The result is the new state, the value written to
`*new_thread_ID`, and the returned `int`.  `attr` is unused by the source. -/
def mythread_create (s : State) (start_func arg : Nat) : Res (State × Nat × Int) := do
  let s ← if s.thread_num = 0 then create_bootstrap s else pure s
  create_thread s start_func arg

/-- Lines 181-185 of `mythread_yield`: everything up to, but not including,
the wait on the caller's own futex. -/
def mythread_yield_signal (s : State) : Res State := do
  let s ← move_head s
  baton_up s s.head

/-- Lines 180-189.  The result is the new state and the returned `int`. -/
def mythread_yield (s : State) : Res (State × Int) := do
  let thread := s.head
  let s ← mythread_yield_signal s
  let s ← baton_down s thread
  pure (s, 0)

/-- Lines 191-203.  `status` is `none` for a `NULL` pointer and `some v` for a
location currently holding `v`; the result is the returned `int` and the
location afterwards.  The `while` loop only reads: in a state where it does not
leave at once it never leaves, which is the outcome `blocked`. -/
def mythread_join (s : State) (target_thread : Nat) (status : Option Int) :
    Res (Int × Option Int) := do
  let i ← deref (some target_thread)
  if (s.threads i).id = target_thread then
    if (s.threads i).state ≠ .EXITED then
      Res.blocked
    else
      match status with
      | some _ => pure (0, some (s.threads i).retval)
      | none => pure (0, none)
  else
    pure (-1, status)

/-- Lines 205-215.  `retval` is `none` for a `NULL` pointer and `some v` for a
pointer to an `int` location holding `v`.  The result is the new state, that
location afterwards, and the status handed to `exit`. -/
def mythread_exit (s : State) (retval : Option Int) : Res (State × Option Int × Int) := do
  let thread := s.head
  let s ← remove_from_head s
  let n ← load_next s thread
  let s ← baton_up s n
  let t ← deref thread
  let s := setState s t .EXITED
  let t ← deref thread
  let out := match retval with
    | some _ => some (s.threads t).retval
    | none => none
  pure (s, out, (s.threads t).retval)

/-- Line 108 of `thread_wrapper`: the wait on the thread's own futex. -/
def thread_wrapper_wait (s : State) (thread : Nat) : Res State :=
  baton_down s (some thread)

/-- Lines 101-115.  `body` is the behaviour of the call
`(thread->func.func)(thread->func.arg)`: it maps the state at the call to the
state at the return together with the returned pointer-sized value. -/
def thread_wrapper (s : State) (thread : Nat) (body : State → Res (State × Nat)) :
    Res (State × Option Int × Int) := do
  let s ← thread_wrapper_wait s thread
  let (s, r) ← body s
  let t ← deref (some thread)
  let s := setRetval s t (to_int r)
  mythread_exit s none

/-! ## Specification vocabulary for the ready queue -/

/-- The pair `a`, `b` is doubly linked: `a.next` is `b` and `b.prev` is `a`. -/
def Link (s : State) (a b : Nat) : Prop :=
  (s.threads a).next = some b ∧ (s.threads b).prev = some a

instance (s : State) (a b : Nat) : Decidable (Link s a b) :=
  inferInstanceAs (Decidable (_ ∧ _))

/-- Starting from `a`, each element of `a :: l` is doubly linked to the one
after it. -/
def Chained (s : State) : Nat → List Nat → Prop
  | _, [] => True
  | a, b :: l => Link s a b ∧ Chained s b l

/-- The check of `Chained`, pair by pair. -/
def Chained.dec (s : State) : (a : Nat) → (l : List Nat) → Decidable (Chained s a l)
  | _, [] => isTrue trivial
  | a, b :: l =>
    have := Chained.dec s b l
    inferInstanceAs (Decidable (Link s a b ∧ Chained s b l))

instance (s : State) (a : Nat) (l : List Nat) : Decidable (Chained s a l) :=
  Chained.dec s a l

/-- The members `q`, taken in order and then back to the first one, are
doubly linked pair by pair. -/
def Cyclic (s : State) : List Nat → Prop
  | [] => True
  | h :: r => Chained s h (r ++ [h])

instance (s : State) (q : List Nat) : Decidable (Cyclic s q) :=
  match q with
  | [] => isTrue trivial
  | h :: r => inferInstanceAs (Decidable (Chained s h (r ++ [h])))

/-- The ready queue of `s` is one circular doubly-linked list whose members,
in `next`-order from `head`, are the pairwise distinct pool slots `q`; the
queue is empty (`head = NULL`) exactly when `q` is empty. -/
def Linked (s : State) (q : List Nat) : Prop :=
  s.head = q.head? ∧ q.Nodup ∧ (∀ m ∈ q, m < THREADS) ∧ Cyclic s q

instance (s : State) (q : List Nat) : Decidable (Linked s q) :=
  inferInstanceAs (Decidable (_ ∧ _ ∧ _ ∧ _))

/-- The TCBs met by following `next` from the pointer `p`, at most `k` of them. -/
def walk (s : State) : Nat → Option Nat → List Nat
  | 0, _ => []
  | _ + 1, none => []
  | k + 1, some i => i :: walk s k (s.threads i).next

/-- The TCBs met by following `prev` from the pointer `p`, at most `k` of them. -/
def walk_back (s : State) : Nat → Option Nat → List Nat
  | 0, _ => []
  | _ + 1, none => []
  | k + 1, some i => i :: walk_back s k (s.threads i).prev

/-- The two states agree on everything but the queue: the slot counter and, in
every TCB, `id`, `fut`, `state`, `func` and `retval`. -/
def SameData (s s' : State) : Prop :=
  s'.thread_num = s.thread_num ∧
  ∀ i, (s'.threads i).id = (s.threads i).id ∧ (s'.threads i).fut = (s.threads i).fut ∧
    (s'.threads i).state = (s.threads i).state ∧ (s'.threads i).func = (s.threads i).func ∧
    (s'.threads i).retval = (s.threads i).retval

/-- The queue lock can be taken by `insert_at_tail`: it is not yet initialised
(the call initialises it to 1) or its counter is positive. -/
def InsertReady (s : State) : Prop := s.init = 0 ∨ s.queue_futex ≠ 0

instance (s : State) : Decidable (InsertReady s) :=
  inferInstanceAs (Decidable (_ ∨ _))

/-- States reached from an empty queue by the three queue operations, with
the list of TCBs inserted and not yet removed, oldest first from `head`. -/
inductive QReach : State → List Nat → Prop where
  | empty (s : State) (h : s.head = none) : QReach s []
  | insert (s s' : State) (q : List Nat) (t : Nat) (hr : QReach s q) (ht : t ∉ q)
      (hs : insert_at_tail s t = .ok s') : QReach s' (q ++ [t])
  | move (s s' : State) (q : List Nat) (hr : QReach s q)
      (hs : move_head s = .ok s') : QReach s' (q.rotate 1)
  | remove (s s' : State) (q : List Nat) (hr : QReach s q)
      (hs : remove_from_head s = .ok s') : QReach s' q.tail

/-- The state held by an outcome, or the initial state when there is none. -/
def Res.getD (r : Res State) : State :=
  match r with
  | .ok s => s
  | .blocked => initial
  | .fault => initial

/-- The queue after `insert_at_tail` of slot 0 into the initial state. -/
def queue_1 : State := Res.getD (insert_at_tail initial 0)

/-- The queue after inserting slots 0 and 1. -/
def queue_2 : State := Res.getD (insert_at_tail queue_1 1)

/-- The queue after inserting slots 0, 1 and 2. -/
def queue_3 : State := Res.getD (insert_at_tail queue_2 2)

/-! ## Scheduling vocabulary -/

/-- One scheduling turn: the running thread executes `mythread_yield` up to
its wait (lines 181-185), and the thread it has signalled returns from its own
wait on its futex (line 186 of its earlier yield, or line 108 of
`thread_wrapper`). -/
def turn (s : State) : Res State := do
  let s ← mythread_yield_signal s
  baton_down s s.head

/-- The slots that `head` designates after each of `k` successive turns, and
the state after the last one. -/
def yield_heads : Nat → State → Res (List Nat × State)
  | 0, s => pure ([], s)
  | k + 1, s => do
    let s ← turn s
    let h ← deref s.head
    let (l, s) ← yield_heads k s
    pure (h :: l, s)

/-- The state after a successful call, or the initial state. -/
def Res.stateD {α : Type} (r : Res (State × α)) : State :=
  match r with
  | .ok (s, _) => s
  | .blocked => initial
  | .fault => initial

/-- The state after the first `mythread_create`: idle slot 0 and thread 1. -/
def created_1 : State := Res.stateD (mythread_create initial 0 0)

/-- The state after two calls of `mythread_create`. -/
def created_2 : State := Res.stateD (mythread_create created_1 0 0)

/-- The state after three calls of `mythread_create`: threads 1, 2 and 3. -/
def created_3 : State := Res.stateD (mythread_create created_2 0 0)

/-- The steps of the baton protocol.  A thread is entitled to run when `head`
designates it and it has returned from the wait on its own futex, so that the
counter of that futex is zero again.  The idle thread in slot 0 loops forever
(lines 127-132), so `mythread_exit` is only ever run by the thread of a slot
other than 0. -/
inductive Step : State → State → Prop where
  | create (s s' : State) (start_func arg new_thread_ID : Nat) (ret : Int)
      (hs : mythread_create s start_func arg = .ok (s', new_thread_ID, ret)) : Step s s'
  | wake (s s' : State) (t : Nat) (hs : baton_down s (some t) = .ok s') : Step s s'
  | yield (s s' : State) (h : Nat) (hh : s.head = some h) (hb : (s.threads h).fut = 0)
      (hs : mythread_yield_signal s = .ok s') : Step s s'
  | exit (s s' : State) (h : Nat) (retval out : Option Int) (code : Int)
      (hh : s.head = some h) (h0 : h ≠ 0) (hb : (s.threads h).fut = 0)
      (hs : mythread_exit s retval = .ok (s', out, code)) : Step s s'

/-- The states reached from the initial state by steps of the protocol. -/
inductive Reach : State → Prop where
  | start : Reach initial
  | step (s s' : State) (hr : Reach s) (hs : Step s s') : Reach s'

/-- Any call into the library, by any thread and in any state: the liberal
counterpart of `Step`, without the conditions on who is entitled to run. -/
inductive Call : State → State → Prop where
  | create (s s' : State) (start_func arg new_thread_ID : Nat) (ret : Int)
      (hs : mythread_create s start_func arg = .ok (s', new_thread_ID, ret)) : Call s s'
  | wake (s s' : State) (t : Nat) (hs : baton_down s (some t) = .ok s') : Call s s'
  | yield (s s' : State) (hs : mythread_yield_signal s = .ok s') : Call s s'
  | exit (s s' : State) (retval out : Option Int) (code : Int)
      (hs : mythread_exit s retval = .ok (s', out, code)) : Call s s'

/-- The states reached from the initial state by calls into the library. -/
inductive Called : State → Prop where
  | start : Called initial
  | step (s s' : State) (hr : Called s) (hs : Call s s') : Called s'

/-- The writes of lines 150-151 on slot `thread_num`. -/
def idle_prepared (s : State) : State :=
  setId (setFut s s.thread_num (futex_init 1)) s.thread_num s.thread_num

/-- The writes of lines 163-166 on slot `thread_num`. -/
def slot_prepared (s : State) (start_func arg : Nat) : State :=
  let s1 := setFut s s.thread_num (futex_init 0)
  let s2 := setId s1 s.thread_num s.thread_num
  let s3 := setFunc s2 s.thread_num { (s2.threads s.thread_num).func with func := start_func }
  setFunc s3 s.thread_num { (s3.threads s.thread_num).func with arg := arg }

/-- The invariant of the pool and the queue under arbitrary calls: the ready
queue is well formed with members `q`, all of them allocated slots; the slot
counter stays within the pool; the queue lock is free; allocated slots carry
their index as `id` and the others still have `id` zero. -/
def PoolInv (s : State) (q : List Nat) : Prop :=
  Linked s q ∧ (∀ m ∈ q, m < s.thread_num) ∧ s.thread_num ≤ THREADS ∧ InsertReady s ∧
  (s.thread_num ≠ 0 → s.queue_futex ≠ 0) ∧
  (∀ i, i < s.thread_num → (s.threads i).id = i) ∧
  (∀ i, s.thread_num ≤ i → (s.threads i).id = 0)

/-- The invariant of the baton protocol: on top of `PoolInv`, the idle slot 0
is a member once anything has been created, and only `head` may hold a
signalled baton. -/
def Inv (s : State) (q : List Nat) : Prop :=
  PoolInv s q ∧ (s.thread_num ≠ 0 → 0 ∈ q) ∧
  (∀ i, (s.threads i).fut ≠ 0 → s.head = some i)

/-- The state after `k` further calls of `mythread_create`. -/
def iter_create : Nat → State → State
  | 0, s => s
  | k + 1, s => iter_create k (Res.stateD (mythread_create s 0 0))

/-- The state after 100 calls of `mythread_create`: all 101 slots are in use. -/
def pool_full : State := iter_create 100 initial

/-- The state after the first create once the idle thread has taken its baton. -/
def idle_running : State := Res.getD (baton_down created_1 (some 0))

/-- The state after the idle thread has then yielded up to its wait: thread 1
holds the signalled baton. -/
def thread_1_signalled : State := Res.getD (mythread_yield_signal idle_running)

/-- The state after thread 1 has then returned from the wait of line 108. -/
def thread_1_running : State := Res.getD (baton_down thread_1_signalled (some 1))

/-- The state after five calls of `mythread_create`: threads 1 to 5. -/
def created_5 : State := iter_create 5 initial

/-- The state in which thread 5 has just been signalled for the first time:
four turns from `created_5`, then a yield of thread 4 up to its wait. -/
def thread_5_signalled : State :=
  Res.getD ((yield_heads 4 created_5).bind (fun p => mythread_yield_signal p.2))

/-- The state after thread 1 has then called `mythread_exit(NULL)`: only the
idle slot 0 is left in the queue. -/
def thread_1_exited : State := Res.stateD (mythread_exit thread_1_running none)

/-- No TCB's `state` field differs between the two states. -/
def StateKept (s s' : State) : Prop :=
  ∀ i, (s'.threads i).state = (s.threads i).state

/-- Any operation of the library that returns: a call of the public interface
(`Call`), a complete `mythread_yield`, or one of the three queue operations. -/
inductive Op : State → State → Prop where
  | call (s s' : State) (h : Call s s') : Op s s'
  | yield (s s' : State) (ret : Int) (h : mythread_yield s = .ok (s', ret)) : Op s s'
  | insert (s s' : State) (t : Nat) (h : insert_at_tail s t = .ok s') : Op s s'
  | move (s s' : State) (h : move_head s = .ok s') : Op s s'
  | remove (s s' : State) (h : remove_from_head s = .ok s') : Op s s'

/-- The states reached from `s` by any number of operations. -/
inductive Ops : State → State → Prop where
  | refl (s : State) : Ops s s
  | step (s s' s'' : State) (h : Ops s s') (hs : Op s' s'') : Ops s s''

/-- Modelled from the spec: `down_with_timeout` is a timed wait.  Run on its
own, it takes the counter down by one when it is positive and otherwise gives
up when the timeout expires, leaving the counter at zero. -/
def futex_down_timeout (count : Nat) : Nat :=
  if count = 0 then 0 else count - 1

/-- Lines 127-132 of `idle_thread`: one round of the endless loop, for the TCB
in slot `thread`.  `usleep` has no effect on the state. -/
def idle_thread_round (s : State) (thread : Nat) : Res State := do
  let i ← deref (some thread)
  let s := setFut s i (futex_down_timeout (s.threads i).fut)
  let (s, _) ← mythread_yield s
  pure s

/-- Calls into the library in which `mythread_exit` is only run while `head`
designates an application thread (a TCB whose `id` is not 0); there is no
condition on the batons. -/
inductive Run : State → State → Prop where
  | create (s s' : State) (start_func arg new_thread_ID : Nat) (ret : Int)
      (hs : mythread_create s start_func arg = .ok (s', new_thread_ID, ret)) : Run s s'
  | wake (s s' : State) (t : Nat) (hs : baton_down s (some t) = .ok s') : Run s s'
  | yield (s s' : State) (hs : mythread_yield_signal s = .ok s') : Run s s'
  | exit (s s' : State) (h : Nat) (retval out : Option Int) (code : Int)
      (hh : s.head = some h) (h0 : (s.threads h).id ≠ 0)
      (hs : mythread_exit s retval = .ok (s', out, code)) : Run s s'

/-- The states reached from the initial state by such calls. -/
inductive Ran : State → Prop where
  | start : Ran initial
  | step (s s' : State) (hr : Ran s) (hs : Run s s') : Ran s'

/-- The states reached from the initial state by calls into the library,
together with the number of calls of `mythread_create` among them. -/
inductive CalledN : Nat → State → Prop where
  | start : CalledN 0 initial
  | create (n : Nat) (s s' : State) (start_func arg new_thread_ID : Nat) (ret : Int)
      (hr : CalledN n s)
      (hs : mythread_create s start_func arg = .ok (s', new_thread_ID, ret)) :
      CalledN (n + 1) s'
  | wake (n : Nat) (s s' : State) (t : Nat) (hr : CalledN n s)
      (hs : baton_down s (some t) = .ok s') : CalledN n s'
  | yield (n : Nat) (s s' : State) (hr : CalledN n s)
      (hs : mythread_yield_signal s = .ok s') : CalledN n s'
  | exit (n : Nat) (s s' : State) (retval out : Option Int) (code : Int) (hr : CalledN n s)
      (hs : mythread_exit s retval = .ok (s', out, code)) : CalledN n s'

/-- The members `q` of the queue are exactly the allocated slots that have not
exited, and no slot that is still free is marked `EXITED`. -/
def Live (s : State) (q : List Nat) : Prop :=
  (∀ i, s.thread_num ≤ i → (s.threads i).state ≠ .EXITED) ∧
  (∀ i, i < s.thread_num → (i ∈ q ↔ (s.threads i).state ≠ .EXITED))

/-! # Theorems -/

/-! ### Outcomes and memory -/

@[simp] theorem Res.ok_bind {α β : Type} (a : α) (f : α → Res β) : (Res.ok a >>= f) = f a := rfl
@[simp] theorem Res.blocked_bind {α β : Type} (f : α → Res β) : (Res.blocked >>= f) = Res.blocked := rfl
@[simp] theorem Res.fault_bind {α β : Type} (f : α → Res β) : (Res.fault >>= f) = Res.fault := rfl
@[simp] theorem Res.pure_eq {α : Type} (a : α) : (pure a : Res α) = Res.ok a := rfl

@[simp] theorem modify_head (s : State) (i : Nat) (f : queue_entry → queue_entry) :
    (modify s i f).head = s.head := rfl
@[simp] theorem modify_queue_futex (s : State) (i : Nat) (f : queue_entry → queue_entry) :
    (modify s i f).queue_futex = s.queue_futex := rfl
@[simp] theorem modify_init (s : State) (i : Nat) (f : queue_entry → queue_entry) :
    (modify s i f).init = s.init := rfl
@[simp] theorem modify_thread_num (s : State) (i : Nat) (f : queue_entry → queue_entry) :
    (modify s i f).thread_num = s.thread_num := rfl
@[simp] theorem modify_threads (s : State) (i j : Nat) (f : queue_entry → queue_entry) :
    (modify s i f).threads j = if j = i then f (s.threads i) else s.threads j := by
  simp only [modify, Function.update, eq_rec_constant, dite_eq_ite]

@[simp] theorem ite_id (c : Prop) [Decidable c] (a b : queue_entry) :
    (if c then a else b).id = if c then a.id else b.id := by split <;> rfl
@[simp] theorem ite_fut (c : Prop) [Decidable c] (a b : queue_entry) :
    (if c then a else b).fut = if c then a.fut else b.fut := by split <;> rfl
@[simp] theorem ite_state (c : Prop) [Decidable c] (a b : queue_entry) :
    (if c then a else b).state = if c then a.state else b.state := by split <;> rfl
@[simp] theorem ite_func (c : Prop) [Decidable c] (a b : queue_entry) :
    (if c then a else b).func = if c then a.func else b.func := by split <;> rfl
@[simp] theorem ite_next (c : Prop) [Decidable c] (a b : queue_entry) :
    (if c then a else b).next = if c then a.next else b.next := by split <;> rfl
@[simp] theorem ite_prev (c : Prop) [Decidable c] (a b : queue_entry) :
    (if c then a else b).prev = if c then a.prev else b.prev := by split <;> rfl
@[simp] theorem ite_retval (c : Prop) [Decidable c] (a b : queue_entry) :
    (if c then a else b).retval = if c then a.retval else b.retval := by split <;> rfl

theorem insertReady_cases {s : State} (hl : InsertReady s) (h0 : ¬ s.init = 0) :
    s.queue_futex ≠ 0 := by
  rcases hl with h | h
  · exact absurd h h0
  · exact h

/-- `insert_at_tail` on an empty queue. -/
theorem insert_at_tail_empty_spec (s : State) (t : Nat) (hh : s.head = none) (ht : t < THREADS)
    (hl : InsertReady s) :
    ∃ s', insert_at_tail s t = .ok s' ∧ s'.head = some t ∧ SameData s s' ∧
      s'.init ≠ 0 ∧ s'.queue_futex ≠ 0 ∧
      (∀ i, (s'.threads i).next = if i = t then some t else (s.threads i).next) ∧
      (∀ i, (s'.threads i).prev = if i = t then some t else (s.threads i).prev) := by
  by_cases h0 : s.init = 0
  · simp [insert_at_tail, h0, queue_lock, futex_down, futex_init, hh, store_next, store_prev,
      deref, ht, queue_unlock, futex_up, SameData]
    refine ⟨?_, ?_⟩
    · intro i
      refine ⟨?_, ?_, ?_, ?_, ?_⟩ <;> split_ifs <;> subst_vars <;> rfl
    · intro i
      split_ifs <;> rfl
  · have h1 := insertReady_cases hl h0
    have h2 : s.queue_futex - 1 + 1 ≠ 0 := by omega
    simp [insert_at_tail, h0, h1, h2, queue_lock, futex_down, futex_init, hh, store_next,
      store_prev, deref, ht, queue_unlock, futex_up, SameData]
    refine ⟨?_, ?_⟩
    · intro i
      refine ⟨?_, ?_, ?_, ?_, ?_⟩ <;> split_ifs <;> subst_vars <;> rfl
    · intro i
      split_ifs <;> rfl

/-- `insert_at_tail` on a queue whose head is `h` and whose tail is `tl`. -/
theorem insert_at_tail_cons_spec (s : State) (h tl t : Nat) (hh : s.head = some h)
    (hlt : h < THREADS) (hp : (s.threads h).prev = some tl) (htl : tl < THREADS)
    (ht : t < THREADS) (hne : t ≠ h) (hnt : t ≠ tl) (hl : InsertReady s) :
    ∃ s', insert_at_tail s t = .ok s' ∧ s'.head = some h ∧ SameData s s' ∧
      s'.init ≠ 0 ∧ s'.queue_futex ≠ 0 ∧
      (∀ i, (s'.threads i).next =
        if i = t then some h else if i = tl then some t else (s.threads i).next) ∧
      (∀ i, (s'.threads i).prev =
        if i = h then some t else if i = t then some tl else (s.threads i).prev) := by
  have hne' : h ≠ t := fun e => hne e.symm
  have hnt' : tl ≠ t := fun e => hnt e.symm
  by_cases h0 : s.init = 0
  · simp [insert_at_tail, h0, queue_lock, futex_down, futex_init, hh, store_next, store_prev,
      load_prev, deref, ht, hlt, htl, hp, hne, hne', hnt, hnt', queue_unlock, futex_up, SameData]
    refine ⟨?_, ?_, ?_⟩
    · intro i
      refine ⟨?_, ?_, ?_, ?_, ?_⟩ <;> split_ifs <;> subst_vars <;> rfl
    · intro i
      split_ifs <;> subst_vars <;> first | rfl | contradiction
    · intro i
      split_ifs <;> subst_vars <;> first | rfl | contradiction
  · have h1 := insertReady_cases hl h0
    have h2 : s.queue_futex - 1 + 1 ≠ 0 := by omega
    simp [insert_at_tail, h0, h1, h2, queue_lock, futex_down, futex_init, hh, store_next, store_prev,
      load_prev, deref, ht, hlt, htl, hp, hne, hne', hnt, hnt', queue_unlock, futex_up, SameData]
    refine ⟨?_, ?_, ?_⟩
    · intro i
      refine ⟨?_, ?_, ?_, ?_, ?_⟩ <;> split_ifs <;> subst_vars <;> rfl
    · intro i
      split_ifs <;> subst_vars <;> first | rfl | contradiction
    · intro i
      split_ifs <;> subst_vars <;> first | rfl | contradiction

theorem queue_futex_restore {c : Nat} (h : c ≠ 0) : c - 1 + 1 = c := by omega

theorem move_head_blocked (s : State) (h : s.queue_futex = 0) : move_head s = .blocked := by
  simp [move_head, queue_lock, futex_down, h]

theorem remove_from_head_blocked (s : State) (h : s.queue_futex = 0) :
    remove_from_head s = .blocked := by
  simp [remove_from_head, queue_lock, futex_down, h]

theorem insert_at_tail_blocked (s : State) (t : Nat) (h : ¬ InsertReady s) :
    insert_at_tail s t = .blocked := by
  simp only [InsertReady, not_or, not_not] at h
  simp [insert_at_tail, queue_lock, futex_down, h.1, h.2]

/-- `move_head` on an empty queue returns and changes nothing. -/
theorem move_head_empty_spec (s : State) (hh : s.head = none) (hl : s.queue_futex ≠ 0) :
    move_head s = .ok s := by
  cases s
  simp_all [move_head, queue_lock, futex_down, queue_unlock, futex_up, queue_futex_restore]

/-- `move_head` on a non-empty queue only replaces `head` by `head->next`. -/
theorem move_head_cons_spec (s : State) (h : Nat) (hh : s.head = some h) (hlt : h < THREADS)
    (hl : s.queue_futex ≠ 0) :
    move_head s = .ok { s with head := (s.threads h).next } := by
  simp [move_head, queue_lock, futex_down, hh, hl, queue_unlock, futex_up, load_next, deref, hlt,
    queue_futex_restore hl]

/-- `remove_from_head` on an empty queue returns and changes nothing. -/
theorem remove_from_head_empty_spec (s : State) (hh : s.head = none) (hl : s.queue_futex ≠ 0) :
    remove_from_head s = .ok s := by
  cases s
  simp_all [remove_from_head, queue_lock, futex_down, queue_unlock, futex_up,
    queue_futex_restore]

/-- `remove_from_head` on a queue whose only member is `h`. -/
theorem remove_from_head_single_spec (s : State) (h : Nat) (hh : s.head = some h)
    (hlt : h < THREADS) (hn : (s.threads h).next = some h) (hl : s.queue_futex ≠ 0) :
    remove_from_head s = .ok { s with head := none } := by
  simp [remove_from_head, queue_lock, futex_down, hh, hl, queue_unlock, futex_up, load_next, deref,
    hlt, hn, queue_futex_restore hl]

/-- `remove_from_head` on a queue with head `h`, second member `n` and tail `p`. -/
theorem remove_from_head_cons_spec (s : State) (h n p : Nat) (hh : s.head = some h)
    (hlt : h < THREADS) (hn : (s.threads h).next = some n) (hp : (s.threads h).prev = some p)
    (hnlt : n < THREADS) (hplt : p < THREADS) (hnh : n ≠ h) (hph : p ≠ h)
    (hl : s.queue_futex ≠ 0) :
    ∃ s', remove_from_head s = .ok s' ∧ s'.head = some n ∧ SameData s s' ∧
      s'.init = s.init ∧ s'.queue_futex = s.queue_futex ∧
      (∀ i, (s'.threads i).next = if i = p then some n else (s.threads i).next) ∧
      (∀ i, (s'.threads i).prev = if i = n then some p else (s.threads i).prev) := by
  have hnh' : h ≠ n := fun e => hnh e.symm
  have hph' : h ≠ p := fun e => hph e.symm
  simp [remove_from_head, queue_lock, futex_down, hh, hl, queue_unlock, futex_up, load_next,
    load_prev, store_next, store_prev, deref, hlt, hn, hp, hnlt, hplt, hnh, hph, hnh', hph',
    queue_futex_restore hl, SameData]
  refine ⟨?_, ?_⟩
  · intro i
    refine ⟨?_, ?_, ?_, ?_, ?_⟩ <;> split_ifs <;> subst_vars <;> rfl
  · intro i
    split_ifs <;> subst_vars <;> rfl

/-! ### Chains of links -/

theorem chain_snoc {R : Nat → Nat → Prop} : ∀ (a : Nat) (l : List Nat) (b : Nat),
    List.Chain R a (l ++ [b]) ↔
      List.Chain R a l ∧ R ((a :: l).getLast (List.cons_ne_nil a l)) b := by
  intro a l
  induction l generalizing a with
  | nil => intro b; simp
  | cons c l ih =>
    intro b
    simp only [List.cons_append, List.chain_cons, ih c b, and_assoc]
    rw [List.getLast_cons (List.cons_ne_nil c l)]

theorem chained_iff_chain (s : State) : ∀ (a : Nat) (l : List Nat),
    Chained s a l ↔ List.Chain (Link s) a l := by
  intro a l
  induction l generalizing a with
  | nil => simp [Chained]
  | cons b l ih => simp [Chained, ih b]

theorem cyclic_nil (s : State) : Cyclic s [] := trivial

theorem cyclic_iff_chain (s : State) (h : Nat) (r : List Nat) :
    Cyclic s (h :: r) ↔ List.Chain (Link s) h (r ++ [h]) :=
  chained_iff_chain s h (r ++ [h])

theorem cyclic_cons (s : State) (h : Nat) (r : List Nat) :
    Cyclic s (h :: r) ↔
      List.Chain (Link s) h r ∧ Link s ((h :: r).getLast (List.cons_ne_nil h r)) h := by
  rw [cyclic_iff_chain]
  exact chain_snoc h r h

theorem not_mem_dropLast_of_nodup : ∀ (l : List Nat) (hl : l ≠ []), l.Nodup →
    l.getLast hl ∉ l.dropLast := by
  intro l hl hnd hmem
  have h := List.dropLast_append_getLast hl
  rw [← h] at hnd
  have := List.disjoint_of_nodup_append hnd hmem
  simp at this

/-- A chain of links survives every write that leaves alone the `next` of all
but its last element and the `prev` of all but its first. -/
theorem chain_frame {s s' : State} : ∀ (a : Nat) (l : List Nat), List.Chain (Link s) a l →
    (∀ x ∈ (a :: l).dropLast, (s'.threads x).next = (s.threads x).next) →
    (∀ y ∈ l, (s'.threads y).prev = (s.threads y).prev) → List.Chain (Link s') a l := by
  intro a l
  induction l generalizing a with
  | nil => intro _ _ _; exact List.Chain.nil
  | cons b l ih =>
    intro hc hn hp
    rw [List.chain_cons] at hc ⊢
    refine ⟨?_, ih b hc.2 ?_ ?_⟩
    · have h1 := hn a (by simp)
      have h2 := hp b (by simp)
      unfold Link at hc ⊢
      rw [h1, h2]
      exact hc.1
    · intro x hx
      exact hn x (by simp [hx])
    · intro y hy
      exact hp y (by simp [hy])

theorem walk_chain (s : State) : ∀ (a : Nat) (l : List Nat), List.Chain (Link s) a l →
    walk s (l.length + 1) (some a) = a :: l := by
  intro a l
  induction l generalizing a with
  | nil => intro _; simp [walk]
  | cons b l ih =>
    intro hc
    rw [List.chain_cons] at hc
    simp only [List.length_cons, walk, hc.1.1, ih b hc.2]

/-! ### Well-formed queues -/

theorem cyclic_congr (s s' : State) (h : s'.threads = s.threads) (q : List Nat) :
    Cyclic s' q ↔ Cyclic s q := by
  have : Link s' = Link s := by
    funext a b
    simp [Link, h]
  cases q with
  | nil => simp [Cyclic]
  | cons a r => rw [cyclic_iff_chain, cyclic_iff_chain, this]

theorem cyclic_rotate (s : State) (h : Nat) (r : List Nat) (hc : Cyclic s (h :: r)) :
    Cyclic s (r ++ [h]) := by
  cases r with
  | nil => exact hc
  | cons m r =>
    have h1 : List.Chain (Link s) h (m :: (r ++ [h])) := (cyclic_iff_chain s h (m :: r)).1 hc
    rw [List.chain_cons] at h1
    have h2 : List.Chain (Link s) m ((r ++ [h]) ++ [m]) := by
      rw [chain_snoc]
      refine ⟨h1.2, ?_⟩
      have : (m :: (r ++ [h])).getLast (List.cons_ne_nil _ _) = h := by
        simp [List.getLast_cons]
      rw [this]
      exact h1.1
    exact (cyclic_iff_chain s m (r ++ [h])).2 h2

theorem linked_nil_iff (s : State) : Linked s [] ↔ s.head = none := by
  simp [Linked, cyclic_nil]

theorem linked_head {s : State} {h : Nat} {r : List Nat} (hl : Linked s (h :: r)) :
    s.head = some h ∧ h < THREADS := by
  refine ⟨by simpa using hl.1, hl.2.2.1 h (by simp)⟩

theorem linked_tail {s : State} {h : Nat} {r : List Nat} (hl : Linked s (h :: r)) :
    (s.threads h).prev = some ((h :: r).getLast (List.cons_ne_nil h r)) ∧
      (h :: r).getLast (List.cons_ne_nil h r) < THREADS ∧
      (s.threads ((h :: r).getLast (List.cons_ne_nil h r))).next = some h := by
  have hc := (cyclic_cons s h r).1 hl.2.2.2
  exact ⟨hc.2.2, hl.2.2.1 _ (List.getLast_mem _), hc.2.1⟩

theorem linked_second {s : State} {h m : Nat} {r : List Nat} (hl : Linked s (h :: m :: r)) :
    (s.threads h).next = some m ∧ (s.threads m).prev = some h ∧ m < THREADS ∧ m ≠ h := by
  have hc := (cyclic_cons s h (m :: r)).1 hl.2.2.2
  rw [List.chain_cons] at hc
  refine ⟨hc.1.1.1, hc.1.1.2, hl.2.2.1 m (by simp), ?_⟩
  have hnd := hl.2.1
  intro e
  subst e
  simp at hnd

theorem linked_single_next {s : State} {h : Nat} (hl : Linked s [h]) :
    (s.threads h).next = some h ∧ (s.threads h).prev = some h := by
  have hc := (cyclic_cons s h []).1 hl.2.2.2
  simpa [Link] using hc.2

/-- Inserting into an empty queue. -/
theorem linked_insert_nil (s : State) (t : Nat) (hs : s.head = none) (ht : t < THREADS)
    (hr : InsertReady s) :
    ∃ s', insert_at_tail s t = .ok s' ∧ Linked s' [t] ∧ SameData s s' ∧
      s'.init ≠ 0 ∧ s'.queue_futex ≠ 0 := by
  obtain ⟨s', h1, h2, h3, h4, h5, h6, h7⟩ := insert_at_tail_empty_spec s t hs ht hr
  refine ⟨s', h1, ⟨by simp [h2], by simp, by simpa using ht, ?_⟩, h3, by omega, h5⟩
  rw [cyclic_cons]
  simp [Link, h6, h7]

/-- Inserting a fresh TCB into a well-formed non-empty queue appends it. -/
theorem linked_insert_cons (s : State) (h t : Nat) (r : List Nat) (hl : Linked s (h :: r))
    (hm : t ∉ h :: r) (ht : t < THREADS) (hr : InsertReady s) :
    ∃ s', insert_at_tail s t = .ok s' ∧ Linked s' (h :: r ++ [t]) ∧ SameData s s' ∧
      s'.init ≠ 0 ∧ s'.queue_futex ≠ 0 ∧
      (∀ i, (s'.threads i).next = if i = t then some h
        else if i = (h :: r).getLast (List.cons_ne_nil h r) then some t
        else (s.threads i).next) ∧
      (∀ i, (s'.threads i).prev = if i = h then some t
        else if i = t then some ((h :: r).getLast (List.cons_ne_nil h r))
        else (s.threads i).prev) := by
  have hh := linked_head hl
  have htl := linked_tail hl
  have hc := (cyclic_cons s h r).1 hl.2.2.2
  have hth : t ≠ h := fun e => hm (by simp [e])
  have htt : t ≠ (h :: r).getLast (List.cons_ne_nil h r) := fun e =>
    hm (e ▸ List.getLast_mem _)
  obtain ⟨s', h1, h2, h3, h4, h5, h6, h7⟩ :=
    insert_at_tail_cons_spec s h _ t hh.1 hh.2 htl.1 htl.2.1 ht hth htt hr
  refine ⟨s', h1, ⟨by simp [h2], ?_, ?_, ?_⟩, h3, h4, h5, h6, h7⟩
  · have := hl.2.1
    rw [List.cons_append, ← List.cons_append, List.nodup_append]
    exact ⟨this, by simp, by simpa using hm⟩
  · intro m hmem
    simp only [List.cons_append, List.mem_cons, List.mem_append, List.mem_singleton,
      List.not_mem_nil, or_false] at hmem
    rcases hmem with e | e | e
    · exact e ▸ hh.2
    · exact hl.2.2.1 m (by simp [e])
    · exact e ▸ ht
  · rw [List.cons_append, cyclic_cons, chain_snoc]
    have hlast : (h :: (r ++ [t])).getLast (List.cons_ne_nil _ _) = t := by
      simp [List.getLast_cons]
    rw [hlast]
    refine ⟨⟨chain_frame h r hc.1 ?_ ?_, ?_⟩, ?_⟩
    · intro x hx
      have hx1 : x ≠ (h :: r).getLast (List.cons_ne_nil h r) := fun e =>
        not_mem_dropLast_of_nodup _ (List.cons_ne_nil h r) hl.2.1 (e ▸ hx)
      have hx2 : x ≠ t := fun e => hm (e ▸ List.mem_of_mem_dropLast hx)
      simp [h6, hx1, hx2]
    · intro y hy
      have hy1 : y ≠ h := fun e => by
        have := hl.2.1
        simp [← e, hy] at this
      have hy2 : y ≠ t := fun e => hm (by simp [← e, hy])
      simp [h7, hy1, hy2]
    · simp [Link, h6, h7, htt.symm, hth]
    · simp [Link, h6, h7]

/-- Advancing the head of a well-formed non-empty queue rotates it. -/
theorem linked_move_cons (s : State) (h : Nat) (r : List Nat) (hl : Linked s (h :: r))
    (hq : s.queue_futex ≠ 0) :
    ∃ s', move_head s = .ok s' ∧ Linked s' (r ++ [h]) ∧ s'.threads = s.threads ∧
      s'.head = (s.threads h).next ∧ s'.queue_futex = s.queue_futex ∧ s'.init = s.init ∧
      s'.thread_num = s.thread_num := by
  have hh := linked_head hl
  refine ⟨_, move_head_cons_spec s h hh.1 hh.2 hq, ⟨?_, ?_, ?_, ?_⟩, rfl, rfl, rfl, rfl, rfl⟩
  · cases r with
    | nil => simpa using (linked_single_next hl).1
    | cons m r => simpa using (linked_second hl).1
  · have := hl.2.1
    rw [List.nodup_append_comm]
    simpa using this
  · intro m hm
    exact hl.2.2.1 m (by
      simp only [List.mem_append, List.mem_singleton] at hm
      rcases hm with e | e
      · simp [e]
      · simp [e])
  · exact (cyclic_congr s { s with head := (s.threads h).next } rfl _).2
      (cyclic_rotate s h r hl.2.2.2)

/-- Removing the only member empties the queue. -/
theorem linked_remove_single (s : State) (h : Nat) (hl : Linked s [h])
    (hq : s.queue_futex ≠ 0) :
    remove_from_head s = .ok { s with head := none } ∧ Linked { s with head := none } [] := by
  have hh := linked_head hl
  exact ⟨remove_from_head_single_spec s h hh.1 hh.2 (linked_single_next hl).1 hq,
    (linked_nil_iff _).2 rfl⟩

/-- Removing the head of a well-formed queue with at least two members. -/
theorem linked_remove_cons (s : State) (h m : Nat) (r : List Nat)
    (hl : Linked s (h :: m :: r)) (hq : s.queue_futex ≠ 0) :
    ∃ s', remove_from_head s = .ok s' ∧ Linked s' (m :: r) ∧ SameData s s' ∧
      s'.init = s.init ∧ s'.queue_futex = s.queue_futex ∧
      (∀ i, (s'.threads i).next =
        if i = (m :: r).getLast (List.cons_ne_nil m r) then some m else (s.threads i).next) ∧
      (∀ i, (s'.threads i).prev =
        if i = m then some ((m :: r).getLast (List.cons_ne_nil m r))
        else (s.threads i).prev) := by
  have hh := linked_head hl
  have htl := linked_tail hl
  have h2 := linked_second hl
  have hnd := hl.2.1
  have hlast : (h :: m :: r).getLast (List.cons_ne_nil h (m :: r)) =
      (m :: r).getLast (List.cons_ne_nil m r) := List.getLast_cons (List.cons_ne_nil m r)
  rw [hlast] at htl
  have hmem : (m :: r).getLast (List.cons_ne_nil m r) ∈ m :: r := List.getLast_mem _
  have hph : (m :: r).getLast (List.cons_ne_nil m r) ≠ h := fun e => by
    rw [e] at hmem
    exact (List.nodup_cons.1 hnd).1 hmem
  obtain ⟨s', e1, e2, e3, e4, e5, e6, e7⟩ :=
    remove_from_head_cons_spec s h m _ hh.1 hh.2 h2.1 htl.1 h2.2.2.1 htl.2.1 h2.2.2.2 hph hq
  have hc := (cyclic_cons s h (m :: r)).1 hl.2.2.2
  rw [List.chain_cons] at hc
  have hnd' : (m :: r).Nodup := (List.nodup_cons.1 hnd).2
  refine ⟨s', e1, ⟨by simp [e2], hnd', ?_, ?_⟩, e3, e4, e5, e6, e7⟩
  · intro x hx
    exact hl.2.2.1 x (List.mem_cons_of_mem _ hx)
  · rw [cyclic_cons]
    refine ⟨chain_frame m r hc.1.2 ?_ ?_, ?_⟩
    · intro x hx
      have hx1 : x ≠ (m :: r).getLast (List.cons_ne_nil m r) := fun e =>
        not_mem_dropLast_of_nodup _ (List.cons_ne_nil m r) hnd' (e ▸ hx)
      simp [e6, hx1]
    · intro y hy
      have hy1 : y ≠ m := fun e => by
        simp [← e, hy] at hnd'
      simp [e7, hy1]
    · simp [Link, e6, e7]

theorem insert_at_tail_ok_lt (s s' : State) (t : Nat) (h : insert_at_tail s t = .ok s') :
    t < THREADS := by
  by_contra ht
  have key : ∀ s0 : State, (do
      let s1 ← queue_lock s0
      let s2 ←
        if s1.head = none then do
          let s := { s1 with head := some t }
          let s ← store_next s s.head s.head
          store_prev s s.head s.head
        else do
          let tail ← load_prev s1 s1.head
          let s ← store_prev s1 (some t) tail
          let tail ← load_prev s s.head
          let s ← store_next s tail (some t)
          let s ← store_prev s s.head (some t)
          store_next s (some t) s.head
      pure (queue_unlock s2) : Res State) ≠ .ok s' := by
    intro s0
    by_cases hq : s0.queue_futex = 0
    · simp [queue_lock, futex_down, hq]
    · cases hh : s0.head with
      | none => simp [queue_lock, futex_down, hq, hh, store_next, deref, ht]
      | some h =>
        by_cases hlt : h < THREADS
        · simp [queue_lock, futex_down, hq, hh, store_prev, load_prev, deref, ht, hlt]
        · simp [queue_lock, futex_down, hq, hh, load_prev, deref, hlt]
  exact key _ h

theorem chain_succ {R : Nat → Nat → Prop} : ∀ (a : Nat) (l : List Nat), List.Chain R a l →
    ∀ x ∈ (a :: l).dropLast, ∃ y ∈ l, R x y := by
  intro a l
  induction l generalizing a with
  | nil => intro _ x hx; simp at hx
  | cons b l ih =>
    intro hc x hx
    rw [List.chain_cons] at hc
    simp only [List.dropLast_cons₂, List.mem_cons] at hx
    rcases hx with e | hx
    · exact ⟨b, by simp, e ▸ hc.1⟩
    · obtain ⟨y, hy, hr⟩ := ih b hc.2 x hx
      exact ⟨y, List.mem_cons_of_mem _ hy, hr⟩

theorem chain_pred {R : Nat → Nat → Prop} : ∀ (a : Nat) (l : List Nat), List.Chain R a l →
    ∀ y ∈ l, ∃ x ∈ (a :: l).dropLast, R x y := by
  intro a l
  induction l generalizing a with
  | nil => intro _ y hy; simp at hy
  | cons b l ih =>
    intro hc y hy
    rw [List.chain_cons] at hc
    simp only [List.mem_cons] at hy
    rcases hy with e | hy
    · exact ⟨a, by simp, e ▸ hc.1⟩
    · obtain ⟨x, hx, hr⟩ := ih b hc.2 y hy
      exact ⟨x, by simp only [List.dropLast_cons₂, List.mem_cons]; exact Or.inr hx, hr⟩

/-- In a well-formed queue every member has a successor and a predecessor among
the members, and the links in both directions agree. -/
theorem linked_neighbours {s : State} {q : List Nat} (hl : Linked s q) :
    ∀ m ∈ q, ∃ n ∈ q, ∃ p ∈ q, (s.threads m).next = some n ∧ (s.threads n).prev = some m ∧
      (s.threads m).prev = some p ∧ (s.threads p).next = some m := by
  cases q with
  | nil => intro m hm; simp at hm
  | cons h r =>
    have hc : List.Chain (Link s) h (r ++ [h]) := (cyclic_iff_chain s h r).1 hl.2.2.2
    have hsub : ∀ y ∈ r ++ [h], y ∈ h :: r := by
      intro y hy
      simp only [List.mem_append, List.mem_singleton] at hy
      rcases hy with e | e
      · simp [e]
      · simp [e]
    have hdl : (h :: (r ++ [h])).dropLast = h :: r := by
      rw [← List.cons_append, List.dropLast_concat]
    intro m hm
    obtain ⟨n, hn, hmn⟩ := chain_succ h _ hc m (by rw [hdl]; exact hm)
    have hm' : m ∈ r ++ [h] := by
      simp only [List.mem_cons] at hm
      simp only [List.mem_append, List.mem_singleton]
      tauto
    obtain ⟨p, hp, hpm⟩ := chain_pred h _ hc m hm'
    rw [hdl] at hp
    exact ⟨n, hsub n hn, p, hp, hmn.1, hmn.2, hpm.2, hpm.1⟩

/-- Following `next` from the head of a well-formed queue lists its members
once each and then arrives at the head again. -/
theorem linked_walk {s : State} {q : List Nat} (hl : Linked s q) :
    walk s q.length s.head = q ∧ walk s (q.length + 1) s.head = q ++ q.take 1 := by
  cases q with
  | nil => simp [(linked_nil_iff s).1 hl, walk]
  | cons h r =>
    have hc : List.Chain (Link s) h (r ++ [h]) := (cyclic_iff_chain s h r).1 hl.2.2.2
    have hc' := ((cyclic_cons s h r).1 hl.2.2.2).1
    rw [(linked_head hl).1]
    refine ⟨walk_chain s h r hc', ?_⟩
    have := walk_chain s h _ hc
    simpa using this

theorem walk_back_chain_tail (s : State) : ∀ (a : Nat) (l : List Nat),
    List.Chain (Link s) a l →
    walk_back s l.length (some ((a :: l).getLast (List.cons_ne_nil a l))) = l.reverse := by
  intro a l
  induction l using List.reverseRecOn generalizing a with
  | nil => intro _; simp [walk_back]
  | append_singleton l b ih =>
    intro hc
    rw [chain_snoc] at hc
    have h1 : (a :: (l ++ [b])).getLast (List.cons_ne_nil _ _) = b := by
      simp [List.getLast_cons]
    rw [h1]
    simp only [List.length_append, List.length_singleton, walk_back, hc.2.2, ih a hc.1]
    simp

/-- Following `prev` from the head of a well-formed queue lists its members
once each, the head first and then the others from the tail backwards. -/
theorem linked_walk_back {s : State} {h : Nat} {r : List Nat} (hl : Linked s (h :: r)) :
    walk_back s (r.length + 1) s.head = h :: r.reverse := by
  have hc : List.Chain (Link s) h (r ++ [h]) := (cyclic_iff_chain s h r).1 hl.2.2.2
  have := walk_back_chain_tail s h _ hc
  have hlast : (h :: (r ++ [h])).getLast (List.cons_ne_nil _ _) = h := by
    simp [List.getLast_cons]
  rw [hlast] at this
  rw [(linked_head hl).1]
  simpa using this

/-- However far `next` is followed from the head of a well-formed queue, only
members are met. -/
theorem linked_walk_mem {s : State} {q : List Nat} (hl : Linked s q) :
    ∀ (k : Nat) (m : Nat), m ∈ q → ∀ x ∈ walk s k (some m), x ∈ q := by
  intro k
  induction k with
  | zero => intro m _ x hx; simp [walk] at hx
  | succ k ih =>
    intro m hm x hx
    simp only [walk, List.mem_cons] at hx
    rcases hx with e | hx
    · exact e ▸ hm
    · obtain ⟨n, hn, _, _, h1, _, _, _⟩ := linked_neighbours hl m hm
      rw [h1] at hx
      exact ih n hn x hx

/-- However far `prev` is followed from the head of a well-formed queue, only
members are met. -/
theorem linked_walk_back_mem {s : State} {q : List Nat} (hl : Linked s q) :
    ∀ (k : Nat) (m : Nat), m ∈ q → ∀ x ∈ walk_back s k (some m), x ∈ q := by
  intro k
  induction k with
  | zero => intro m _ x hx; simp [walk_back] at hx
  | succ k ih =>
    intro m hm x hx
    simp only [walk_back, List.mem_cons] at hx
    rcases hx with e | hx
    · exact e ▸ hm
    · obtain ⟨_, _, p, hp, _, _, h1, _⟩ := linked_neighbours hl m hm
      rw [h1] at hx
      exact ih p hp x hx

/-- Every state reached by the queue operations from an empty queue is well formed. -/
theorem qreach_linked (s : State) (q : List Nat) (hr : QReach s q) : Linked s q := by
  induction hr with
  | empty s h => exact (linked_nil_iff s).2 h
  | insert s s' q t _ ht hs ih =>
    have hlt := insert_at_tail_ok_lt s s' t hs
    have hready : InsertReady s := by
      by_contra hn
      rw [insert_at_tail_blocked s t hn] at hs
      cases hs
    cases q with
    | nil =>
      obtain ⟨s'', h1, h2, _⟩ := linked_insert_nil s t ((linked_nil_iff s).1 ih) hlt hready
      rw [h1] at hs
      cases hs
      simpa using h2
    | cons h r =>
      obtain ⟨s'', h1, h2, _⟩ := linked_insert_cons s h t r ih ht hlt hready
      rw [h1] at hs
      cases hs
      simpa using h2
  | move s s' q _ hs ih =>
    have hq : s.queue_futex ≠ 0 := by
      intro hn
      rw [move_head_blocked s hn] at hs
      cases hs
    cases q with
    | nil =>
      rw [move_head_empty_spec s ((linked_nil_iff s).1 ih) hq] at hs
      cases hs
      simpa using ih
    | cons h r =>
      obtain ⟨s'', h1, h2, _⟩ := linked_move_cons s h r ih hq
      rw [h1] at hs
      cases hs
      rw [List.rotate_cons_succ, List.rotate_zero]
      exact h2
  | remove s s' q _ hs ih =>
    have hq : s.queue_futex ≠ 0 := by
      intro hn
      rw [remove_from_head_blocked s hn] at hs
      cases hs
    cases q with
    | nil =>
      rw [remove_from_head_empty_spec s ((linked_nil_iff s).1 ih) hq] at hs
      cases hs
      simpa using ih
    | cons h r =>
      cases r with
      | nil =>
        have := linked_remove_single s h ih hq
        rw [this.1] at hs
        cases hs
        simpa using this.2
      | cons m r =>
        obtain ⟨s'', h1, h2, _⟩ := linked_remove_cons s h m r ih hq
        rw [h1] at hs
        cases hs
        simpa using h2

/-! ### Turns -/

/-- Well-formedness only looks at `head` and at the `next` and `prev` links. -/
theorem linked_of_links_eq (s s' : State) (q : List Nat) (hh : s'.head = s.head)
    (hn : ∀ i, (s'.threads i).next = (s.threads i).next)
    (hp : ∀ i, (s'.threads i).prev = (s.threads i).prev) (hl : Linked s q) : Linked s' q := by
  refine ⟨hh ▸ hl.1, hl.2.1, hl.2.2.1, ?_⟩
  cases q with
  | nil => exact cyclic_nil s'
  | cons a r =>
    have : Link s' = Link s := by
      funext x y
      simp [Link, hn, hp]
    rw [cyclic_iff_chain, this, ← cyclic_iff_chain]
    exact hl.2.2.2

theorem linked_next_head {s : State} {h : Nat} {r : List Nat} (hl : Linked s (h :: r)) :
    (s.threads h).next = (r ++ [h]).head? := by
  cases r with
  | nil => simpa using (linked_single_next hl).1
  | cons m r => simpa using (linked_second hl).1

theorem modify_modify_fut (s : State) (i c : Nat) :
    modify (modify s i (fun e => { e with fut := c })) i
      (fun e => { e with fut := (s.threads i).fut }) = s := by
  cases s with
  | mk threads head queue_futex init thread_num =>
    simp only [modify, State.mk.injEq, and_true, true_and]
    funext j
    by_cases hj : j = i
    · subst hj
      simp
    · simp [Function.update, hj]

/-- A turn on a well-formed non-empty queue only advances `head`: the baton
that is signalled is taken again by the thread that was signalled. -/
theorem turn_spec (s : State) (h : Nat) (r : List Nat) (hl : Linked s (h :: r))
    (hq : s.queue_futex ≠ 0) :
    turn s = .ok { s with head := (s.threads h).next } := by
  have hh := linked_head hl
  obtain ⟨s1, h1, h2, h3, h4, _⟩ := linked_move_cons s h r hl hq
  have h2' := linked_next_head hl
  cases hr : r ++ [h] with
  | nil => simp at hr
  | cons m r' =>
    rw [hr] at h2 h2'
    have hm := linked_head h2
    simp only [List.head?_cons] at h2'
    simp only [turn, mythread_yield_signal, move_head_cons_spec s h hh.1 hh.2 hq, Res.ok_bind,
      baton_up, baton_down, h2', deref, hm.2, if_true, Res.pure_eq, modify_head, futex_up,
      futex_down, modify_threads, Nat.add_sub_cancel, Nat.add_one_ne_zero, if_false]
    congr 1
    exact modify_modify_fut { s with head := some m } m _

theorem linked_advance (s : State) (h : Nat) (r : List Nat) (hl : Linked s (h :: r))
    (hq : s.queue_futex ≠ 0) :
    Linked { s with head := (s.threads h).next } (r ++ [h]) := by
  have hh := linked_head hl
  obtain ⟨s1, h1, h2, _⟩ := linked_move_cons s h r hl hq
  rw [move_head_cons_spec s h hh.1 hh.2 hq] at h1
  cases h1
  exact h2

/-- Turns taken one after the other select the members that follow the head,
in queue order. -/
theorem yield_heads_prefix : ∀ (u : List Nat) (s : State) (x : Nat) (v : List Nat),
    Linked s (x :: (u ++ v)) → s.queue_futex ≠ 0 →
    yield_heads u.length s =
      .ok (u, { s with head := some ((x :: u).getLast (List.cons_ne_nil x u)) }) ∧
    Linked { s with head := some ((x :: u).getLast (List.cons_ne_nil x u)) }
      ((x :: u).getLast (List.cons_ne_nil x u) :: (v ++ (x :: u).dropLast)) := by
  intro u
  induction u with
  | nil =>
    intro s x v hl _
    have hh := (linked_head hl).1
    have hs : { s with head := some x } = s := by
      cases s
      simp_all
    simp only [List.getLast_singleton, List.dropLast_single, List.append_nil, hs]
    exact ⟨rfl, by simpa using hl⟩
  | cons y u ih =>
    intro s x v hl hq
    have hn := (linked_second hl).1
    have hy := (linked_second hl).2.2.1
    have h1 := turn_spec s x _ hl hq
    have h2 := linked_advance s x _ hl hq
    rw [hn] at h1 h2
    have h2' : Linked { s with head := some y } (y :: (u ++ (v ++ [x]))) := by
      simpa using h2
    obtain ⟨e1, e2⟩ := ih { s with head := some y } y (v ++ [x]) h2' hq
    have hlast : (x :: y :: u).getLast (List.cons_ne_nil x (y :: u)) =
        (y :: u).getLast (List.cons_ne_nil y u) := List.getLast_cons (List.cons_ne_nil y u)
    rw [hlast]
    constructor
    · simp only [List.length_cons, yield_heads, h1, Res.ok_bind, deref, hy, if_true, e1,
        Res.pure_eq]
    · simpa using e2

/-- One lap: as many turns as there are members select every member once, in
queue order starting after the head, and restore the state. -/
theorem yield_heads_lap (s : State) (h : Nat) (r : List Nat) (hl : Linked s (h :: r))
    (hq : s.queue_futex ≠ 0) :
    yield_heads (r.length + 1) s = .ok (r ++ [h], s) := by
  have hh := linked_head hl
  have hs : { s with head := some h } = s := by
    cases s
    simp_all
  cases r with
  | nil =>
    have h1 := turn_spec s h _ hl hq
    rw [(linked_single_next hl).1, hs] at h1
    simp [yield_heads, h1, hh.1, deref, hh.2]
  | cons m r =>
    have hn := (linked_second hl).1
    have hm := (linked_second hl).2.2.1
    have h1 := turn_spec s h _ hl hq
    have h2 := linked_advance s h _ hl hq
    rw [hn] at h1 h2
    have h2' : Linked { s with head := some m } (m :: ((r ++ [h]) ++ [])) := by
      simpa using h2
    obtain ⟨e1, _⟩ := yield_heads_prefix (r ++ [h]) { s with head := some m } m [] h2' hq
    have hlast : (m :: (r ++ [h])).getLast (List.cons_ne_nil m (r ++ [h])) = h := by
      simp [List.getLast_cons]
    rw [hlast] at e1
    have hlen : (m :: r).length + 1 = (r ++ [h]).length + 1 := by simp
    rw [hlen]
    simp only [yield_heads, h1, Res.ok_bind, deref, hm, if_true, e1, Res.pure_eq,
      List.cons_append]
    exact congrArg (fun t => Res.ok (m :: (r ++ [h]), t)) hs

/-- `mythread_exit` on a well-formed queue with at least two members: the head
`h` is unlinked, the new head `m` is signalled and `h` is marked `EXITED`. -/
theorem mythread_exit_cons_spec (s : State) (h m : Nat) (r : List Nat) (retval : Option Int)
    (hl : Linked s (h :: m :: r)) (hq : s.queue_futex ≠ 0) :
    ∃ s', mythread_exit s retval =
        .ok (s', (match retval with
          | some _ => some (s.threads h).retval
          | none => none), (s.threads h).retval) ∧
      Linked s' (m :: r) ∧ s'.queue_futex = s.queue_futex ∧ s'.init = s.init ∧
      s'.thread_num = s.thread_num ∧
      (∀ i, (s'.threads i).fut = if i = m then (s.threads i).fut + 1 else (s.threads i).fut) ∧
      (∀ i, (s'.threads i).state = if i = h then .EXITED else (s.threads i).state) ∧
      (∀ i, (s'.threads i).id = (s.threads i).id ∧ (s'.threads i).func = (s.threads i).func ∧
        (s'.threads i).retval = (s.threads i).retval) ∧
      (∀ i, (s'.threads i).next =
        if i = (m :: r).getLast (List.cons_ne_nil m r) then some m else (s.threads i).next) ∧
      (∀ i, (s'.threads i).prev =
        if i = m then some ((m :: r).getLast (List.cons_ne_nil m r))
        else (s.threads i).prev) := by
  have hh := linked_head hl
  have h2 := linked_second hl
  obtain ⟨s1, e1, e2, e3, e4, e5, e6, e7⟩ := linked_remove_cons s h m r hl hq
  have hmem : (m :: r).getLast (List.cons_ne_nil m r) ∈ m :: r := List.getLast_mem _
  have hph : h ≠ (m :: r).getLast (List.cons_ne_nil m r) := fun e => by
    rw [← e] at hmem
    exact (List.nodup_cons.1 hl.2.1).1 hmem
  have hn1 : (s1.threads h).next = some m := by
    rw [e6, if_neg hph]
    exact h2.1
  have hmh : h ≠ m := fun e => h2.2.2.2 e.symm
  refine ⟨setState (setFut s1 m (futex_up (s1.threads m).fut)) h .EXITED, ?_, ?_, ?_, ?_, ?_,
    ?_, ?_, ?_, ?_, ?_⟩
  · simp only [mythread_exit, e1, Res.ok_bind, load_next, hh.1, deref, hh.2, if_true,
      Res.pure_eq, hn1, baton_up, h2.2.2.1, modify_threads, hmh, if_false]
    cases retval <;> simp [(e3.2 h).2.2.2.2]
  · refine linked_of_links_eq s1 _ _ rfl (fun i => ?_) (fun i => ?_) e2
    · simp only [modify_threads]
      split_ifs <;> subst_vars <;> rfl
    · simp only [modify_threads]
      split_ifs <;> subst_vars <;> rfl
  · exact e5
  · exact e4
  · exact e3.1
  · intro i
    rw [← (e3.2 i).2.1]
    simp only [modify_threads, futex_up]
    split_ifs <;> subst_vars <;> first | rfl | contradiction
  · intro i
    rw [← (e3.2 i).2.2.1]
    simp only [modify_threads]
    split_ifs <;> subst_vars <;> rfl
  · intro i
    rw [← (e3.2 i).1, ← (e3.2 i).2.2.2.1, ← (e3.2 i).2.2.2.2]
    simp only [modify_threads]
    refine ⟨?_, ?_, ?_⟩ <;> split_ifs <;> subst_vars <;> rfl
  · intro i
    rw [← e6 i]
    simp only [modify_threads]
    split_ifs <;> subst_vars <;> rfl
  · intro i
    rw [← e7 i]
    simp only [modify_threads]
    split_ifs <;> subst_vars <;> rfl

/-! ### Thread creation -/

theorem create_bootstrap_eq (s : State) (hn : s.thread_num < THREADS) :
    create_bootstrap s = (insert_at_tail (idle_prepared s) s.thread_num).bind
      (fun s1 => .ok { s1 with thread_num := (s1.thread_num + 1) % 2 ^ 32 }) := by
  simp only [create_bootstrap, deref, hn, if_true, Res.ok_bind, modify_thread_num]
  rfl

theorem create_thread_eq (s : State) (start_func arg : Nat) (hn : s.thread_num < THREADS) :
    create_thread s start_func arg =
      (insert_at_tail (slot_prepared s start_func arg) s.thread_num).bind
        (fun s1 => .ok ({ s1 with thread_num := (s1.thread_num + 1) % 2 ^ 32 },
          s.thread_num, 0)) := by
  simp only [create_thread, deref, hn, if_true, Res.ok_bind, modify_thread_num]
  rfl

theorem create_thread_fault (s : State) (start_func arg : Nat) (hn : ¬ s.thread_num < THREADS) :
    create_thread s start_func arg = .fault := by
  simp [create_thread, deref, hn]

theorem succ_mod_of_lt {n : Nat} (h : n < THREADS) : (n + 1) % 2 ^ 32 = n + 1 := by
  apply Nat.mod_eq_of_lt
  unfold THREADS at h
  omega

theorem slot_prepared_facts (s : State) (start_func arg : Nat) :
    (slot_prepared s start_func arg).head = s.head ∧
    (slot_prepared s start_func arg).thread_num = s.thread_num ∧
    (slot_prepared s start_func arg).init = s.init ∧
    (slot_prepared s start_func arg).queue_futex = s.queue_futex ∧
    (∀ i, ((slot_prepared s start_func arg).threads i).next = (s.threads i).next ∧
      ((slot_prepared s start_func arg).threads i).prev = (s.threads i).prev ∧
      ((slot_prepared s start_func arg).threads i).state = (s.threads i).state ∧
      ((slot_prepared s start_func arg).threads i).retval = (s.threads i).retval) ∧
    (∀ i, i ≠ s.thread_num → (slot_prepared s start_func arg).threads i = s.threads i) ∧
    ((slot_prepared s start_func arg).threads s.thread_num).id = s.thread_num ∧
    ((slot_prepared s start_func arg).threads s.thread_num).fut = 0 ∧
    ((slot_prepared s start_func arg).threads s.thread_num).func =
      { func := start_func, arg := arg } := by
  refine ⟨rfl, rfl, rfl, rfl, ?_, ?_, ?_, ?_, ?_⟩
  · intro i
    simp only [slot_prepared, modify_threads]
    refine ⟨?_, ?_, ?_, ?_⟩ <;> split_ifs <;> subst_vars <;> rfl
  · intro i hi
    simp [slot_prepared, hi]
  · simp [slot_prepared]
  · simp [slot_prepared, futex_init]
  · simp [slot_prepared]

theorem idle_prepared_facts (s : State) :
    (idle_prepared s).head = s.head ∧ (idle_prepared s).thread_num = s.thread_num ∧
    (idle_prepared s).init = s.init ∧ (idle_prepared s).queue_futex = s.queue_futex ∧
    (∀ i, ((idle_prepared s).threads i).next = (s.threads i).next ∧
      ((idle_prepared s).threads i).prev = (s.threads i).prev ∧
      ((idle_prepared s).threads i).state = (s.threads i).state ∧
      ((idle_prepared s).threads i).func = (s.threads i).func ∧
      ((idle_prepared s).threads i).retval = (s.threads i).retval) ∧
    (∀ i, i ≠ s.thread_num → (idle_prepared s).threads i = s.threads i) ∧
    ((idle_prepared s).threads s.thread_num).id = s.thread_num ∧
    ((idle_prepared s).threads s.thread_num).fut = 1 := by
  refine ⟨rfl, rfl, rfl, rfl, ?_, ?_, ?_, ?_⟩
  · intro i
    simp only [idle_prepared, modify_threads]
    refine ⟨?_, ?_, ?_, ?_, ?_⟩ <;> split_ifs <;> subst_vars <;> rfl
  · intro i hi
    simp [idle_prepared, hi]
  · simp [idle_prepared]
  · simp [idle_prepared, futex_init]

/-- Inserting a fresh slot at the tail of a well-formed queue, empty or not. -/
theorem linked_insert (s : State) (q : List Nat) (t : Nat) (hl : Linked s q) (hm : t ∉ q)
    (ht : t < THREADS) (hr : InsertReady s) :
    ∃ s', insert_at_tail s t = .ok s' ∧ Linked s' (q ++ [t]) ∧ SameData s s' ∧
      s'.init ≠ 0 ∧ s'.queue_futex ≠ 0 := by
  cases q with
  | nil =>
    obtain ⟨s', h1, h2, h3, h4, h5⟩ :=
      linked_insert_nil s t ((linked_nil_iff s).1 hl) ht hr
    exact ⟨s', h1, by simpa using h2, h3, h4, h5⟩
  | cons h r =>
    obtain ⟨s', h1, h2, h3, h4, h5, _⟩ := linked_insert_cons s h t r hl hm ht hr
    exact ⟨s', h1, by simpa using h2, h3, h4, h5⟩

/-- Lines 163-177 on a well-formed queue whose members are allocated slots. -/
theorem create_thread_spec (s : State) (q : List Nat) (start_func arg : Nat)
    (hl : Linked s q) (hm : ∀ m ∈ q, m < s.thread_num) (hn : s.thread_num < THREADS)
    (hr : InsertReady s) :
    ∃ s', create_thread s start_func arg = .ok (s', s.thread_num, 0) ∧
      Linked s' (q ++ [s.thread_num]) ∧ s'.thread_num = s.thread_num + 1 ∧
      s'.init ≠ 0 ∧ s'.queue_futex ≠ 0 ∧
      (∀ i, i ≠ s.thread_num → (s'.threads i).id = (s.threads i).id ∧
        (s'.threads i).fut = (s.threads i).fut ∧ (s'.threads i).func = (s.threads i).func) ∧
      (∀ i, (s'.threads i).state = (s.threads i).state ∧
        (s'.threads i).retval = (s.threads i).retval) ∧
      (s'.threads s.thread_num).id = s.thread_num ∧ (s'.threads s.thread_num).fut = 0 ∧
      (s'.threads s.thread_num).func = { func := start_func, arg := arg } := by
  obtain ⟨p1, p2, p3, p4, p5, p6, p7, p8, p9⟩ := slot_prepared_facts s start_func arg
  have hl' : Linked (slot_prepared s start_func arg) q :=
    linked_of_links_eq s _ q p1 (fun i => (p5 i).1) (fun i => (p5 i).2.1) hl
  have hnm : s.thread_num ∉ q := fun h => Nat.lt_irrefl _ (hm _ h)
  have hr' : InsertReady (slot_prepared s start_func arg) := by
    unfold InsertReady
    rw [p3, p4]
    exact hr
  obtain ⟨s1, e1, e2, e3, e4, e5⟩ := linked_insert _ q s.thread_num hl' hnm hn hr'
  refine ⟨{ s1 with thread_num := (s1.thread_num + 1) % 2 ^ 32 }, ?_, ?_, ?_, e4, e5, ?_, ?_,
    ?_, ?_, ?_⟩
  · rw [create_thread_eq s start_func arg hn, e1]
    rfl
  · exact linked_of_links_eq s1 _ _ rfl (fun _ => rfl) (fun _ => rfl) e2
  · show (s1.thread_num + 1) % 2 ^ 32 = s.thread_num + 1
    rw [e3.1, p2, succ_mod_of_lt hn]
  · intro i hi
    show (s1.threads i).id = _ ∧ (s1.threads i).fut = _ ∧ (s1.threads i).func = _
    rw [(e3.2 i).1, (e3.2 i).2.1, (e3.2 i).2.2.2.1, p6 i hi]
    exact ⟨rfl, rfl, rfl⟩
  · intro i
    show (s1.threads i).state = _ ∧ (s1.threads i).retval = _
    rw [(e3.2 i).2.2.1, (e3.2 i).2.2.2.2, (p5 i).2.2.1, (p5 i).2.2.2]
    exact ⟨rfl, rfl⟩
  · show (s1.threads s.thread_num).id = _
    rw [(e3.2 _).1, p7]
  · show (s1.threads s.thread_num).fut = _
    rw [(e3.2 _).2.1, p8]
  · show (s1.threads s.thread_num).func = _
    rw [(e3.2 _).2.2.2.1, p9]

/-- Lines 150-160 in a state where nothing has been created yet. -/
theorem create_bootstrap_spec (s : State) (h0 : s.thread_num = 0) (hh : s.head = none)
    (hr : InsertReady s) :
    ∃ s', create_bootstrap s = .ok s' ∧ Linked s' [0] ∧ s'.thread_num = 1 ∧
      s'.init ≠ 0 ∧ s'.queue_futex ≠ 0 ∧
      (∀ i, i ≠ 0 → (s'.threads i).id = (s.threads i).id ∧
        (s'.threads i).fut = (s.threads i).fut) ∧
      (∀ i, (s'.threads i).state = (s.threads i).state ∧
        (s'.threads i).func = (s.threads i).func ∧
        (s'.threads i).retval = (s.threads i).retval) ∧
      (s'.threads 0).id = 0 ∧ (s'.threads 0).fut = 1 := by
  obtain ⟨p1, p2, p3, p4, p5, p6, p7, p8⟩ := idle_prepared_facts s
  have hn : s.thread_num < THREADS := by rw [h0]; decide
  have hr' : InsertReady (idle_prepared s) := by
    unfold InsertReady
    rw [p3, p4]
    exact hr
  obtain ⟨s1, e1, e2, e3, e4, e5⟩ :=
    linked_insert_nil (idle_prepared s) 0 (p1.trans hh) (by decide) hr'
  rw [h0] at p6 p7 p8
  refine ⟨{ s1 with thread_num := (s1.thread_num + 1) % 2 ^ 32 }, ?_, ?_, ?_, e4, e5, ?_, ?_,
    ?_, ?_⟩
  · rw [create_bootstrap_eq s hn, h0, e1]
    rfl
  · exact linked_of_links_eq s1 _ _ rfl (fun _ => rfl) (fun _ => rfl) e2
  · show (s1.thread_num + 1) % 2 ^ 32 = 1
    rw [e3.1, p2, h0]
    rfl
  · intro i hi
    show (s1.threads i).id = _ ∧ (s1.threads i).fut = _
    rw [(e3.2 i).1, (e3.2 i).2.1, p6 i hi]
    exact ⟨rfl, rfl⟩
  · intro i
    show (s1.threads i).state = _ ∧ (s1.threads i).func = _ ∧ (s1.threads i).retval = _
    rw [(e3.2 i).2.2.1, (e3.2 i).2.2.2.1, (e3.2 i).2.2.2.2, (p5 i).2.2.1, (p5 i).2.2.2.1,
      (p5 i).2.2.2.2]
    exact ⟨rfl, rfl, rfl⟩
  · show (s1.threads 0).id = _
    rw [(e3.2 _).1, p7]
  · show (s1.threads 0).fut = _
    rw [(e3.2 _).2.1, p8]

/-- `mythread_create` under the pool invariant: the bootstrap runs exactly when
nothing has been created yet, and the new thread takes the next free slot. -/
theorem mythread_create_spec (s : State) (q : List Nat) (start_func arg : Nat)
    (hi : PoolInv s q) (hn : s.thread_num < THREADS) :
    ∃ s' k, mythread_create s start_func arg = .ok (s', k, 0) ∧
      k = (if s.thread_num = 0 then 1 else s.thread_num) ∧
      PoolInv s' (if s.thread_num = 0 then [0, 1] else q ++ [k]) ∧
      s'.thread_num = k + 1 ∧ s'.queue_futex ≠ 0 ∧
      (∀ i, i < s.thread_num → (s'.threads i).fut = (s.threads i).fut ∧
        (s'.threads i).func = (s.threads i).func) ∧
      (∀ i, (s'.threads i).state = (s.threads i).state ∧
        (s'.threads i).retval = (s.threads i).retval) ∧
      (s.thread_num = 0 → (s'.threads 0).fut = 1 ∧
        ∀ i, i ≠ 0 → i ≠ 1 → (s'.threads i).fut = (s.threads i).fut) ∧
      (s.thread_num ≠ 0 → ∀ i, i ≠ k → (s'.threads i).fut = (s.threads i).fut) ∧
      (s'.threads k).fut = 0 ∧ (s'.threads k).func = { func := start_func, arg := arg } := by
  obtain ⟨hl, hm, hle, hr, hq, hid, hz⟩ := hi
  by_cases h0 : s.thread_num = 0
  · have hq0 : q = [] := by
      cases q with
      | nil => rfl
      | cons a r =>
        have := hm a (by simp)
        omega
    subst hq0
    obtain ⟨sb, b1, b2, b3, b4, b5, b6, b7, b8, b9⟩ :=
      create_bootstrap_spec s h0 ((linked_nil_iff s).1 hl) hr
    have hmb : ∀ m ∈ [0], m < sb.thread_num := by
      intro m hm
      simp only [List.mem_singleton] at hm
      omega
    have hnb : sb.thread_num < THREADS := by rw [b3]; decide
    obtain ⟨s', c1, c2, c3, c4, c5, c6, c7, c8, c9, c10⟩ :=
      create_thread_spec sb [0] start_func arg b2 hmb hnb (Or.inr b5)
    rw [b3] at c1 c2 c3 c6 c8 c9 c10
    refine ⟨s', 1, ?_, by simp [h0], ?_, c3, c5, ?_, ?_, ?_, ?_, c9, c10⟩
    · simp only [mythread_create, h0, if_true, b1, Res.ok_bind, c1]
    · rw [if_pos h0]
      refine ⟨c2, ?_, ?_, Or.inr c5, fun _ => c5, ?_, ?_⟩
      · intro m hm
        simp only [List.mem_cons, List.mem_singleton, List.not_mem_nil, or_false] at hm
        omega
      · rw [c3]; decide
      · intro i hi
        rw [c3] at hi
        have : i = 0 ∨ i = 1 := by omega
        rcases this with e | e
        · subst e
          rw [(c6 0 (by decide)).1, b8]
        · subst e
          exact c8
      · intro i hi
        rw [c3] at hi
        have h1 : i ≠ 1 := by omega
        have h2 : i ≠ 0 := by omega
        rw [(c6 i h1).1, (b6 i h2).1]
        exact hz i (by omega)
    · intro i hi
      omega
    · intro i
      rw [(c7 i).1, (c7 i).2, (b7 i).1, (b7 i).2.2]
      exact ⟨rfl, rfl⟩
    · intro _
      refine ⟨by rw [(c6 0 (by decide)).2.1, b9], ?_⟩
      intro i hi0 hi1
      rw [(c6 i hi1).2.1, (b6 i hi0).2]
    · intro h
      exact absurd h0 h
  · have hlt : s.thread_num < THREADS := hn
    obtain ⟨s', c1, c2, c3, c4, c5, c6, c7, c8, c9, c10⟩ :=
      create_thread_spec s q start_func arg hl hm hlt hr
    refine ⟨s', s.thread_num, ?_, by simp [h0], ?_, c3, c5, ?_, ?_, ?_, ?_, c9, c10⟩
    · simp only [mythread_create, h0, if_false, Res.pure_eq, Res.ok_bind, c1]
    · rw [if_neg h0]
      refine ⟨c2, ?_, ?_, Or.inr c5, fun _ => c5, ?_, ?_⟩
      · intro m hm'
        simp only [List.mem_append, List.mem_singleton] at hm'
        rcases hm' with e | e
        · have := hm m e
          omega
        · omega
      · omega
      · intro i hi
        rw [c3] at hi
        by_cases e : i = s.thread_num
        · rw [e]
          exact c8
        · rw [(c6 i e).1]
          exact hid i (by omega)
      · intro i hi
        rw [c3] at hi
        have e : i ≠ s.thread_num := by omega
        rw [(c6 i e).1]
        exact hz i (by omega)
    · intro i hi
      have e : i ≠ s.thread_num := by omega
      exact ⟨(c6 i e).2.1, (c6 i e).2.2⟩
    · exact c7
    · intro h
      exact absurd h h0
    · intro _ i hi
      exact (c6 i hi).2.1

theorem mythread_create_ok_lt (s s' : State) (start_func arg k : Nat) (ret : Int)
    (h : mythread_create s start_func arg = .ok (s', k, ret)) : s.thread_num < THREADS := by
  by_contra hn
  have h0 : s.thread_num ≠ 0 := by
    intro e
    apply hn
    rw [e]
    decide
  simp only [mythread_create, h0, if_false, Res.pure_eq, Res.ok_bind,
    create_thread_fault s start_func arg hn] at h
  cases h

/-- `mythread_yield` up to its wait, on a well-formed non-empty queue: `head`
advances and the baton of the new head is signalled. -/
theorem mythread_yield_signal_spec (s : State) (h : Nat) (r : List Nat)
    (hl : Linked s (h :: r)) (hq : s.queue_futex ≠ 0) :
    ∃ s' m, mythread_yield_signal s = .ok s' ∧ (r ++ [h]).head? = some m ∧
      Linked s' (r ++ [h]) ∧ s'.head = some m ∧
      s'.queue_futex = s.queue_futex ∧ s'.init = s.init ∧ s'.thread_num = s.thread_num ∧
      (∀ i, (s'.threads i).fut = if i = m then (s.threads i).fut + 1 else (s.threads i).fut) ∧
      (∀ i, (s'.threads i).id = (s.threads i).id ∧ (s'.threads i).state = (s.threads i).state ∧
        (s'.threads i).func = (s.threads i).func ∧
        (s'.threads i).retval = (s.threads i).retval ∧
        (s'.threads i).next = (s.threads i).next ∧ (s'.threads i).prev = (s.threads i).prev) := by
  have hh := linked_head hl
  have h2 := linked_advance s h r hl hq
  have hn := linked_next_head hl
  cases hr : r ++ [h] with
  | nil => simp at hr
  | cons m r' =>
    rw [hr] at h2 hn
    simp only [List.head?_cons] at hn
    rw [hn] at h2
    have hm := (linked_head h2).2
    refine ⟨setFut { s with head := some m } m (futex_up (s.threads m).fut), m, ?_, rfl, ?_,
      rfl, rfl, rfl, rfl, ?_, ?_⟩
    · simp only [mythread_yield_signal, move_head_cons_spec s h hh.1 hh.2 hq, Res.ok_bind, hn,
        baton_up, deref, hm, if_true, Res.pure_eq]
    · exact linked_of_links_eq { s with head := some m } _ _ rfl
        (fun i => by simp only [modify_threads]; split_ifs <;> subst_vars <;> rfl)
        (fun i => by simp only [modify_threads]; split_ifs <;> subst_vars <;> rfl) h2
    · intro i
      simp only [modify_threads, futex_up]
      split_ifs <;> subst_vars <;> rfl
    · intro i
      simp only [modify_threads]
      refine ⟨?_, ?_, ?_, ?_, ?_, ?_⟩ <;> split_ifs <;> subst_vars <;> rfl

/-- `mythread_exit` on a queue whose only member is `h`: the queue becomes
empty and the baton that is signalled is the one of `h` itself. -/
theorem mythread_exit_single_spec (s : State) (h : Nat) (retval : Option Int)
    (hl : Linked s [h]) (hq : s.queue_futex ≠ 0) :
    ∃ s', mythread_exit s retval =
        .ok (s', (match retval with
          | some _ => some (s.threads h).retval
          | none => none), (s.threads h).retval) ∧
      s'.head = none ∧ s'.queue_futex = s.queue_futex ∧ s'.init = s.init ∧
      s'.thread_num = s.thread_num ∧
      (∀ i, (s'.threads i).fut = if i = h then (s.threads i).fut + 1 else (s.threads i).fut) ∧
      (∀ i, (s'.threads i).state = if i = h then .EXITED else (s.threads i).state) ∧
      (∀ i, (s'.threads i).id = (s.threads i).id ∧ (s'.threads i).func = (s.threads i).func ∧
        (s'.threads i).retval = (s.threads i).retval ∧
        (s'.threads i).next = (s.threads i).next ∧ (s'.threads i).prev = (s.threads i).prev) := by
  have hh := linked_head hl
  have h1 := (linked_remove_single s h hl hq).1
  have hn := (linked_single_next hl).1
  refine ⟨setState (setFut { s with head := none } h (futex_up (s.threads h).fut)) h .EXITED,
    ?_, rfl, rfl, rfl, rfl, ?_, ?_, ?_⟩
  · simp only [mythread_exit, h1, Res.ok_bind, load_next, hh.1, deref, hh.2, if_true,
      Res.pure_eq, hn, baton_up, modify_threads]
  · intro i
    simp only [modify_threads, futex_up]
    split_ifs <;> subst_vars <;> rfl
  · intro i
    simp only [modify_threads]
    split_ifs <;> subst_vars <;> rfl
  · intro i
    simp only [modify_threads]
    refine ⟨?_, ?_, ?_, ?_, ?_⟩ <;> split_ifs <;> subst_vars <;> rfl

theorem baton_down_spec (s s' : State) (t : Nat) (h : baton_down s (some t) = .ok s') :
    t < THREADS ∧ (s.threads t).fut ≠ 0 ∧
      s' = setFut s t ((s.threads t).fut - 1) := by
  by_cases ht : t < THREADS
  · by_cases hf : (s.threads t).fut = 0
    · simp [baton_down, deref, ht, futex_down, hf] at h
    · simp only [baton_down, deref, ht, if_true, Res.ok_bind, futex_down, hf, if_false,
        Res.pure_eq, Res.ok.injEq] at h
      exact ⟨ht, hf, h.symm⟩
  · simp [baton_down, deref, ht] at h

/-! ### Invariants of the pool and of the baton protocol -/

theorem mythread_yield_signal_empty (s : State) (hh : s.head = none) (s' : State) :
    mythread_yield_signal s ≠ .ok s' := by
  by_cases hq : s.queue_futex = 0
  · simp [mythread_yield_signal, move_head_blocked s hq]
  · simp [mythread_yield_signal, move_head_empty_spec s hh hq, baton_up, hh, deref]

theorem mythread_exit_empty (s : State) (hh : s.head = none) (retval : Option Int)
    (x : State × Option Int × Int) : mythread_exit s retval ≠ .ok x := by
  by_cases hq : s.queue_futex = 0
  · simp [mythread_exit, remove_from_head_blocked s hq]
  · simp [mythread_exit, remove_from_head_empty_spec s hh hq, load_next, hh, deref]

/-- The pool invariant only depends on the queue, the slot counter, the queue
lock and the `id` fields. -/
theorem poolInv_of_frame (s s' : State) (q q' : List Nat) (hl : Linked s' q')
    (hm : ∀ m ∈ q', m ∈ q) (hn : s'.thread_num = s.thread_num) (h1 : s'.init = s.init)
    (h2 : s'.queue_futex = s.queue_futex) (hid : ∀ i, (s'.threads i).id = (s.threads i).id)
    (hi : PoolInv s q) : PoolInv s' q' := by
  obtain ⟨_, i2, i3, i4, i5, i6, i7⟩ := hi
  refine ⟨hl, ?_, ?_, ?_, ?_, ?_, ?_⟩
  · intro m hm'
    rw [hn]
    exact i2 m (hm m hm')
  · rw [hn]; exact i3
  · unfold InsertReady
    rw [h1, h2]
    exact i4
  · rw [hn, h2]; exact i5
  · intro i hi
    rw [hn] at hi
    rw [hid]
    exact i6 i hi
  · intro i hi
    rw [hn] at hi
    rw [hid]
    exact i7 i hi

theorem poolInv_lock {s : State} {h : Nat} {r : List Nat} (hi : PoolInv s (h :: r)) :
    s.queue_futex ≠ 0 := by
  have := hi.2.1 h (by simp)
  exact hi.2.2.2.2.1 (by omega)

/-- Every call into the library keeps the pool invariant. -/
theorem poolInv_call (s s' : State) (q : List Nat) (hi : PoolInv s q) (hc : Call s s') :
    ∃ q', PoolInv s' q' := by
  cases hc with
  | create start_func arg k ret hs =>
    have hn := mythread_create_ok_lt s s' start_func arg k ret hs
    obtain ⟨s'', k', e1, _, e3, _⟩ := mythread_create_spec s q start_func arg hi hn
    rw [e1] at hs
    cases hs
    exact ⟨_, e3⟩
  | wake t hs =>
    obtain ⟨_, _, e⟩ := baton_down_spec s s' t hs
    subst e
    refine ⟨q, poolInv_of_frame s _ q q ?_ (fun _ h => h) rfl rfl rfl ?_ hi⟩
    · exact linked_of_links_eq s _ q rfl
        (fun i => by simp only [modify_threads]; split_ifs <;> subst_vars <;> rfl)
        (fun i => by simp only [modify_threads]; split_ifs <;> subst_vars <;> rfl) hi.1
    · intro i
      simp only [modify_threads]
      split_ifs <;> subst_vars <;> rfl
  | yield hs =>
    cases q with
    | nil => exact absurd hs (mythread_yield_signal_empty s ((linked_nil_iff s).1 hi.1) s')
    | cons h r =>
      obtain ⟨s'', m, e1, _, e3, _, e5, e6, e7, _, e9⟩ :=
        mythread_yield_signal_spec s h r hi.1 (poolInv_lock hi)
      rw [e1] at hs
      cases hs
      refine ⟨r ++ [h], poolInv_of_frame s _ (h :: r) _ e3 ?_ e7 e6 e5 (fun i => (e9 i).1) hi⟩
      intro x hx
      simp only [List.mem_append, List.mem_singleton] at hx
      rcases hx with e | e
      · simp [e]
      · simp [e]
  | exit retval out code hs =>
    cases q with
    | nil => exact absurd hs (mythread_exit_empty s ((linked_nil_iff s).1 hi.1) retval _)
    | cons h r =>
      cases r with
      | nil =>
        obtain ⟨s'', e1, e2, e3, e4, e5, _, _, e8⟩ :=
          mythread_exit_single_spec s h retval hi.1 (poolInv_lock hi)
        rw [e1] at hs
        cases hs
        exact ⟨[], poolInv_of_frame s _ [h] [] ((linked_nil_iff _).2 e2) (by simp) e5 e4 e3
          (fun i => (e8 i).1) hi⟩
      | cons m r =>
        obtain ⟨s'', e1, e2, e3, e4, e5, _, _, e8, _⟩ :=
          mythread_exit_cons_spec s h m r retval hi.1 (poolInv_lock hi)
        rw [e1] at hs
        cases hs
        exact ⟨m :: r, poolInv_of_frame s _ (h :: m :: r) _ e2
          (fun x hx => List.mem_cons_of_mem _ hx) e5 e4 e3 (fun i => (e8 i).1) hi⟩

theorem poolInv_initial : PoolInv initial [] := by
  refine ⟨(linked_nil_iff _).2 rfl, by simp, by decide, Or.inl rfl, ?_, ?_, ?_⟩
  · intro h
    exact absurd rfl h
  · intro i hi
    exact absurd hi (Nat.not_lt_zero i)
  · intro i _
    rfl

/-- Every state reached by calls into the library satisfies the pool invariant. -/
theorem called_poolInv (s : State) (hr : Called s) : ∃ q, PoolInv s q := by
  induction hr with
  | start => exact ⟨[], poolInv_initial⟩
  | step s s' _ hs ih =>
    obtain ⟨q, hq⟩ := ih
    exact poolInv_call s s' q hq hs

theorem step_call (s s' : State) (hs : Step s s') : Call s s' := by
  cases hs with
  | create start_func arg k ret hs => exact Call.create s s' start_func arg k ret hs
  | wake t hs => exact Call.wake s s' t hs
  | yield h _ _ hs => exact Call.yield s s' hs
  | exit h retval out code _ _ _ hs => exact Call.exit s s' retval out code hs

theorem reach_called (s : State) (hr : Reach s) : Called s := by
  induction hr with
  | start => exact Called.start
  | step s s' _ hs ih => exact Called.step s s' ih (step_call s s' hs)

theorem inv_all_zero {s : State} {q : List Nat} {h : Nat} (hi : Inv s q)
    (hh : s.head = some h) (hb : (s.threads h).fut = 0) : ∀ i, (s.threads i).fut = 0 := by
  intro i
  by_contra hne
  have := hi.2.2 i hne
  rw [hh] at this
  cases this
  exact hne hb

/-- Every step of the baton protocol keeps the invariant. -/
theorem inv_step (s s' : State) (q : List Nat) (hi : Inv s q) (hs : Step s s') :
    ∃ q', Inv s' q' := by
  obtain ⟨hp, h0q, hb⟩ := hi
  cases hs with
  | create start_func arg k ret hs =>
    have hn := mythread_create_ok_lt s s' start_func arg k ret hs
    obtain ⟨s'', k', e1, e2, e3, e4, _, _, _, e8, e9, e10, _⟩ :=
      mythread_create_spec s q start_func arg hp hn
    rw [e1] at hs
    cases hs
    by_cases hz : s.thread_num = 0
    · rw [if_pos hz] at e2 e3
      subst e2
      refine ⟨[0, 1], e3, fun _ => by simp, ?_⟩
      have hh : s'.head = some 0 := (linked_head e3.1).1
      have hq0 : q = [] := by
        cases q with
        | nil => rfl
        | cons a r =>
          have := hp.2.1 a (by simp)
          omega
      subst hq0
      have hnone := (linked_nil_iff s).1 hp.1
      intro i hi
      by_cases i0 : i = 0
      · rw [i0]; exact hh
      · by_cases i1 : i = 1
        · rw [i1] at hi
          exact absurd e10 hi
        · rw [(e8 hz).2 i i0 i1] at hi
          have := hb i hi
          rw [hnone] at this
          cases this
    · rw [if_neg hz] at e2 e3
      subst e2
      have hmem := h0q hz
      cases q with
      | nil => simp at hmem
      | cons a r =>
        refine ⟨(a :: r) ++ [s.thread_num], e3,
          fun _ => List.mem_append_left _ hmem, ?_⟩
        have hh : s'.head = some a := by simpa using e3.1.1
        have hh0 : s.head = some a := (linked_head hp.1).1
        intro i hi
        by_cases ik : i = s.thread_num
        · rw [ik] at hi
          exact absurd e10 hi
        · rw [e9 hz i ik] at hi
          rw [hh, ← hh0]
          exact hb i hi
  | wake t hs =>
    obtain ⟨q', hq'⟩ := poolInv_call s s' q hp (Call.wake s s' t hs)
    obtain ⟨_, _, e⟩ := baton_down_spec s s' t hs
    subst e
    have hlq : Linked (setFut s t ((s.threads t).fut - 1)) q :=
      linked_of_links_eq s _ q rfl
        (fun i => by simp only [modify_threads]; split_ifs <;> subst_vars <;> rfl)
        (fun i => by simp only [modify_threads]; split_ifs <;> subst_vars <;> rfl) hp.1
    refine ⟨q, poolInv_of_frame s _ q q hlq (fun _ h => h) rfl rfl rfl ?_ hp, h0q, ?_⟩
    · intro i
      simp only [modify_threads]
      split_ifs <;> subst_vars <;> rfl
    · intro i hi
      apply hb i
      intro hz
      apply hi
      simp only [modify_threads]
      split_ifs with e
      · subst e
        show (s.threads i).fut - 1 = 0
        omega
      · exact hz
  | yield h hh hb0 hs =>
    have hzero := inv_all_zero ⟨hp, h0q, hb⟩ hh hb0
    cases q with
    | nil => exact absurd hs (mythread_yield_signal_empty s ((linked_nil_iff s).1 hp.1) s')
    | cons a r =>
      obtain ⟨s'', m, e1, _, e3, e4, e5, e6, e7, e8, e9⟩ :=
        mythread_yield_signal_spec s a r hp.1 (poolInv_lock hp)
      rw [e1] at hs
      cases hs
      have hsub : ∀ x ∈ r ++ [a], x ∈ a :: r := by
        intro x hx
        simp only [List.mem_append, List.mem_singleton] at hx
        rcases hx with e | e
        · simp [e]
        · simp [e]
      refine ⟨r ++ [a], poolInv_of_frame s _ (a :: r) _ e3 hsub e7 e6 e5 (fun i => (e9 i).1) hp,
        ?_, ?_⟩
      · intro hz
        rw [e7] at hz
        have := h0q hz
        simp only [List.mem_cons] at this
        simp only [List.mem_append, List.mem_singleton]
        tauto
      · intro i hi
        rw [e8 i, hzero i] at hi
        by_cases im : i = m
        · rw [im]; exact e4
        · rw [if_neg im] at hi
          exact absurd rfl hi
  | exit h retval out code hh h0 hb0 hs =>
    have hzero := inv_all_zero ⟨hp, h0q, hb⟩ hh hb0
    cases q with
    | nil => exact absurd hs (mythread_exit_empty s ((linked_nil_iff s).1 hp.1) retval _)
    | cons a r =>
      have ha : a = h := by
        have := (linked_head hp.1).1
        rw [hh] at this
        cases this
        rfl
      subst ha
      have hz : s.thread_num ≠ 0 := by
        have := hp.2.1 a (by simp)
        omega
      have hmem := h0q hz
      have hmem' : 0 ∈ r := by
        simp only [List.mem_cons] at hmem
        rcases hmem with e | e
        · exact absurd e.symm h0
        · exact e
      cases r with
      | nil => simp at hmem'
      | cons m r =>
        obtain ⟨s'', e1, e2, e3, e4, e5, e6, _, e8, _⟩ :=
          mythread_exit_cons_spec s a m r retval hp.1 (poolInv_lock hp)
        rw [e1] at hs
        cases hs
        refine ⟨m :: r, poolInv_of_frame s _ (a :: m :: r) _ e2
          (fun x hx => List.mem_cons_of_mem _ hx) e5 e4 e3 (fun i => (e8 i).1) hp,
          fun _ => hmem', ?_⟩
        intro i hi
        rw [e6 i, hzero i] at hi
        by_cases im : i = m
        · rw [im]; exact (linked_head e2).1
        · rw [if_neg im] at hi
          exact absurd rfl hi

theorem inv_initial : Inv initial [] := by
  refine ⟨poolInv_initial, ?_, ?_⟩
  · intro h
    exact absurd rfl h
  · intro i hi
    exact absurd rfl hi

/-- Every state reached by steps of the baton protocol satisfies the invariant. -/
theorem reach_inv (s : State) (hr : Reach s) : ∃ q, Inv s q := by
  induction hr with
  | start => exact ⟨[], inv_initial⟩
  | step s s' _ hs ih =>
    obtain ⟨q, hq⟩ := ih
    exact inv_step s s' q hq hs

/-! ## The queue invariant and the queue operations -/

/-- C1: in every state reached from an empty queue by `insert_at_tail` of a TCB
that is not linked, `move_head` and `remove_from_head`, the linked TCBs `q` are
pairwise distinct, the queue is empty exactly when `head` is `NULL`, and when
`head` is not `NULL` it is a member, following `next` from `head` lists the
members once each and then arrives at `head` again, and every member `m` has
`m.next.prev = m` and `m.prev.next = m` with both neighbours members. -/
theorem C1_reachable_queue_is_circular (s : State) (q : List Nat) (hr : QReach s q) :
    (s.head = none ↔ q = []) ∧ q.Nodup ∧
    (∀ h, s.head = some h →
      h ∈ q ∧ walk s q.length s.head = q ∧ walk s (q.length + 1) s.head = q ++ [h]) ∧
    (∀ m ∈ q, ∃ n ∈ q, ∃ p ∈ q,
      (s.threads m).next = some n ∧ (s.threads n).prev = some m ∧
      (s.threads m).prev = some p ∧ (s.threads p).next = some m) := by
  have hl := qreach_linked s q hr
  refine ⟨?_, hl.2.1, ?_, linked_neighbours hl⟩
  · rw [hl.1]
    cases q <;> simp
  · intro h hh
    have hw := linked_walk hl
    cases q with
    | nil =>
      rw [(linked_nil_iff s).1 hl] at hh
      cases hh
    | cons a r =>
      have := (linked_head hl).1
      rw [this] at hh
      cases hh
      exact ⟨by simp, hw.1, by simpa using hw.2⟩

theorem queue_3_reachable : QReach queue_3 [0, 1, 2] :=
  QReach.insert queue_2 queue_3 [0, 1] 2
    (QReach.insert queue_1 queue_2 [0] 1
      (QReach.insert initial queue_1 [] 0 (QReach.empty initial rfl) (by simp) rfl)
      (by simp) rfl)
    (by simp) rfl

theorem C1_reachable_queue_is_circular_witness :
    QReach queue_3 [0, 1, 2] ∧
    ((queue_3.head = none ↔ [0, 1, 2] = ([] : List Nat)) ∧ [0, 1, 2].Nodup ∧
    (∀ h, queue_3.head = some h →
      h ∈ [0, 1, 2] ∧ walk queue_3 [0, 1, 2].length queue_3.head = [0, 1, 2] ∧
      walk queue_3 ([0, 1, 2].length + 1) queue_3.head = [0, 1, 2] ++ [h]) ∧
    (∀ m ∈ [0, 1, 2], ∃ n ∈ [0, 1, 2], ∃ p ∈ [0, 1, 2],
      (queue_3.threads m).next = some n ∧ (queue_3.threads n).prev = some m ∧
      (queue_3.threads m).prev = some p ∧ (queue_3.threads p).next = some m)) :=
  ⟨queue_3_reachable, C1_reachable_queue_is_circular queue_3 [0, 1, 2] queue_3_reachable⟩

/-- C9: `insert_at_tail(t)` on an empty queue returns with `head = t` and
`t.next = t.prev = t`.  On a well-formed queue with members `h :: r` in
`next`-order, for a pool slot `t` that is not a member, it returns with `head`
still `h`, the queue well formed with `next`-order `h :: r ++ [t]`,
`t.prev` the old tail (the last of `h :: r`, which is `h` when `r` is empty),
`t.next = h` and `h.prev = t`.  The queue lock is assumed free. -/
theorem C9_insert_at_tail_appends :
    (∀ (s : State) (t : Nat), s.head = none → t < THREADS → InsertReady s →
      ∃ s', insert_at_tail s t = .ok s' ∧ s'.head = some t ∧
        (s'.threads t).next = some t ∧ (s'.threads t).prev = some t) ∧
    (∀ (s : State) (h t : Nat) (r : List Nat), Linked s (h :: r) → t ∉ h :: r →
      t < THREADS → InsertReady s →
      ∃ s', insert_at_tail s t = .ok s' ∧ s'.head = some h ∧ Linked s' (h :: r ++ [t]) ∧
        walk s' (r.length + 2) s'.head = h :: r ++ [t] ∧
        (s'.threads t).prev = some ((h :: r).getLast (List.cons_ne_nil h r)) ∧
        (s'.threads t).next = some h ∧ (s'.threads h).prev = some t) := by
  constructor
  · intro s t hh ht hr
    obtain ⟨s', h1, h2, _, _, _, h6, h7⟩ := insert_at_tail_empty_spec s t hh ht hr
    exact ⟨s', h1, h2, by simp [h6], by simp [h7]⟩
  · intro s h t r hl hm ht hr
    obtain ⟨s', h1, h2, _, _, _, h6, h7⟩ := linked_insert_cons s h t r hl hm ht hr
    have hth : t ≠ h := fun e => hm (by simp [e])
    have hw := (linked_walk h2).1
    refine ⟨s', h1, (linked_head h2).1, h2, ?_, by simp [h7, hth], by simp [h6], by simp [h7]⟩
    simpa using hw

theorem C9_insert_at_tail_appends_witness :
    (∃ s', insert_at_tail initial 0 = .ok s' ∧ s'.head = some 0 ∧
        (s'.threads 0).next = some 0 ∧ (s'.threads 0).prev = some 0) ∧
    (∃ s', insert_at_tail queue_2 2 = .ok s' ∧ s'.head = some 0 ∧ Linked s' (0 :: [1] ++ [2]) ∧
        walk s' ([1].length + 2) s'.head = 0 :: [1] ++ [2] ∧
        (s'.threads 2).prev = some ((0 :: [1]).getLast (List.cons_ne_nil 0 [1])) ∧
        (s'.threads 2).next = some 0 ∧ (s'.threads 0).prev = some 2) :=
  ⟨C9_insert_at_tail_appends.1 initial 0 rfl (by decide) (by decide),
   C9_insert_at_tail_appends.2 queue_2 0 2 [1] (by decide) (by decide) (by decide) (by decide)⟩

/-- C10: `remove_from_head()` on an empty queue leaves the state unchanged (it
returns when the queue lock is free and otherwise stays blocked on the lock);
on a queue whose only member is `h` it returns with `head = NULL`; on a
well-formed queue `h :: m :: r` it returns with `head = m`, the queue well
formed with `next`-order `m :: r`, the tail's `next` equal to `m`, `m.prev`
equal to the tail, and every other `next` and `prev` link, and all other TCB
fields, as before.  The queue lock is assumed free in the non-empty cases. -/
theorem C10_remove_from_head_unlinks :
    (∀ s : State, s.head = none →
      (s.queue_futex ≠ 0 → remove_from_head s = .ok s) ∧
      (s.queue_futex = 0 → remove_from_head s = .blocked)) ∧
    (∀ (s : State) (h : Nat), Linked s [h] → s.queue_futex ≠ 0 →
      ∃ s', remove_from_head s = .ok s' ∧ s'.head = none ∧ s'.threads = s.threads) ∧
    (∀ (s : State) (h m : Nat) (r : List Nat), Linked s (h :: m :: r) → s.queue_futex ≠ 0 →
      ∃ s', remove_from_head s = .ok s' ∧ s'.head = some m ∧ Linked s' (m :: r) ∧
        walk s' (r.length + 1) s'.head = m :: r ∧
        (s'.threads ((m :: r).getLast (List.cons_ne_nil m r))).next = some m ∧
        (s'.threads m).prev = some ((m :: r).getLast (List.cons_ne_nil m r)) ∧
        (∀ i, i ≠ (m :: r).getLast (List.cons_ne_nil m r) →
          (s'.threads i).next = (s.threads i).next) ∧
        (∀ i, i ≠ m → (s'.threads i).prev = (s.threads i).prev) ∧
        SameData s s') := by
  refine ⟨?_, ?_, ?_⟩
  · intro s hh
    exact ⟨remove_from_head_empty_spec s hh, remove_from_head_blocked s⟩
  · intro s h hl hq
    exact ⟨_, (linked_remove_single s h hl hq).1, rfl, rfl⟩
  · intro s h m r hl hq
    obtain ⟨s', h1, h2, h3, _, _, h6, h7⟩ := linked_remove_cons s h m r hl hq
    refine ⟨s', h1, (linked_head h2).1, h2, ?_, by simp [h6], by simp [h7], ?_, ?_, h3⟩
    · simpa using (linked_walk h2).1
    · intro i hi
      simp [h6, hi]
    · intro i hi
      simp [h7, hi]

theorem C10_remove_from_head_unlinks_witness :
    (remove_from_head { queue_1 with head := none } = .ok { queue_1 with head := none } ∧
      remove_from_head initial = .blocked) ∧
    (∃ s', remove_from_head queue_1 = .ok s' ∧ s'.head = none ∧
      s'.threads = queue_1.threads) ∧
    (∃ s', remove_from_head queue_3 = .ok s' ∧ s'.head = some 1 ∧ Linked s' (1 :: [2]) ∧
        walk s' ([2].length + 1) s'.head = 1 :: [2] ∧
        (s'.threads ((1 :: [2]).getLast (List.cons_ne_nil 1 [2]))).next = some 1 ∧
        (s'.threads 1).prev = some ((1 :: [2]).getLast (List.cons_ne_nil 1 [2])) ∧
        (∀ i, i ≠ (1 :: [2]).getLast (List.cons_ne_nil 1 [2]) →
          (s'.threads i).next = (queue_3.threads i).next) ∧
        (∀ i, i ≠ 1 → (s'.threads i).prev = (queue_3.threads i).prev) ∧
        SameData queue_3 s') :=
  ⟨⟨(C10_remove_from_head_unlinks.1 { queue_1 with head := none } rfl).1 (by decide),
    (C10_remove_from_head_unlinks.1 initial rfl).2 rfl⟩,
   C10_remove_from_head_unlinks.2.1 queue_1 0 (by decide) (by decide),
   C10_remove_from_head_unlinks.2.2 queue_3 0 1 [2] (by decide) (by decide)⟩

/-! ## Scheduling order -/

/-- C3: on a well-formed queue with members `h :: r` and a free queue lock, the
heads selected by as many successive yields as there are members are the
members that follow `h`, in queue order, and then `h`: every member exactly
once, after which `head` is `h` again (the whole state is as before).  After
creating threads 1, 2 and 3 the heads over two laps, with idle slot 0 filtered
out, are `[1, 2, 3, 1, 2, 3]`. -/
theorem C3_round_robin_lap :
    (∀ (s : State) (h : Nat) (r : List Nat), Linked s (h :: r) → s.queue_futex ≠ 0 →
      yield_heads (h :: r).length s = .ok (r ++ [h], s) ∧ s.head = some h ∧
      (r ++ [h]).Nodup ∧ (r ++ [h]).Perm (h :: r)) ∧
    (mythread_create initial 0 0 = .ok (created_1, 1, 0) ∧
      mythread_create created_1 0 0 = .ok (created_2, 2, 0) ∧
      mythread_create created_2 0 0 = .ok (created_3, 3, 0) ∧
      (yield_heads 8 created_3).bind (fun p => .ok (p.1.filter (fun i => i ≠ 0))) =
        .ok [1, 2, 3, 1, 2, 3]) := by
  constructor
  · intro s h r hl hq
    refine ⟨yield_heads_lap s h r hl hq, (linked_head hl).1, ?_, ?_⟩
    · have := hl.2.1
      rw [List.nodup_append_comm]
      simpa using this
    · exact List.perm_append_singleton h r
  · exact ⟨rfl, rfl, rfl, by decide⟩

theorem C3_round_robin_lap_witness :
    yield_heads (0 :: [1, 2]).length queue_3 = .ok ([1, 2] ++ [0], queue_3) ∧
      queue_3.head = some 0 ∧ ([1, 2] ++ [0]).Nodup ∧ ([1, 2] ++ [0]).Perm (0 :: [1, 2]) :=
  C3_round_robin_lap.1 queue_3 0 [1, 2] (by decide) (by decide)

/-- C4: on a well-formed queue `h :: m :: r` (at least two members, head `h`)
with a free queue lock, `mythread_exit` run by `h` returns a state in which `h`
is marked `EXITED`, `head` is `m`, `h` is met neither by following `next` nor
by following `prev` from `head` however far, the `next`-order from `head` is
the old one without `h`, and the next `n - 1` turns select exactly the
remaining members `m :: r`, each once, in their previous order after the new
head. -/
theorem C4_exit_leaves_rotation (s : State) (h m : Nat) (r : List Nat) (retval : Option Int)
    (hl : Linked s (h :: m :: r)) (hq : s.queue_futex ≠ 0) :
    ∃ s' out code, mythread_exit s retval = .ok (s', out, code) ∧
      (s'.threads h).state = .EXITED ∧ s'.head = some m ∧
      (∀ k, h ∉ walk s' k s'.head ∧ h ∉ walk_back s' k s'.head) ∧
      walk s (r.length + 2) s.head = h :: m :: r ∧
      walk s' (r.length + 1) s'.head = m :: r ∧
      yield_heads (m :: r).length s' = .ok (r ++ [m], s') ∧
      h ∉ r ++ [m] ∧ (r ++ [m]).Nodup ∧ (r ++ [m]).Perm (m :: r) := by
  obtain ⟨s', e1, e2, e3, _, _, _, e7, _⟩ := mythread_exit_cons_spec s h m r retval hl hq
  have hm := (linked_head e2).1
  have hnot : h ∉ m :: r := (List.nodup_cons.1 hl.2.1).1
  have hq' : s'.queue_futex ≠ 0 := by rw [e3]; exact hq
  refine ⟨s', _, _, e1, by simp [e7], hm, ?_, ?_, ?_, yield_heads_lap s' m r e2 hq', ?_, ?_,
    List.perm_append_singleton m r⟩
  · intro k
    rw [hm]
    exact ⟨fun hx => hnot (linked_walk_mem e2 k m (by simp) h hx),
      fun hx => hnot (linked_walk_back_mem e2 k m (by simp) h hx)⟩
  · simpa using (linked_walk hl).1
  · simpa using (linked_walk e2).1
  · intro hx
    apply hnot
    simp only [List.mem_append, List.mem_singleton] at hx
    rcases hx with e | e
    · simp [e]
    · simp [e]
  · have := e2.2.1
    rw [List.nodup_append_comm]
    simpa using this

theorem C4_exit_leaves_rotation_witness :
    ∃ s' out code, mythread_exit queue_3 none = .ok (s', out, code) ∧
      (s'.threads 0).state = .EXITED ∧ s'.head = some 1 ∧
      (∀ k, 0 ∉ walk s' k s'.head ∧ 0 ∉ walk_back s' k s'.head) ∧
      walk queue_3 ([2].length + 2) queue_3.head = 0 :: 1 :: [2] ∧
      walk s' ([2].length + 1) s'.head = 1 :: [2] ∧
      yield_heads (1 :: [2]).length s' = .ok ([2] ++ [1], s') ∧
      0 ∉ [2] ++ [1] ∧ ([2] ++ [1]).Nodup ∧ ([2] ++ [1]).Perm (1 :: [2]) :=
  C4_exit_leaves_rotation queue_3 0 1 [2] none (by decide) (by decide)

/-! ## The baton protocol -/

/-- C2: with each baton a semaphore counter and with `mythread_create`,
`mythread_yield` (up to its wait), `mythread_exit` and the return from a wait
on one's own futex as the steps, yield and exit being taken by the thread that
`head` designates after it has returned from its wait and exit never by the
idle thread of slot 0: in every reachable state at most one TCB has a
signalled baton (counter above zero), and such a TCB is the one `head`
designates. -/
theorem C2_single_signalled_baton (s : State) (hr : Reach s) :
    (∀ i j, 0 < (s.threads i).fut → 0 < (s.threads j).fut → i = j) ∧
    (∀ i, 0 < (s.threads i).fut → s.head = some i) := by
  obtain ⟨q, hq⟩ := reach_inv s hr
  have key : ∀ i, 0 < (s.threads i).fut → s.head = some i := fun i hi =>
    hq.2.2 i (Nat.pos_iff_ne_zero.1 hi)
  refine ⟨?_, key⟩
  intro i j hi hj
  have h1 := key i hi
  have h2 := key j hj
  rw [h1] at h2
  cases h2
  rfl

theorem thread_1_signalled_reachable : Reach thread_1_signalled :=
  Reach.step idle_running thread_1_signalled
    (Reach.step created_1 idle_running
      (Reach.step initial created_1 Reach.start (Step.create initial created_1 0 0 1 0 rfl))
      (Step.wake created_1 idle_running 0 rfl))
    (Step.yield idle_running thread_1_signalled 0 rfl rfl rfl)

theorem C2_single_signalled_baton_witness :
    Reach thread_1_signalled ∧ (thread_1_signalled.threads 1).fut = 1 ∧
    ((∀ i j, 0 < (thread_1_signalled.threads i).fut → 0 < (thread_1_signalled.threads j).fut →
        i = j) ∧
      (∀ i, 0 < (thread_1_signalled.threads i).fut → thread_1_signalled.head = some i)) :=
  ⟨thread_1_signalled_reachable, by decide,
    C2_single_signalled_baton thread_1_signalled thread_1_signalled_reachable⟩

/-! ## Exit values, join and capacity -/

/-- `mythread_exit` on any well-formed non-empty queue: the head is marked
`EXITED`, no `id`, `func` or `retval` field is written, the location passed as
argument receives the stored `retval` of the head, and that value is also the
status handed to `exit`. -/
theorem mythread_exit_data_spec (s : State) (h : Nat) (r : List Nat) (retval : Option Int)
    (hl : Linked s (h :: r)) (hq : s.queue_futex ≠ 0) :
    ∃ s', mythread_exit s retval =
        .ok (s', (match retval with
          | some _ => some (s.threads h).retval
          | none => none), (s.threads h).retval) ∧
      s'.thread_num = s.thread_num ∧
      (∀ i, (s'.threads i).state = if i = h then .EXITED else (s.threads i).state) ∧
      (∀ i, (s'.threads i).id = (s.threads i).id ∧ (s'.threads i).func = (s.threads i).func ∧
        (s'.threads i).retval = (s.threads i).retval) := by
  cases r with
  | nil =>
    obtain ⟨s', e1, _, _, _, e5, _, e7, e8⟩ := mythread_exit_single_spec s h retval hl hq
    exact ⟨s', e1, e5, e7, fun i => ⟨(e8 i).1, (e8 i).2.1, (e8 i).2.2.1⟩⟩
  | cons m r =>
    obtain ⟨s', e1, _, _, _, e5, _, e7, e8, _⟩ := mythread_exit_cons_spec s h m r retval hl hq
    exact ⟨s', e1, e5, e7, e8⟩

theorem mythread_join_exited (s : State) (t : Nat) (x : Int) (ht : t < THREADS)
    (hid : (s.threads t).id = t) (hst : (s.threads t).state = .EXITED) :
    mythread_join s t (some x) = .ok (0, some (s.threads t).retval) := by
  simp [mythread_join, deref, ht, hid, hst]

theorem mythread_join_zero (s : State) (t : Nat) (st st' : Option Int)
    (h : mythread_join s t st = .ok (0, st')) : (s.threads t).state = .EXITED := by
  by_cases ht : t < THREADS
  · by_cases hid : (s.threads t).id = t
    · by_cases hst : (s.threads t).state = .EXITED
      · exact hst
      · simp [mythread_join, deref, ht, hid, hst] at h
    · simp [mythread_join, deref, ht, hid] at h
  · simp [mythread_join, deref, ht] at h

/-- C5 (the claim as stated fails): thread 1, created, running and at the
head, calls `mythread_exit` with a pointer to a location holding 7; the call
overwrites that location with the stored `retval` 0, and a later
`mythread_join` on thread 1 succeeds with status 0, not 7. -/
theorem C5_exit_argument_not_joined :
    ∃ s' out code, mythread_exit thread_1_running (some 7) = .ok (s', out, code) ∧
      out = some 0 ∧ mythread_join s' 1 (some 99) = .ok (0, some 0) ∧ (0 : Int) ≠ 7 :=
  ⟨_, _, _, rfl, rfl, by decide, by decide⟩

/-- C5 (amended): `mythread_exit` does not store its argument.  For a thread `h`
at the head of a well-formed queue, whatever the argument, the call leaves the
`retval` field of `h` as it was, writes that stored value to the location the
argument points to (when it is not `NULL`), and a `mythread_join` on `h` that
then returns success leaves status equal to that stored `retval`. -/
theorem C5_join_reads_stored_retval (s : State) (h : Nat) (r : List Nat)
    (retval : Option Int) (x : Int) (hl : Linked s (h :: r)) (hq : s.queue_futex ≠ 0)
    (hid : (s.threads h).id = h) :
    ∃ s' out code, mythread_exit s retval = .ok (s', out, code) ∧
      (s'.threads h).retval = (s.threads h).retval ∧
      out = (match retval with
        | some _ => some (s.threads h).retval
        | none => none) ∧
      code = (s.threads h).retval ∧
      mythread_join s' h (some x) = .ok (0, some (s.threads h).retval) := by
  obtain ⟨s', e1, _, e3, e4⟩ := mythread_exit_data_spec s h r retval hl hq
  refine ⟨s', _, _, e1, (e4 h).2.2, rfl, rfl, ?_⟩
  have := mythread_join_exited s' h x (linked_head hl).2 (by rw [(e4 h).1, hid])
    (by rw [e3 h, if_pos rfl])
  rw [this, (e4 h).2.2]

theorem C5_join_reads_stored_retval_witness :
    ∃ s' out code, mythread_exit thread_1_running (some 7) = .ok (s', out, code) ∧
      (s'.threads 1).retval = (thread_1_running.threads 1).retval ∧
      out = (match (some 7 : Option Int) with
        | some _ => some (thread_1_running.threads 1).retval
        | none => none) ∧
      code = (thread_1_running.threads 1).retval ∧
      mythread_join s' 1 (some 99) = .ok (0, some (thread_1_running.threads 1).retval) :=
  C5_join_reads_stored_retval thread_1_running 1 [0] (some 7) 99 (by decide) (by decide)
    (by decide)

/-- C6: `mythread_join` returns 0 only in a state where the target's state is
`EXITED`, and while the target exists and has not exited it does not return.
When `thread_wrapper` runs thread `t` (its wait returns, the entry function
returns `r` with `t` at the head of a well-formed queue), the wrapper completes
with `t` marked `EXITED` and `retval` equal to `r` converted to `int`, and a
`mythread_join` on `t` then returns 0 with status equal to that value.  For
thread 5 returning 42, join observes 42. -/
theorem C6_join_after_wrapper :
    (∀ (s : State) (t : Nat) (st st' : Option Int),
      mythread_join s t st = .ok (0, st') → (s.threads t).state = .EXITED) ∧
    (∀ (s : State) (t : Nat) (st : Option Int), t < THREADS → (s.threads t).id = t →
      (s.threads t).state ≠ .EXITED → mythread_join s t st = .blocked) ∧
    (∀ (s s1 s2 : State) (t r : Nat) (q : List Nat) (body : State → Res (State × Nat))
      (x : Int),
      thread_wrapper_wait s t = .ok s1 → body s1 = .ok (s2, r) → Linked s2 (t :: q) →
      s2.queue_futex ≠ 0 → (s2.threads t).id = t →
      ∃ s' out code, thread_wrapper s t body = .ok (s', out, code) ∧
        (s'.threads t).state = .EXITED ∧ (s'.threads t).retval = to_int r ∧
        mythread_join s' t (some x) = .ok (0, some (to_int r))) ∧
    (thread_wrapper thread_5_signalled 5 (fun s => .ok (s, 42))).bind
      (fun p => mythread_join p.1 5 (some 0)) = .ok (0, some 42) := by
  refine ⟨mythread_join_zero, ?_, ?_, by decide⟩
  · intro s t st ht hid hst
    simp [mythread_join, deref, ht, hid, hst]
  · intro s s1 s2 t r q body x hw hb hl hq hid
    have ht := (linked_head hl).2
    have hl' : Linked (setRetval s2 t (to_int r)) (t :: q) :=
      linked_of_links_eq s2 _ _ rfl
        (fun i => by simp only [modify_threads]; split_ifs <;> subst_vars <;> rfl)
        (fun i => by simp only [modify_threads]; split_ifs <;> subst_vars <;> rfl) hl
    obtain ⟨s', e1, _, e3, e4⟩ := mythread_exit_data_spec _ t q none hl' hq
    have hret : ((setRetval s2 t (to_int r)).threads t).retval = to_int r := by
      simp
    have hid' : ((setRetval s2 t (to_int r)).threads t).id = t := by
      simpa using hid
    refine ⟨s', none, ((setRetval s2 t (to_int r)).threads t).retval, ?_,
      by rw [e3 t, if_pos rfl], by rw [(e4 t).2.2, hret], ?_⟩
    · simp only [thread_wrapper, hw, Res.ok_bind, hb, deref, ht, if_true]
      exact e1
    · have := mythread_join_exited s' t x ht (by rw [(e4 t).1, hid'])
        (by rw [e3 t, if_pos rfl])
      rw [this, (e4 t).2.2, hret]

theorem C6_join_after_wrapper_witness :
    ((Res.stateD (thread_wrapper thread_5_signalled 5 (fun s => .ok (s, 42)))).threads 5).state =
      .EXITED ∧
    (mythread_join initial 0 (some 5) = .blocked) ∧
    (∃ s' out code, thread_wrapper thread_5_signalled 5 (fun s => .ok (s, 42)) =
        .ok (s', out, code) ∧
      (s'.threads 5).state = .EXITED ∧ (s'.threads 5).retval = to_int 42 ∧
      mythread_join s' 5 (some 0) = .ok (0, some (to_int 42))) :=
  ⟨C6_join_after_wrapper.1
    (Res.stateD (thread_wrapper thread_5_signalled 5 (fun s => .ok (s, 42)))) 5 (some 0)
    (some 42) (by decide),
   C6_join_after_wrapper.2.1 initial 0 (some 5) (by decide) (by decide) (by decide),
   C6_join_after_wrapper.2.2.1 thread_5_signalled
    (Res.getD (thread_wrapper_wait thread_5_signalled 5))
    (Res.getD (thread_wrapper_wait thread_5_signalled 5)) 5 42 [0, 1, 2, 3, 4]
    (fun s => .ok (s, 42)) 0 rfl rfl (by decide) (by decide) (by decide)⟩

/-- C7 (the claim as stated fails): before any create, `mythread_join(0, status)`
finds `threads[0].id == 0` and waits for ever on a state that is not `EXITED`;
and `mythread_join(101, status)` reads `threads[101]`, outside the pool. -/
theorem C7_join_unassigned_zero_or_out_of_pool :
    mythread_join initial 0 (some 5) = .blocked ∧
    mythread_join initial 101 (some 5) = .fault := by
  constructor <;> decide

/-- C7 (amended): in every state reached by calls into the library, for every
thread id `t` with `1 ≤ t < 101` that no `mythread_create` has assigned to a
slot (`t` at or above the slot counter), `mythread_join(t, status)` returns -1
without waiting on the slot's state and without writing status. -/
theorem C7_join_unassigned_in_pool (s : State) (t : Nat) (status : Option Int)
    (hr : Called s) (h1 : 1 ≤ t) (h2 : t < THREADS) (h3 : s.thread_num ≤ t) :
    mythread_join s t status = .ok (-1, status) := by
  obtain ⟨q, hq⟩ := called_poolInv s hr
  have hid : (s.threads t).id = 0 := hq.2.2.2.2.2.2 t h3
  have hne : ¬ (s.threads t).id = t := by
    rw [hid]
    omega
  simp [mythread_join, deref, h2, hne]

theorem created_1_called : Called created_1 :=
  Called.step initial created_1 Called.start (Call.create initial created_1 0 0 1 0 rfl)

theorem C7_join_unassigned_in_pool_witness :
    Called created_1 ∧ created_1.thread_num = 2 ∧
    mythread_join created_1 2 (some 5) = .ok (-1, some 5) :=
  ⟨created_1_called, by decide,
    C7_join_unassigned_in_pool created_1 2 (some 5) created_1_called (by decide) (by decide)
      (by decide)⟩

theorem create_thread_ret (s s' : State) (start_func arg k : Nat) (ret : Int)
    (h : create_thread s start_func arg = .ok (s', k, ret)) :
    ret = 0 ∧ k = s.thread_num ∧ s.thread_num < THREADS := by
  by_cases hn : s.thread_num < THREADS
  · rw [create_thread_eq s start_func arg hn] at h
    cases hi : insert_at_tail (slot_prepared s start_func arg) s.thread_num with
    | ok s1 =>
      rw [hi] at h
      simp only [Res.bind, Res.ok.injEq, Prod.mk.injEq] at h
      exact ⟨h.2.2.symm, h.2.1.symm, hn⟩
    | blocked => rw [hi] at h; cases h
    | fault => rw [hi] at h; cases h
  · rw [create_thread_fault s start_func arg hn] at h
    cases h

set_option maxRecDepth 100000 in
/-- C8 (the claim as stated fails): after 100 calls of `mythread_create` the slot
counter equals `THREADS`, and one more call does not return an error with the
state unchanged: it indexes `threads[101]`, outside the pool. -/
theorem C8_create_beyond_capacity_faults :
    pool_full.thread_num = THREADS ∧ mythread_create pool_full 0 0 = .fault :=
  ⟨by decide, rfl⟩

/-- C8 (amended): `mythread_create` has no capacity check and no error return.
In every state where the slot counter equals `THREADS` a further call indexes
the pool at `threads[THREADS]`, outside the pool, and so has no defined result;
and whenever `mythread_create` returns, it returns 0 and the slot counter was
below `THREADS`. -/
theorem C8_create_has_no_capacity_check :
    (∀ (s : State) (start_func arg : Nat), s.thread_num = THREADS →
      mythread_create s start_func arg = .fault) ∧
    (∀ (s s' : State) (start_func arg k : Nat) (ret : Int),
      mythread_create s start_func arg = .ok (s', k, ret) →
      ret = 0 ∧ s.thread_num < THREADS) := by
  constructor
  · intro s start_func arg h
    have h0 : s.thread_num ≠ 0 := by rw [h]; decide
    have hn : ¬ s.thread_num < THREADS := by rw [h]; exact Nat.lt_irrefl _
    simp only [mythread_create, h0, if_false, Res.pure_eq, Res.ok_bind,
      create_thread_fault s start_func arg hn]
  · intro s s' start_func arg k ret h
    refine ⟨?_, mythread_create_ok_lt s s' start_func arg k ret h⟩
    by_cases h0 : s.thread_num = 0
    · simp only [mythread_create, h0, if_true] at h
      cases hb : create_bootstrap s with
      | ok s1 =>
        rw [hb] at h
        exact (create_thread_ret s1 s' start_func arg k ret h).1
      | blocked => rw [hb] at h; cases h
      | fault => rw [hb] at h; cases h
    · simp only [mythread_create, h0, if_false, Res.pure_eq, Res.ok_bind] at h
      exact (create_thread_ret s s' start_func arg k ret h).1

set_option maxRecDepth 100000 in
theorem C8_create_has_no_capacity_check_witness :
    mythread_create pool_full 7 8 = .fault ∧ ((0 : Int) = 0 ∧ initial.thread_num < THREADS) :=
  ⟨C8_create_has_no_capacity_check.1 pool_full 7 8 (by decide),
   C8_create_has_no_capacity_check.2 initial created_1 0 0 1 0 rfl⟩

/-! ## Frame properties of the queue operations -/

/-- C11: `move_head()` on an empty queue leaves the state unchanged (it
returns when the queue lock is free and otherwise stays blocked on the lock).
On a well-formed queue with members `h :: r` in `next`-order and a free lock it
returns with `head = h.next`, the `next`-order from `head` is the rotation
`r ++ [h]`, the members are the same, and no TCB has changed at all: the pool,
and so every `next` and `prev` link, is as before. -/
theorem C11_move_head_rotates :
    (∀ s : State, s.head = none →
      (s.queue_futex ≠ 0 → move_head s = .ok s) ∧
      (s.queue_futex = 0 → move_head s = .blocked)) ∧
    (∀ (s : State) (h : Nat) (r : List Nat), Linked s (h :: r) → s.queue_futex ≠ 0 →
      ∃ s', move_head s = .ok s' ∧ s'.head = (s.threads h).next ∧
        Linked s' (r ++ [h]) ∧ walk s' (r.length + 1) s'.head = r ++ [h] ∧
        (∀ m, m ∈ r ++ [h] ↔ m ∈ h :: r) ∧ s'.threads = s.threads ∧
        (∀ i, (s'.threads i).next = (s.threads i).next ∧
          (s'.threads i).prev = (s.threads i).prev)) := by
  constructor
  · intro s hh
    exact ⟨move_head_empty_spec s hh, move_head_blocked s⟩
  · intro s h r hl hq
    obtain ⟨s', h1, h2, h3, h4, _⟩ := linked_move_cons s h r hl hq
    refine ⟨s', h1, h4, h2, ?_, ?_, h3, fun i => by rw [h3]; exact ⟨rfl, rfl⟩⟩
    · simpa using (linked_walk h2).1
    · intro m
      simp only [List.mem_append, List.mem_singleton, List.mem_cons]
      tauto

theorem C11_move_head_rotates_witness :
    (move_head { queue_1 with head := none } = .ok { queue_1 with head := none } ∧
      move_head initial = .blocked) ∧
    (∃ s', move_head queue_3 = .ok s' ∧ s'.head = (queue_3.threads 0).next ∧
        Linked s' ([1, 2] ++ [0]) ∧ walk s' ([1, 2].length + 1) s'.head = [1, 2] ++ [0] ∧
        (∀ m, m ∈ [1, 2] ++ [0] ↔ m ∈ 0 :: [1, 2]) ∧ s'.threads = queue_3.threads ∧
        (∀ i, (s'.threads i).next = (queue_3.threads i).next ∧
          (s'.threads i).prev = (queue_3.threads i).prev)) :=
  ⟨⟨(C11_move_head_rotates.1 { queue_1 with head := none } rfl).1 (by decide),
    (C11_move_head_rotates.1 initial rfl).2 rfl⟩,
   C11_move_head_rotates.2 queue_3 0 [1, 2] (by decide) (by decide)⟩

/-- C19: `remove_from_head` never writes the `next` and `prev` fields of the TCB
it removes.  On a well-formed queue `h :: m :: r` with a free lock, after the
call the fields of `h` are as before, so the stale `h.next` is the new head
`m` and the stale `h.prev` is the tail, which is the `prev` of the new head.
On a queue whose only member is `h`, `h.next = h.prev = h` remain while `head`
is `NULL`. -/
theorem C19_removed_links_stale :
    (∀ (s : State) (h m : Nat) (r : List Nat), Linked s (h :: m :: r) → s.queue_futex ≠ 0 →
      ∃ s', remove_from_head s = .ok s' ∧ s'.head = some m ∧
        (s'.threads h).next = (s.threads h).next ∧ (s'.threads h).prev = (s.threads h).prev ∧
        (s'.threads h).next = s'.head ∧ (s'.threads h).prev = (s'.threads m).prev ∧
        (s'.threads h).prev = some ((m :: r).getLast (List.cons_ne_nil m r))) ∧
    (∀ (s : State) (h : Nat), Linked s [h] → s.queue_futex ≠ 0 →
      ∃ s', remove_from_head s = .ok s' ∧ s'.head = none ∧
        (s'.threads h).next = some h ∧ (s'.threads h).prev = some h) := by
  constructor
  · intro s h m r hl hq
    obtain ⟨s', e1, e2, _, _, _, e6, e7⟩ := linked_remove_cons s h m r hl hq
    have h2 := linked_second hl
    have htl := linked_tail hl
    have hlast : (h :: m :: r).getLast (List.cons_ne_nil h (m :: r)) =
        (m :: r).getLast (List.cons_ne_nil m r) := List.getLast_cons (List.cons_ne_nil m r)
    rw [hlast] at htl
    have hmem : (m :: r).getLast (List.cons_ne_nil m r) ∈ m :: r := List.getLast_mem _
    have hph : h ≠ (m :: r).getLast (List.cons_ne_nil m r) := fun e => by
      rw [← e] at hmem
      exact (List.nodup_cons.1 hl.2.1).1 hmem
    have hmh : h ≠ m := fun e => h2.2.2.2 e.symm
    have hn : (s'.threads h).next = (s.threads h).next := by rw [e6, if_neg hph]
    have hp : (s'.threads h).prev = (s.threads h).prev := by rw [e7, if_neg hmh]
    refine ⟨s', e1, (linked_head e2).1, hn, hp, ?_, ?_, ?_⟩
    · rw [hn, h2.1, (linked_head e2).1]
    · rw [hp, htl.1, e7, if_pos rfl]
    · rw [hp, htl.1]
  · intro s h hl hq
    have h1 := linked_remove_single s h hl hq
    have h2 := linked_single_next hl
    exact ⟨_, h1.1, rfl, h2.1, h2.2⟩

theorem C19_removed_links_stale_witness :
    (∃ s', remove_from_head queue_3 = .ok s' ∧ s'.head = some 1 ∧
        (s'.threads 0).next = (queue_3.threads 0).next ∧
        (s'.threads 0).prev = (queue_3.threads 0).prev ∧
        (s'.threads 0).next = s'.head ∧ (s'.threads 0).prev = (s'.threads 1).prev ∧
        (s'.threads 0).prev = some ((1 :: [2]).getLast (List.cons_ne_nil 1 [2]))) ∧
    (∃ s', remove_from_head queue_1 = .ok s' ∧ s'.head = none ∧
        (s'.threads 0).next = some 0 ∧ (s'.threads 0).prev = some 0) :=
  ⟨C19_removed_links_stale.1 queue_3 0 1 [2] (by decide) (by decide),
   C19_removed_links_stale.2 queue_1 0 (by decide) (by decide)⟩

/-! ## Exit and yield as baton hand-overs -/

/-- C12 (the claim as stated fails): with idle slot 0 the only member of a
well-formed queue, `mythread_exit` empties the queue, so that `head`
designates no TCB after `remove_from_head`, and the baton it increments is the
one of the removed slot 0 itself. -/
theorem C12_exit_of_last_member_signals_itself :
    Linked thread_1_exited [0] ∧
    ∃ s1 s' out code, remove_from_head thread_1_exited = .ok s1 ∧ s1.head = none ∧
      mythread_exit thread_1_exited none = .ok (s', out, code) ∧ s'.head = none ∧
      (s'.threads 0).fut = (thread_1_exited.threads 0).fut + 1 :=
  ⟨by decide, _, _, _, _, rfl, rfl, rfl, rfl, by decide⟩

/-- C12 (amended): on a well-formed queue with at least two members `h :: m :: r`
and a free queue lock, the single baton that `mythread_exit` increments is the
baton of `m`, the TCB that `head` designates after `remove_from_head` has run,
and no other baton changes.  On a queue whose only member is `h`, `head` is
`NULL` after `remove_from_head` and the single baton incremented is the one of
`h` itself, through its stale `next` link. -/
theorem C12_exit_signals_stale_next :
    (∀ (s : State) (h m : Nat) (r : List Nat) (retval : Option Int),
      Linked s (h :: m :: r) → s.queue_futex ≠ 0 →
      ∃ s1 s' out code, remove_from_head s = .ok s1 ∧ s1.head = some m ∧
        mythread_exit s retval = .ok (s', out, code) ∧ s'.head = some m ∧
        (∀ i, (s'.threads i).fut =
          if i = m then (s.threads i).fut + 1 else (s.threads i).fut)) ∧
    (∀ (s : State) (h : Nat) (retval : Option Int), Linked s [h] → s.queue_futex ≠ 0 →
      ∃ s1 s' out code, remove_from_head s = .ok s1 ∧ s1.head = none ∧
        mythread_exit s retval = .ok (s', out, code) ∧ s'.head = none ∧
        (∀ i, (s'.threads i).fut =
          if i = h then (s.threads i).fut + 1 else (s.threads i).fut)) := by
  constructor
  · intro s h m r retval hl hq
    obtain ⟨s1, r1, r2, _⟩ := linked_remove_cons s h m r hl hq
    obtain ⟨s', e1, e2, _, _, _, e6, _⟩ := mythread_exit_cons_spec s h m r retval hl hq
    exact ⟨s1, s', _, _, r1, (linked_head r2).1, e1, (linked_head e2).1, e6⟩
  · intro s h retval hl hq
    have r1 := linked_remove_single s h hl hq
    obtain ⟨s', e1, e2, _, _, _, e6, _⟩ := mythread_exit_single_spec s h retval hl hq
    exact ⟨_, s', _, _, r1.1, rfl, e1, e2, e6⟩

theorem C12_exit_signals_stale_next_witness :
    (∃ s1 s' out code, remove_from_head thread_1_running = .ok s1 ∧ s1.head = some 0 ∧
        mythread_exit thread_1_running none = .ok (s', out, code) ∧ s'.head = some 0 ∧
        (∀ i, (s'.threads i).fut =
          if i = 0 then (thread_1_running.threads i).fut + 1
          else (thread_1_running.threads i).fut)) ∧
    (∃ s1 s' out code, remove_from_head thread_1_exited = .ok s1 ∧ s1.head = none ∧
        mythread_exit thread_1_exited none = .ok (s', out, code) ∧ s'.head = none ∧
        (∀ i, (s'.threads i).fut =
          if i = 0 then (thread_1_exited.threads i).fut + 1
          else (thread_1_exited.threads i).fut)) :=
  ⟨C12_exit_signals_stale_next.1 thread_1_running 1 0 [] none (by decide) (by decide),
   C12_exit_signals_stale_next.2 thread_1_exited 0 none (by decide) (by decide)⟩

theorem baton_down_ok (s : State) (t : Nat) (ht : t < THREADS) (hf : (s.threads t).fut ≠ 0) :
    baton_down s (some t) = .ok (setFut s t ((s.threads t).fut - 1)) := by
  simp only [baton_down, deref, ht, if_true, Res.ok_bind, futex_down, hf, if_false,
    Res.pure_eq]

theorem baton_down_blocked (s : State) (t : Nat) (ht : t < THREADS)
    (hf : (s.threads t).fut = 0) : baton_down s (some t) = .blocked := by
  simp only [baton_down, deref, ht, if_true, Res.ok_bind, futex_down, hf, Res.blocked_bind]

/-- C17: on a well-formed queue with head `p` and a free queue lock,
`mythread_yield` first sets `head` to `p.next` and increments the baton of the
new head by one (state `s1`), then waits on the baton of `p`: when that counter
is zero in `s1` the call blocks, and otherwise it decrements it (state `s2`)
and returns 0.  The call changes no `next` or `prev` link, no `state` and no
`retval` (nor any `id` or `func`).  When `p` is the only member the wait is
satisfied by the signal of the call itself: the call returns 0 and the whole
state is as before. -/
theorem C17_yield_hands_over :
    (∀ (s : State) (p : Nat) (r : List Nat), Linked s (p :: r) → s.queue_futex ≠ 0 →
      ∃ s1 s2 m, mythread_yield_signal s = .ok s1 ∧ (s.threads p).next = some m ∧
        s1.head = some m ∧
        (∀ i, (s1.threads i).fut = if i = m then (s.threads i).fut + 1 else (s.threads i).fut) ∧
        mythread_yield s =
          (if (s1.threads p).fut = 0 then .blocked else .ok (s2, 0)) ∧
        s2.head = some m ∧ Linked s2 (r ++ [p]) ∧
        (∀ i, (s2.threads i).fut =
          if i = p then (s1.threads i).fut - 1 else (s1.threads i).fut) ∧
        (∀ i, (s2.threads i).next = (s.threads i).next ∧
          (s2.threads i).prev = (s.threads i).prev ∧
          (s2.threads i).state = (s.threads i).state ∧
          (s2.threads i).retval = (s.threads i).retval ∧
          (s2.threads i).id = (s.threads i).id ∧
          (s2.threads i).func = (s.threads i).func)) ∧
    (∀ (s : State) (p : Nat), Linked s [p] → s.queue_futex ≠ 0 →
      (s.threads p).next = some p ∧ mythread_yield s = .ok (s, 0)) := by
  constructor
  · intro s p r hl hq
    have hh := linked_head hl
    obtain ⟨s1, m, e1, e2, e3, e4, _, _, _, e8, e9⟩ := mythread_yield_signal_spec s p r hl hq
    have hn : (s.threads p).next = some m := by rw [linked_next_head hl, e2]
    have hy : mythread_yield s = (baton_down s1 (some p)).bind (fun s2 => .ok (s2, 0)) := by
      simp only [mythread_yield, e1, Res.ok_bind, hh.1]
      rfl
    refine ⟨s1, setFut s1 p ((s1.threads p).fut - 1), m, e1, hn, e4, e8, ?_, e4, ?_, ?_, ?_⟩
    · by_cases hf : (s1.threads p).fut = 0
      · rw [if_pos hf, hy, baton_down_blocked s1 p hh.2 hf]
        rfl
      · rw [if_neg hf, hy, baton_down_ok s1 p hh.2 hf]
        rfl
    · exact linked_of_links_eq s1 _ _ rfl
        (fun i => by simp only [modify_threads]; split_ifs <;> subst_vars <;> rfl)
        (fun i => by simp only [modify_threads]; split_ifs <;> subst_vars <;> rfl) e3
    · intro i
      simp only [modify_threads]
      split_ifs <;> subst_vars <;> rfl
    · intro i
      rw [← (e9 i).1, ← (e9 i).2.1, ← (e9 i).2.2.1, ← (e9 i).2.2.2.1, ← (e9 i).2.2.2.2.1,
        ← (e9 i).2.2.2.2.2]
      simp only [modify_threads]
      refine ⟨?_, ?_, ?_, ?_, ?_, ?_⟩ <;> split_ifs <;> subst_vars <;> rfl
  · intro s p hl hq
    have hh := linked_head hl
    have hn := (linked_single_next hl).1
    have ht := turn_spec s p [] hl hq
    rw [hn] at ht
    have hs : { s with head := some p } = s := by
      cases s
      simp_all
    rw [hs] at ht
    obtain ⟨s1, m, e1, e2, _, e4, _⟩ := mythread_yield_signal_spec s p [] hl hq
    have hm : m = p := by
      simp only [List.nil_append, List.head?_cons, Option.some.injEq] at e2
      exact e2.symm
    subst hm
    refine ⟨hn, ?_⟩
    simp only [turn, e1, Res.ok_bind, e4] at ht
    simp only [mythread_yield, e1, Res.ok_bind, hh.1, ht]
    rfl

theorem C17_yield_hands_over_witness :
    (∃ s1 s2 m, mythread_yield_signal created_1 = .ok s1 ∧
        (created_1.threads 0).next = some m ∧ s1.head = some m ∧
        (∀ i, (s1.threads i).fut =
          if i = m then (created_1.threads i).fut + 1 else (created_1.threads i).fut) ∧
        mythread_yield created_1 =
          (if (s1.threads 0).fut = 0 then .blocked else .ok (s2, 0)) ∧
        s2.head = some m ∧ Linked s2 ([1] ++ [0]) ∧
        (∀ i, (s2.threads i).fut =
          if i = 0 then (s1.threads i).fut - 1 else (s1.threads i).fut) ∧
        (∀ i, (s2.threads i).next = (created_1.threads i).next ∧
          (s2.threads i).prev = (created_1.threads i).prev ∧
          (s2.threads i).state = (created_1.threads i).state ∧
          (s2.threads i).retval = (created_1.threads i).retval ∧
          (s2.threads i).id = (created_1.threads i).id ∧
          (s2.threads i).func = (created_1.threads i).func)) ∧
    ((thread_1_exited.threads 0).next = some 0 ∧
      mythread_yield thread_1_exited = .ok (thread_1_exited, 0)) :=
  ⟨C17_yield_hands_over.1 created_1 0 [1] (by decide) (by decide),
   C17_yield_hands_over.2 thread_1_exited 0 (by decide) (by decide)⟩

/-! ## The `state` field -/

theorem Res.bind_eq_ok {α β : Type} (x : Res α) (f : α → Res β) (b : β) :
    (x >>= f) = .ok b ↔ ∃ a, x = .ok a ∧ f a = .ok b := by
  cases x with
  | ok a => simp
  | blocked => simp
  | fault => simp

theorem stateKept_refl (s : State) : StateKept s s := fun _ => rfl

theorem stateKept_trans {s s' s'' : State} (h1 : StateKept s s') (h2 : StateKept s' s'') :
    StateKept s s'' := fun i => (h2 i).trans (h1 i)

theorem stateKept_modify (s : State) (i : Nat) (f : queue_entry → queue_entry)
    (hf : ∀ e, (f e).state = e.state) : StateKept s (modify s i f) := by
  intro j
  simp only [modify_threads]
  split_ifs with e
  · subst e
    exact hf _
  · rfl

theorem store_next_state (s s' : State) (p v : Option Nat) (h : store_next s p v = .ok s') :
    StateKept s s' := by
  simp only [store_next, Res.bind_eq_ok, Res.pure_eq, Res.ok.injEq] at h
  obtain ⟨i, _, rfl⟩ := h
  exact stateKept_modify s i _ (fun _ => rfl)

theorem store_prev_state (s s' : State) (p v : Option Nat) (h : store_prev s p v = .ok s') :
    StateKept s s' := by
  simp only [store_prev, Res.bind_eq_ok, Res.pure_eq, Res.ok.injEq] at h
  obtain ⟨i, _, rfl⟩ := h
  exact stateKept_modify s i _ (fun _ => rfl)

theorem baton_up_state (s s' : State) (p : Option Nat) (h : baton_up s p = .ok s') :
    StateKept s s' := by
  simp only [baton_up, Res.bind_eq_ok, Res.pure_eq, Res.ok.injEq] at h
  obtain ⟨i, _, rfl⟩ := h
  exact stateKept_modify s i _ (fun _ => rfl)

theorem baton_down_state (s s' : State) (p : Option Nat) (h : baton_down s p = .ok s') :
    StateKept s s' := by
  simp only [baton_down, Res.bind_eq_ok, Res.pure_eq, Res.ok.injEq] at h
  obtain ⟨i, _, c, _, rfl⟩ := h
  exact stateKept_modify s i _ (fun _ => rfl)

theorem queue_lock_state (s s' : State) (h : queue_lock s = .ok s') :
    StateKept s s' ∧ s'.head = s.head := by
  simp only [queue_lock, Res.bind_eq_ok, Res.pure_eq, Res.ok.injEq] at h
  obtain ⟨c, _, rfl⟩ := h
  exact ⟨fun _ => rfl, rfl⟩

theorem queue_unlock_state (s : State) : StateKept s (queue_unlock s) := fun _ => rfl

/-- `insert_at_tail` writes no `state` field, in whatever state it is called. -/
theorem insert_at_tail_state (s s' : State) (t : Nat) (h : insert_at_tail s t = .ok s') :
    StateKept s s' := by
  simp only [insert_at_tail, Res.bind_eq_ok] at h
  obtain ⟨s1, h1, h2⟩ := h
  have k1 : StateKept s s1 := by
    have := (queue_lock_state _ s1 h1).1
    intro i
    rw [this i]
    split_ifs <;> rfl
  refine stateKept_trans k1 ?_
  split_ifs at h2
  · simp only [Res.bind_eq_ok, Res.pure_eq, Res.ok.injEq] at h2
    obtain ⟨s3, h3, s4, h4, rfl⟩ := h2
    have a3 := store_next_state _ _ _ _ h3
    have a4 := store_prev_state _ _ _ _ h4
    intro i
    rw [queue_unlock_state s4 i, a4 i, a3 i]
  · simp only [Res.bind_eq_ok, Res.pure_eq, Res.ok.injEq] at h2
    obtain ⟨_, _, s3, h3, _, _, s4, h4, s5, h5, s6, h6, rfl⟩ := h2
    have a3 := store_prev_state _ _ _ _ h3
    have a4 := store_next_state _ _ _ _ h4
    have a5 := store_prev_state _ _ _ _ h5
    have a6 := store_next_state _ _ _ _ h6
    intro i
    rw [queue_unlock_state s6 i, a6 i, a5 i, a4 i, a3 i]

/-- `move_head` writes no `state` field, in whatever state it is called. -/
theorem move_head_state (s s' : State) (h : move_head s = .ok s') : StateKept s s' := by
  simp only [move_head, Res.bind_eq_ok] at h
  obtain ⟨s1, h1, h2⟩ := h
  have k1 := (queue_lock_state _ s1 h1).1
  refine stateKept_trans k1 ?_
  split_ifs at h2
  · simp only [Res.bind_eq_ok, Res.pure_eq, Res.ok.injEq] at h2
    obtain ⟨_, _, _, rfl, rfl⟩ := h2
    exact fun _ => rfl
  · simp only [Res.pure_eq, Res.ok_bind, Res.ok.injEq] at h2
    subst h2
    exact fun _ => rfl

/-- `remove_from_head` writes no `state` field, in whatever state it is called. -/
theorem remove_from_head_state (s s' : State) (h : remove_from_head s = .ok s') :
    StateKept s s' := by
  simp only [remove_from_head, Res.bind_eq_ok] at h
  obtain ⟨s1, h1, h2⟩ := h
  have k1 := (queue_lock_state _ s1 h1).1
  refine stateKept_trans k1 ?_
  split_ifs at h2
  · simp only [Res.pure_eq, Res.ok.injEq] at h2
    subst h2
    exact fun _ => rfl
  · simp only [Res.bind_eq_ok] at h2
    obtain ⟨n, _, h3⟩ := h2
    split_ifs at h3
    · simp only [Res.pure_eq, Res.ok.injEq] at h3
      subst h3
      exact fun _ => rfl
    · simp only [Res.bind_eq_ok, Res.pure_eq, Res.ok.injEq] at h3
      obtain ⟨_, _, _, _, s2, h4, _, _, _, _, s3, h5, _, _, rfl⟩ := h3
      have a4 := store_next_state _ _ _ _ h4
      have a5 := store_prev_state _ _ _ _ h5
      intro i
      show (s3.threads i).state = _
      rw [a5 i, a4 i]

theorem Res.bind_ok_iff {α β : Type} (x : Res α) (f : α → Res β) (b : β) :
    x.bind f = .ok b ↔ ∃ a, x = .ok a ∧ f a = .ok b :=
  Res.bind_eq_ok x f b

/-- Lines 163-177 write no `state` field, not even in the slot they set up. -/
theorem create_thread_state (s s' : State) (start_func arg k : Nat) (ret : Int)
    (h : create_thread s start_func arg = .ok (s', k, ret)) : StateKept s s' := by
  by_cases hn : s.thread_num < THREADS
  · rw [create_thread_eq s start_func arg hn, Res.bind_ok_iff] at h
    obtain ⟨s1, h1, h2⟩ := h
    simp only [Res.ok.injEq, Prod.mk.injEq] at h2
    obtain ⟨rfl, _, _⟩ := h2
    have a1 := insert_at_tail_state _ _ _ h1
    intro i
    show (s1.threads i).state = _
    rw [a1 i, ((slot_prepared_facts s start_func arg).2.2.2.2.1 i).2.2.1]
  · rw [create_thread_fault s start_func arg hn] at h
    cases h

/-- Lines 150-160 write no `state` field. -/
theorem create_bootstrap_state (s s' : State) (h : create_bootstrap s = .ok s') :
    StateKept s s' := by
  by_cases hn : s.thread_num < THREADS
  · rw [create_bootstrap_eq s hn, Res.bind_ok_iff] at h
    obtain ⟨s1, h1, h2⟩ := h
    simp only [Res.ok.injEq] at h2
    subst h2
    have a1 := insert_at_tail_state _ _ _ h1
    intro i
    show (s1.threads i).state = _
    rw [a1 i, ((idle_prepared_facts s).2.2.2.2.1 i).2.2.1]
  · simp [create_bootstrap, deref, hn] at h

/-- `mythread_create` writes no `state` field, in whatever state it is called. -/
theorem mythread_create_state (s s' : State) (start_func arg k : Nat) (ret : Int)
    (h : mythread_create s start_func arg = .ok (s', k, ret)) : StateKept s s' := by
  simp only [mythread_create] at h
  split_ifs at h
  · simp only [Res.bind_eq_ok] at h
    obtain ⟨s1, h1, h2⟩ := h
    exact stateKept_trans (create_bootstrap_state _ _ h1) (create_thread_state _ _ _ _ _ _ h2)
  · simp only [Res.pure_eq, Res.ok_bind] at h
    exact create_thread_state _ _ _ _ _ _ h

/-- `mythread_yield` up to its wait writes no `state` field. -/
theorem mythread_yield_signal_state (s s' : State) (h : mythread_yield_signal s = .ok s') :
    StateKept s s' := by
  simp only [mythread_yield_signal, Res.bind_eq_ok] at h
  obtain ⟨s1, h1, h2⟩ := h
  exact stateKept_trans (move_head_state _ _ h1) (baton_up_state _ _ _ h2)

/-- `mythread_yield` writes no `state` field, in whatever state it is called. -/
theorem mythread_yield_state (s s' : State) (ret : Int)
    (h : mythread_yield s = .ok (s', ret)) : StateKept s s' := by
  simp only [mythread_yield, Res.bind_eq_ok, Res.pure_eq, Res.ok.injEq, Prod.mk.injEq] at h
  obtain ⟨s1, h1, s2, h2, rfl, _⟩ := h
  exact stateKept_trans (mythread_yield_signal_state _ _ h1) (baton_down_state _ _ _ h2)

/-- `mythread_exit` writes exactly one `state` field: it marks the TCB that
`head` designates at the call as `EXITED`. -/
theorem mythread_exit_state (s s' : State) (retval out : Option Int) (code : Int)
    (h : mythread_exit s retval = .ok (s', out, code)) :
    ∃ t, s.head = some t ∧
      ∀ i, (s'.threads i).state = if i = t then .EXITED else (s.threads i).state := by
  simp only [mythread_exit, Res.bind_eq_ok, Res.pure_eq, Res.ok.injEq, Prod.mk.injEq] at h
  obtain ⟨s1, h1, n, _, s2, h2, t, ht, _, _, rfl, _⟩ := h
  have a1 := remove_from_head_state _ _ h1
  have a2 := baton_up_state _ _ _ h2
  have hh : s.head = some t := by
    cases hs : s.head with
    | none => rw [hs] at ht; simp [deref] at ht
    | some x =>
      rw [hs] at ht
      simp only [deref] at ht
      split_ifs at ht
      simp only [Res.ok.injEq] at ht
      rw [ht]
  refine ⟨t, hh, ?_⟩
  intro i
  simp only [modify_threads]
  split_ifs with e
  · rfl
  · rw [a2 i, a1 i]

theorem call_state (s s' : State) (h : Call s s') (i : Nat)
    (he : (s.threads i).state = .EXITED) : (s'.threads i).state = .EXITED := by
  cases h with
  | create start_func arg k ret hs =>
    rw [mythread_create_state s s' start_func arg k ret hs i]
    exact he
  | wake t hs =>
    rw [baton_down_state s s' (some t) hs i]
    exact he
  | yield hs =>
    rw [mythread_yield_signal_state s s' hs i]
    exact he
  | exit retval out code hs =>
    obtain ⟨t, _, ht⟩ := mythread_exit_state s s' retval out code hs
    rw [ht i]
    split_ifs
    · rfl
    · exact he

theorem op_state (s s' : State) (h : Op s s') (i : Nat)
    (he : (s.threads i).state = .EXITED) : (s'.threads i).state = .EXITED := by
  cases h with
  | call hc => exact call_state s s' hc i he
  | yield ret hs =>
    rw [mythread_yield_state s s' ret hs i]
    exact he
  | insert t hs =>
    rw [insert_at_tail_state s s' t hs i]
    exact he
  | move hs =>
    rw [move_head_state s s' hs i]
    exact he
  | remove hs =>
    rw [remove_from_head_state s s' hs i]
    exact he

/-- C18: `mythread_create` (on every slot, the one it allocates included),
`mythread_yield` and the three queue operations write no TCB's `state` field,
in whatever state they are called; `mythread_exit` writes exactly one, marking
the TCB that `head` designates as `EXITED`; so a TCB whose state is `EXITED`
has state `EXITED` after any number of further operations.  `mythread_join`
takes the state as input only: it faults on an id outside the pool, spins, or
returns -1 with status untouched, or returns 0 with the target's `retval`
written to a non-`NULL` status location. -/
theorem C18_exited_is_absorbing :
    (∀ (s s' : State) (start_func arg k : Nat) (ret : Int),
      mythread_create s start_func arg = .ok (s', k, ret) → StateKept s s') ∧
    (∀ (s s' : State) (ret : Int), mythread_yield s = .ok (s', ret) → StateKept s s') ∧
    (∀ (s s' : State) (t : Nat), insert_at_tail s t = .ok s' → StateKept s s') ∧
    (∀ (s s' : State), move_head s = .ok s' → StateKept s s') ∧
    (∀ (s s' : State), remove_from_head s = .ok s' → StateKept s s') ∧
    (∀ (s s' : State) (retval out : Option Int) (code : Int),
      mythread_exit s retval = .ok (s', out, code) →
      ∃ t, s.head = some t ∧
        ∀ i, (s'.threads i).state = if i = t then .EXITED else (s.threads i).state) ∧
    (∀ (s s' : State) (i : Nat), Ops s s' → (s.threads i).state = .EXITED →
      (s'.threads i).state = .EXITED) ∧
    (∀ (s : State) (t : Nat) (status : Option Int),
      mythread_join s t status = .fault ∨ mythread_join s t status = .blocked ∨
      mythread_join s t status = .ok (-1, status) ∨
      mythread_join s t status = .ok (0, match status with
        | some _ => some (s.threads t).retval
        | none => none)) := by
  refine ⟨mythread_create_state, mythread_yield_state, insert_at_tail_state, move_head_state,
    remove_from_head_state, mythread_exit_state, ?_, ?_⟩
  · intro s s' i h
    induction h with
    | refl => exact fun he => he
    | step s' s'' _ hs ih => exact fun he => op_state s' s'' hs i (ih he)
  · intro s t status
    by_cases ht : t < THREADS
    · by_cases hid : (s.threads t).id = t
      · by_cases hst : (s.threads t).state = .EXITED
        · right; right; right
          cases status <;> simp [mythread_join, deref, ht, hid, hst]
        · right; left
          simp [mythread_join, deref, ht, hid, hst]
      · right; right; left
        simp [mythread_join, deref, ht, hid]
    · left
      simp [mythread_join, deref, ht]

theorem thread_1_exited_ops :
    Ops thread_1_exited (Res.stateD (mythread_create thread_1_exited 0 0)) :=
  Ops.step _ _ _ (Ops.refl thread_1_exited)
    (Op.call _ _ (Call.create _ _ 0 0 2 0 rfl))

theorem C18_exited_is_absorbing_witness :
    StateKept initial created_1 ∧
    StateKept created_1 (Res.stateD (mythread_yield created_1)) ∧
    StateKept initial queue_1 ∧
    StateKept queue_3 (Res.getD (move_head queue_3)) ∧
    StateKept queue_3 (Res.getD (remove_from_head queue_3)) ∧
    (∃ t, thread_1_running.head = some t ∧
      ∀ i, (thread_1_exited.threads i).state =
        if i = t then .EXITED else (thread_1_running.threads i).state) ∧
    ((Res.stateD (mythread_create thread_1_exited 0 0)).threads 1).state = .EXITED :=
  ⟨C18_exited_is_absorbing.1 initial created_1 0 0 1 0 rfl,
   C18_exited_is_absorbing.2.1 created_1 _ 0 rfl,
   C18_exited_is_absorbing.2.2.1 initial queue_1 0 rfl,
   C18_exited_is_absorbing.2.2.2.1 queue_3 _ rfl,
   C18_exited_is_absorbing.2.2.2.2.1 queue_3 _ rfl,
   C18_exited_is_absorbing.2.2.2.2.2.1 thread_1_running thread_1_exited none none 0 rfl,
   C18_exited_is_absorbing.2.2.2.2.2.2.1 thread_1_exited _ 1 thread_1_exited_ops (by decide)⟩

/-! ## Invariants of the pool under calls -/

/-- What a returning `mythread_create` does to a state that satisfies the pool
invariant. -/
theorem create_effect (s s' : State) (q : List Nat) (start_func arg k : Nat) (ret : Int)
    (hi : PoolInv s q) (hs : mythread_create s start_func arg = .ok (s', k, ret)) :
    PoolInv s' (if s.thread_num = 0 then [0, 1] else q ++ [k]) ∧
      k = (if s.thread_num = 0 then 1 else s.thread_num) ∧ s'.thread_num = k + 1 ∧ ret = 0 ∧
      s.thread_num < THREADS ∧
      (∀ x, x ∈ (if s.thread_num = 0 then [0, 1] else q ++ [k]) ↔
        x ∈ q ∨ (s.thread_num ≤ x ∧ x < s'.thread_num)) := by
  have hn := mythread_create_ok_lt s s' start_func arg k ret hs
  obtain ⟨s'', k', e1, e2, e3, e4, _⟩ := mythread_create_spec s q start_func arg hi hn
  rw [e1] at hs
  simp only [Res.ok.injEq, Prod.mk.injEq] at hs
  obtain ⟨rfl, rfl, rfl⟩ := hs
  refine ⟨e3, e2, e4, rfl, hn, ?_⟩
  intro x
  by_cases h0 : s.thread_num = 0
  · have hq0 : q = [] := by
      cases q with
      | nil => rfl
      | cons a r =>
        have := hi.2.1 a (by simp)
        omega
    rw [if_pos h0] at e2
    subst hq0
    rw [if_pos h0, e4, e2, h0]
    simp only [List.mem_cons, List.mem_singleton, List.not_mem_nil, or_false, false_or]
    omega
  · rw [if_neg h0] at e2
    rw [if_neg h0, e4, e2]
    simp only [List.mem_append, List.mem_singleton]
    constructor
    · rintro (h | h)
      · exact Or.inl h
      · exact Or.inr (by omega)
    · rintro (h | h)
      · exact Or.inl h
      · exact Or.inr (by omega)

/-- What a returning wait on a baton does. -/
theorem wake_effect (s s' : State) (q : List Nat) (t : Nat) (hi : PoolInv s q)
    (hs : baton_down s (some t) = .ok s') :
    PoolInv s' q ∧ StateKept s s' ∧ s'.thread_num = s.thread_num := by
  have hk := baton_down_state s s' (some t) hs
  obtain ⟨_, _, e⟩ := baton_down_spec s s' t hs
  subst e
  refine ⟨poolInv_of_frame s _ q q ?_ (fun _ h => h) rfl rfl rfl ?_ hi, hk, rfl⟩
  · exact linked_of_links_eq s _ q rfl
      (fun i => by simp only [modify_threads]; split_ifs <;> subst_vars <;> rfl)
      (fun i => by simp only [modify_threads]; split_ifs <;> subst_vars <;> rfl) hi.1
  · intro i
    simp only [modify_threads]
    split_ifs <;> subst_vars <;> rfl

/-- What a returning `mythread_yield`, up to its wait, does. -/
theorem yield_effect (s s' : State) (q : List Nat) (hi : PoolInv s q)
    (hs : mythread_yield_signal s = .ok s') :
    ∃ h r, q = h :: r ∧ PoolInv s' (r ++ [h]) ∧ StateKept s s' ∧
      s'.thread_num = s.thread_num := by
  have hk := mythread_yield_signal_state s s' hs
  cases q with
  | nil => exact absurd hs (mythread_yield_signal_empty s ((linked_nil_iff s).1 hi.1) s')
  | cons h r =>
    obtain ⟨s'', m, e1, _, e3, _, e5, e6, e7, _, e9⟩ :=
      mythread_yield_signal_spec s h r hi.1 (poolInv_lock hi)
    rw [e1] at hs
    cases hs
    refine ⟨h, r, rfl, poolInv_of_frame s _ (h :: r) _ e3 ?_ e7 e6 e5 (fun i => (e9 i).1) hi,
      hk, e7⟩
    intro x hx
    simp only [List.mem_append, List.mem_singleton] at hx
    rcases hx with e | e
    · simp [e]
    · simp [e]

/-- What a returning `mythread_exit` does. -/
theorem exit_effect (s s' : State) (q : List Nat) (retval out : Option Int) (code : Int)
    (hi : PoolInv s q) (hs : mythread_exit s retval = .ok (s', out, code)) :
    ∃ h q', q = h :: q' ∧ s.head = some h ∧ PoolInv s' q' ∧ s'.thread_num = s.thread_num ∧
      ∀ i, (s'.threads i).state = if i = h then .EXITED else (s.threads i).state := by
  cases q with
  | nil => exact absurd hs (mythread_exit_empty s ((linked_nil_iff s).1 hi.1) retval _)
  | cons h r =>
    have hh := (linked_head hi.1).1
    cases r with
    | nil =>
      obtain ⟨s'', e1, e2, e3, e4, e5, _, e7, e8⟩ :=
        mythread_exit_single_spec s h retval hi.1 (poolInv_lock hi)
      rw [e1] at hs
      cases hs
      exact ⟨h, [], rfl, hh, poolInv_of_frame s _ [h] [] ((linked_nil_iff _).2 e2) (by simp)
        e5 e4 e3 (fun i => (e8 i).1) hi, e5, e7⟩
    | cons m r =>
      obtain ⟨s'', e1, e2, e3, e4, e5, _, e7, e8, _⟩ :=
        mythread_exit_cons_spec s h m r retval hi.1 (poolInv_lock hi)
      rw [e1] at hs
      cases hs
      exact ⟨h, m :: r, rfl, hh, poolInv_of_frame s _ (h :: m :: r) _ e2
        (fun x hx => List.mem_cons_of_mem _ hx) e5 e4 e3 (fun i => (e8 i).1) hi, e5, e7⟩

theorem live_grow (s s' : State) (q q' : List Nat) (hl : Live s q)
    (hk : StateKept s s') (hn : s.thread_num ≤ s'.thread_num)
    (hq : ∀ x, x ∈ q' ↔ x ∈ q ∨ (s.thread_num ≤ x ∧ x < s'.thread_num)) : Live s' q' := by
  refine ⟨?_, ?_⟩
  · intro i hi
    rw [hk i]
    exact hl.1 i (by omega)
  · intro i hi
    rw [hk i, hq i]
    by_cases h : i < s.thread_num
    · rw [← hl.2 i h]
      constructor
      · rintro (e | e)
        · exact e
        · omega
      · exact fun e => Or.inl e
    · constructor
      · intro _
        exact hl.1 i (by omega)
      · intro _
        exact Or.inr ⟨by omega, hi⟩

theorem live_exit (s s' : State) (h : Nat) (q' : List Nat) (hl : Live s (h :: q'))
    (hnd : (h :: q').Nodup) (hh : h < s.thread_num) (hn : s'.thread_num = s.thread_num)
    (hst : ∀ i, (s'.threads i).state = if i = h then .EXITED else (s.threads i).state) :
    Live s' q' := by
  have hnot : h ∉ q' := (List.nodup_cons.1 hnd).1
  refine ⟨?_, ?_⟩
  · intro i hi
    rw [hn] at hi
    have : i ≠ h := by omega
    rw [hst i, if_neg this]
    exact hl.1 i hi
  · intro i hi
    rw [hn] at hi
    rw [hst i]
    by_cases e : i = h
    · subst e
      simp [hnot]
    · rw [if_neg e, ← hl.2 i hi]
      simp [e]

/-- Every call into the library keeps the pool invariant together with the
description of the queue members as the allocated slots that have not exited. -/
theorem live_call (s s' : State) (q : List Nat) (hi : PoolInv s q) (hl : Live s q)
    (hc : Call s s') : ∃ q', PoolInv s' q' ∧ Live s' q' ∧ s.thread_num ≤ s'.thread_num := by
  cases hc with
  | create start_func arg k ret hs =>
    obtain ⟨e1, e2, e3, _, _, e6⟩ := create_effect s s' q start_func arg k ret hi hs
    have hle : s.thread_num ≤ s'.thread_num := by
      rw [e3, e2]
      split_ifs <;> omega
    exact ⟨_, e1, live_grow s s' q _ hl
      (mythread_create_state s s' start_func arg k ret hs) hle e6, hle⟩
  | wake t hs =>
    obtain ⟨e1, e2, e3⟩ := wake_effect s s' q t hi hs
    exact ⟨q, e1, live_grow s s' q q hl e2 (by omega)
      (fun x => ⟨fun h => Or.inl h, fun h => h.elim id (fun e => by omega)⟩), by omega⟩
  | yield hs =>
    obtain ⟨h, r, rfl, e1, e2, e3⟩ := yield_effect s s' q hi hs
    have hmem : ∀ x, x ∈ r ++ [h] ↔ x ∈ h :: r := by
      intro x
      simp only [List.mem_append, List.mem_singleton, List.mem_cons]
      tauto
    refine ⟨r ++ [h], e1, live_grow s s' (h :: r) _ hl e2 (by omega) ?_, by omega⟩
    intro x
    rw [hmem x]
    exact ⟨fun e => Or.inl e, fun e => e.elim id (fun e => by omega)⟩
  | exit retval out code hs =>
    obtain ⟨h, q', rfl, _, e1, e2, e3⟩ := exit_effect s s' q retval out code hi hs
    exact ⟨q', e1, live_exit s s' h q' hl hi.1.2.1 (hi.2.1 h (by simp)) e2 e3, by omega⟩

theorem live_initial : Live initial [] := by
  refine ⟨?_, ?_⟩
  · intro i _
    show mythread_state.RUNNING ≠ .EXITED
    decide
  · intro i hi
    exact absurd hi (Nat.not_lt_zero i)

/-- In every state reached by calls into the library the queue is well formed
and its members are the allocated slots that have not exited. -/
theorem called_live (s : State) (hr : Called s) : ∃ q, PoolInv s q ∧ Live s q := by
  induction hr with
  | start => exact ⟨[], poolInv_initial, live_initial⟩
  | step s s' _ hs ih =>
    obtain ⟨q, h1, h2⟩ := ih
    obtain ⟨q', e1, e2, _⟩ := live_call s s' q h1 h2 hs
    exact ⟨q', e1, e2⟩

theorem run_call (s s' : State) (hs : Run s s') : Call s s' := by
  cases hs with
  | create start_func arg k ret hs => exact Call.create s s' start_func arg k ret hs
  | wake t hs => exact Call.wake s s' t hs
  | yield hs => exact Call.yield s s' hs
  | exit h retval out code _ _ hs => exact Call.exit s s' retval out code hs

theorem ran_called (s : State) (hr : Ran s) : Called s := by
  induction hr with
  | start => exact Called.start
  | step s s' _ hs ih => exact Called.step s s' ih (run_call s s' hs)

/-- While `mythread_exit` is only run with an application thread at the head,
the idle slot 0 stays in the queue once it has been created. -/
theorem idle_run (s s' : State) (q : List Nat) (hi : PoolInv s q) (hl : Live s q)
    (h0 : s.thread_num ≠ 0 → 0 ∈ q) (hc : Run s s') :
    ∃ q', PoolInv s' q' ∧ Live s' q' ∧ (s'.thread_num ≠ 0 → 0 ∈ q') := by
  cases hc with
  | create start_func arg k ret hs =>
    obtain ⟨e1, e2, e3, _, _, e6⟩ := create_effect s s' q start_func arg k ret hi hs
    have hle : s.thread_num ≤ s'.thread_num := by
      rw [e3, e2]
      split_ifs <;> omega
    refine ⟨_, e1, live_grow s s' q _ hl
      (mythread_create_state s s' start_func arg k ret hs) hle e6, ?_⟩
    intro hne
    rw [e6 0]
    by_cases hz : s.thread_num = 0
    · exact Or.inr ⟨by omega, by omega⟩
    · exact Or.inl (h0 hz)
  | wake t hs =>
    obtain ⟨q', e1, e2, _⟩ := live_call s s' q hi hl (Call.wake s s' t hs)
    obtain ⟨w1, _, w3⟩ := wake_effect s s' q t hi hs
    exact ⟨q, w1, live_grow s s' q q hl (baton_down_state s s' _ hs) (by omega)
      (fun x => ⟨fun h => Or.inl h, fun h => h.elim id (fun e => by omega)⟩),
      fun hne => h0 (by rw [← w3]; exact hne)⟩
  | yield hs =>
    obtain ⟨h, r, rfl, y1, y2, y3⟩ := yield_effect s s' _ hi hs
    have hmem : ∀ x, x ∈ r ++ [h] ↔ x ∈ h :: r := by
      intro x
      simp only [List.mem_append, List.mem_singleton, List.mem_cons]
      tauto
    refine ⟨r ++ [h], y1, live_grow s s' (h :: r) _ hl y2 (by omega) ?_, ?_⟩
    · intro x
      rw [hmem x]
      exact ⟨fun e => Or.inl e, fun e => e.elim id (fun e => by omega)⟩
    · intro hne
      rw [hmem 0]
      exact h0 (by rw [← y3]; exact hne)
  | exit h retval out code hh hid hs =>
    obtain ⟨h', q', rfl, x1, x2, x3, x4⟩ := exit_effect s s' q retval out code hi hs
    have hx : h' = h := by
      rw [hh] at x1
      cases x1
      rfl
    subst hx
    have hlt : h' < s.thread_num := hi.2.1 h' (by simp)
    have hne0 : h' ≠ 0 := by
      intro e
      apply hid
      rw [hi.2.2.2.2.2.1 h' hlt]
      exact e
    refine ⟨q', x2, live_exit s s' h' q' hl hi.1.2.1 hlt x3 x4, ?_⟩
    intro hne
    have := h0 (by rw [← x3]; exact hne)
    simp only [List.mem_cons] at this
    rcases this with e | e
    · exact absurd e.symm hne0
    · exact e

theorem ran_inv (s : State) (hr : Ran s) :
    ∃ q, PoolInv s q ∧ Live s q ∧ (s.thread_num ≠ 0 → 0 ∈ q) := by
  induction hr with
  | start => exact ⟨[], poolInv_initial, live_initial, fun h => absurd rfl h⟩
  | step s s' _ hs ih =>
    obtain ⟨q, h1, h2, h3⟩ := ih
    exact idle_run s s' q h1 h2 h3 hs

theorem setFut_self (s : State) (i c : Nat) (h : (s.threads i).fut = c) : setFut s i c = s := by
  cases s with
  | mk threads head queue_futex init thread_num =>
    simp only [modify, State.mk.injEq, and_true, true_and]
    funext j
    by_cases hj : j = i
    · subst hj
      simp only [Function.update_same]
      simp only at h
      rw [← h]
    · simp [Function.update, hj]

/-- A complete `mythread_yield` is a yield up to its wait followed by the
return from a wait on the baton of the old head. -/
theorem mythread_yield_split (s s' : State) (ret : Int)
    (h : mythread_yield s = .ok (s', ret)) :
    ∃ s1 t, mythread_yield_signal s = .ok s1 ∧ baton_down s1 (some t) = .ok s' ∧ ret = 0 := by
  simp only [mythread_yield, Res.bind_eq_ok, Res.pure_eq, Res.ok.injEq, Prod.mk.injEq] at h
  obtain ⟨s1, h1, s2, h2, rfl, h3⟩ := h
  cases hh : s.head with
  | none =>
    rw [hh] at h2
    simp [baton_down, deref] at h2
  | some t =>
    rw [hh] at h2
    exact ⟨s1, t, h1, h2, h3.symm⟩

theorem called_yield (s s' : State) (ret : Int) (hr : Called s)
    (h : mythread_yield s = .ok (s', ret)) : Called s' := by
  obtain ⟨s1, t, h1, h2, _⟩ := mythread_yield_split s s' ret h
  exact Called.step s1 s' (Called.step s s1 hr (Call.yield s s1 h1)) (Call.wake s1 s' t h2)

theorem ran_yield (s s' : State) (ret : Int) (hr : Ran s)
    (h : mythread_yield s = .ok (s', ret)) : Ran s' := by
  obtain ⟨s1, t, h1, h2, _⟩ := mythread_yield_split s s' ret h
  exact Ran.step s1 s' (Ran.step s s1 hr (Run.yield s s1 h1)) (Run.wake s1 s' t h2)

/-- A round of the idle loop is a wait that returns or times out, followed by
a complete yield: it never runs `mythread_exit`. -/
theorem ran_idle_round (s s' : State) (thread : Nat) (hr : Ran s)
    (h : idle_thread_round s thread = .ok s') : Ran s' := by
  simp only [idle_thread_round, Res.bind_eq_ok, Res.pure_eq, Res.ok.injEq] at h
  obtain ⟨i, hi, ⟨s2, ret⟩, h2, rfl⟩ := h
  have hlt : thread < THREADS ∧ i = thread := by
    simp only [deref] at hi
    split_ifs at hi with e
    simp only [Res.ok.injEq] at hi
    exact ⟨e, hi.symm⟩
  obtain ⟨hlt, rfl⟩ := hlt
  by_cases hf : (s.threads i).fut = 0
  · have : setFut s i (futex_down_timeout (s.threads i).fut) = s := by
      apply setFut_self
      simp [futex_down_timeout, hf]
    rw [this] at h2
    exact ran_yield s s2 ret hr h2
  · have hw : baton_down s (some i) =
        .ok (setFut s i (futex_down_timeout (s.threads i).fut)) := by
      rw [baton_down_ok s i hlt hf]
      simp [futex_down_timeout, hf]
    exact ran_yield _ s2 ret (Ran.step s _ hr (Run.wake s _ i hw)) h2

theorem calledN_called (n : Nat) (s : State) (h : CalledN n s) : Called s := by
  induction h with
  | start => exact Called.start
  | create n s s' start_func arg k ret _ hs ih =>
    exact Called.step s s' ih (Call.create s s' start_func arg k ret hs)
  | wake n s s' t _ hs ih => exact Called.step s s' ih (Call.wake s s' t hs)
  | yield n s s' _ hs ih => exact Called.step s s' ih (Call.yield s s' hs)
  | exit n s s' retval out code _ hs ih =>
    exact Called.step s s' ih (Call.exit s s' retval out code hs)

/-- After `n` calls of `mythread_create` the slot counter is 0 when `n` is 0 and
`n + 1` otherwise: the first call takes two slots and every later one a single
slot. -/
theorem calledN_thread_num (n : Nat) (s : State) (h : CalledN n s) :
    s.thread_num = if n = 0 then 0 else n + 1 := by
  induction h with
  | start => rfl
  | create n s s' start_func arg k ret hr hs ih =>
    obtain ⟨q, hq⟩ := called_poolInv s (calledN_called n s hr)
    obtain ⟨_, e2, e3, _⟩ := create_effect s s' q start_func arg k ret hq hs
    rw [e3, e2, ih]
    by_cases h0 : n = 0
    · simp [h0]
    · simp [h0]
  | wake n s s' t hr hs ih =>
    obtain ⟨q, hq⟩ := called_poolInv s (calledN_called n s hr)
    rw [(wake_effect s s' q t hq hs).2.2]
    exact ih
  | yield n s s' hr hs ih =>
    obtain ⟨q, hq⟩ := called_poolInv s (calledN_called n s hr)
    obtain ⟨_, _, _, _, _, e⟩ := yield_effect s s' q hq hs
    rw [e]
    exact ih
  | exit n s s' retval out code hr hs ih =>
    obtain ⟨q, hq⟩ := called_poolInv s (calledN_called n s hr)
    obtain ⟨_, _, _, _, _, e, _⟩ := exit_effect s s' q retval out code hq hs
    rw [e]
    exact ih

/-! ## Slot identities and queue membership -/

/-- C13: in every state reached by calls into the library every allocated slot
`i` (below the slot counter) has `threads[i].id = i`; no call makes the slot
counter smaller, and the slot a `mythread_create` allocates lies at or above
the counter before the call and below the counter after it, so that no slot is
allocated twice; the call of `mythread_create` that follows `n` earlier ones
writes `n + 1` to `*new_thread_ID`; and `mythread_self` returns the pool index
of the TCB that `head` designates. -/
theorem C13_ids_are_slot_indices :
    (∀ (s : State) (i : Nat), Called s → i < s.thread_num → (s.threads i).id = i) ∧
    (∀ (s s' : State), Called s → Call s s' → s.thread_num ≤ s'.thread_num) ∧
    (∀ (s s' : State) (start_func arg k : Nat) (ret : Int), Called s →
      mythread_create s start_func arg = .ok (s', k, ret) →
      s.thread_num ≤ k ∧ k < s'.thread_num ∧ (s'.threads k).id = k) ∧
    (∀ (n : Nat) (s s' : State) (start_func arg k : Nat) (ret : Int), CalledN n s →
      mythread_create s start_func arg = .ok (s', k, ret) → k = n + 1) ∧
    (∀ (s : State) (h : Nat), Called s → s.head = some h → mythread_self s = .ok h) := by
  refine ⟨?_, ?_, ?_, ?_, ?_⟩
  · intro s i hr hi
    obtain ⟨q, hq⟩ := called_poolInv s hr
    exact hq.2.2.2.2.2.1 i hi
  · intro s s' hr hc
    obtain ⟨q, h1, h2⟩ := called_live s hr
    obtain ⟨_, _, _, h⟩ := live_call s s' q h1 h2 hc
    exact h
  · intro s s' start_func arg k ret hr hs
    obtain ⟨q, hq⟩ := called_poolInv s hr
    obtain ⟨e1, e2, e3, _⟩ := create_effect s s' q start_func arg k ret hq hs
    have hk : s.thread_num ≤ k := by
      rw [e2]
      split_ifs <;> omega
    exact ⟨hk, by omega, e1.2.2.2.2.2.1 k (by omega)⟩
  · intro n s s' start_func arg k ret hr hs
    obtain ⟨q, hq⟩ := called_poolInv s (calledN_called n s hr)
    obtain ⟨_, e2, _⟩ := create_effect s s' q start_func arg k ret hq hs
    rw [e2, calledN_thread_num n s hr]
    by_cases h0 : n = 0
    · simp [h0]
    · simp [h0]
  · intro s h hr hh
    obtain ⟨q, hq⟩ := called_poolInv s hr
    cases q with
    | nil =>
      rw [(linked_nil_iff s).1 hq.1] at hh
      cases hh
    | cons a r =>
      have ha := linked_head hq.1
      rw [hh] at ha
      have hid := hq.2.2.2.2.2.1 a (hq.2.1 a (by simp))
      obtain ⟨e, hlt⟩ := ha
      cases e
      simp [mythread_self, hh, deref, hlt, hid]

theorem created_1_calledN : CalledN 1 created_1 :=
  CalledN.create 0 initial created_1 0 0 1 0 CalledN.start rfl

theorem C13_ids_are_slot_indices_witness :
    (created_1.threads 1).id = 1 ∧
    created_1.thread_num ≤ created_2.thread_num ∧
    (created_1.thread_num ≤ 2 ∧ 2 < created_2.thread_num ∧ (created_2.threads 2).id = 2) ∧
    2 = 1 + 1 ∧
    mythread_self created_1 = .ok 0 :=
  ⟨C13_ids_are_slot_indices.1 created_1 1 created_1_called (by decide),
   C13_ids_are_slot_indices.2.1 created_1 created_2 created_1_called
    (Call.create created_1 created_2 0 0 2 0 rfl),
   C13_ids_are_slot_indices.2.2.1 created_1 created_2 0 0 2 0 created_1_called rfl,
   C13_ids_are_slot_indices.2.2.2.1 1 created_1 created_2 0 0 2 0 created_1_calledN rfl,
   C13_ids_are_slot_indices.2.2.2.2 created_1 0 created_1_called rfl⟩

/-- C16: in every state reached by calls into the library (create, yield up
to its wait, return from a wait, exit, the last always marking and removing
the TCB that `head` designates) the ready queue is well formed with some
members `q`, which following `next` from `head` lists, and a pool slot is one
of them if and only if it has been allocated (it lies below the slot counter)
and its state is not `EXITED`.  A complete `mythread_yield` is two such calls,
so these states are closed under it. -/
theorem C16_members_are_live_slots :
    (∀ s : State, Called s →
      ∃ q, Linked s q ∧ walk s q.length s.head = q ∧
        ∀ i, i ∈ q ↔ (i < s.thread_num ∧ (s.threads i).state ≠ .EXITED)) ∧
    (∀ (s s' : State) (ret : Int), Called s → mythread_yield s = .ok (s', ret) →
      Called s') := by
  refine ⟨?_, fun s s' ret hr h => called_yield s s' ret hr h⟩
  intro s hr
  obtain ⟨q, h1, h2⟩ := called_live s hr
  refine ⟨q, h1.1, (linked_walk h1.1).1, ?_⟩
  intro i
  constructor
  · intro hi
    have hlt := h1.2.1 i hi
    exact ⟨hlt, (h2.2 i hlt).1 hi⟩
  · intro hi
    exact (h2.2 i hi.1).2 hi.2

theorem thread_1_running_ran : Ran thread_1_running :=
  Ran.step thread_1_signalled thread_1_running
    (Ran.step idle_running thread_1_signalled
      (Ran.step created_1 idle_running
        (Ran.step initial created_1 Ran.start (Run.create initial created_1 0 0 1 0 rfl))
        (Run.wake created_1 idle_running 0 rfl))
      (Run.yield idle_running thread_1_signalled rfl))
    (Run.wake thread_1_signalled thread_1_running 1 rfl)

theorem thread_1_exit_run : Run thread_1_running thread_1_exited :=
  Run.exit thread_1_running thread_1_exited 1 none none 0 rfl (by decide) rfl

theorem thread_1_exited_ran : Ran thread_1_exited :=
  Ran.step thread_1_running thread_1_exited thread_1_running_ran thread_1_exit_run

theorem C16_members_are_live_slots_witness :
    (∃ q, Linked thread_1_exited q ∧ walk thread_1_exited q.length thread_1_exited.head = q ∧
        ∀ i, i ∈ q ↔
          (i < thread_1_exited.thread_num ∧ (thread_1_exited.threads i).state ≠ .EXITED)) ∧
    Called (Res.stateD (mythread_yield created_1)) :=
  ⟨C16_members_are_live_slots.1 thread_1_exited (ran_called _ thread_1_exited_ran),
   C16_members_are_live_slots.2 created_1 _ 0 created_1_called rfl⟩

theorem nodup_all_zero (q : List Nat) (hnd : q.Nodup) (h0 : 0 ∈ q) (hall : ∀ x ∈ q, x = 0) :
    q = [0] := by
  cases q with
  | nil => simp at h0
  | cons a r =>
    have ha : a = 0 := hall a (by simp)
    subst ha
    cases r with
    | nil => rfl
    | cons b r =>
      have hb : b = 0 := hall b (by simp)
      subst hb
      simp at hnd

/-- C15: in every state reached from the initial state by calls in which
`mythread_exit` is only run while `head` designates an application thread (a
TCB whose `id` is not 0), once a `mythread_create` has run (the slot counter
is no longer 0, and it stays so) the ready queue is well formed and not empty
and idle slot 0 is a member of it; when every application slot has exited the
queue is exactly slot 0.  A round of the idle loop only waits and yields, so
these states are closed under it. -/
theorem C15_idle_slot_stays_queued :
    (∀ s : State, Ran s → s.thread_num ≠ 0 →
      ∃ q, Linked s q ∧ walk s q.length s.head = q ∧ 0 ∈ q ∧ q ≠ [] ∧ s.head ≠ none) ∧
    (∀ s : State, Ran s → s.thread_num ≠ 0 →
      (∀ i, 1 ≤ i → i < s.thread_num → (s.threads i).state = .EXITED) →
      Linked s [0] ∧ s.head = some 0) ∧
    (∀ (s s' : State) (start_func arg k : Nat) (ret : Int), Ran s →
      mythread_create s start_func arg = .ok (s', k, ret) → s'.thread_num ≠ 0) ∧
    (∀ (s s' : State), Ran s → Run s s' → s.thread_num ≠ 0 → s'.thread_num ≠ 0) ∧
    (∀ (s s' : State) (thread : Nat), Ran s → idle_thread_round s thread = .ok s' →
      Ran s') := by
  refine ⟨?_, ?_, ?_, ?_, fun s s' thread hr h => ran_idle_round s s' thread hr h⟩
  · intro s hr hn
    obtain ⟨q, h1, _, h3⟩ := ran_inv s hr
    have hmem := h3 hn
    refine ⟨q, h1.1, (linked_walk h1.1).1, hmem, ?_, ?_⟩
    · intro e
      rw [e] at hmem
      simp at hmem
    · cases q with
      | nil => simp at hmem
      | cons a r =>
        rw [(linked_head h1.1).1]
        simp
  · intro s hr hn hall
    obtain ⟨q, h1, h2, h3⟩ := ran_inv s hr
    have hq : q = [0] := by
      apply nodup_all_zero q h1.1.2.1 (h3 hn)
      intro x hx
      by_contra hne
      have hlt := h1.2.1 x hx
      exact (h2.2 x hlt).1 hx (hall x (by omega) hlt)
    subst hq
    exact ⟨h1.1, (linked_head h1.1).1⟩
  · intro s s' start_func arg k ret hr hs
    obtain ⟨q, hq⟩ := called_poolInv s (ran_called s hr)
    obtain ⟨_, _, e3, _⟩ := create_effect s s' q start_func arg k ret hq hs
    omega
  · intro s s' hr hs hn
    obtain ⟨q, h1, h2⟩ := called_live s (ran_called s hr)
    obtain ⟨_, _, _, h⟩ := live_call s s' q h1 h2 (run_call s s' hs)
    omega

theorem C15_idle_slot_stays_queued_witness :
    (∃ q, Linked thread_1_exited q ∧ walk thread_1_exited q.length thread_1_exited.head = q ∧
        0 ∈ q ∧ q ≠ [] ∧ thread_1_exited.head ≠ none) ∧
    (Linked thread_1_exited [0] ∧ thread_1_exited.head = some 0) ∧
    created_1.thread_num ≠ 0 ∧
    thread_1_exited.thread_num ≠ 0 ∧
    Ran (Res.getD (idle_thread_round thread_1_exited 0)) :=
  ⟨C15_idle_slot_stays_queued.1 thread_1_exited thread_1_exited_ran (by decide),
   C15_idle_slot_stays_queued.2.1 thread_1_exited thread_1_exited_ran (by decide)
    (by
      intro i h1 h2
      have h3 : thread_1_exited.thread_num = 2 := by decide
      have hi : i = 1 := by omega
      subst hi
      decide),
   C15_idle_slot_stays_queued.2.2.1 initial created_1 0 0 1 0 Ran.start rfl,
   C15_idle_slot_stays_queued.2.2.2.1 thread_1_running thread_1_exited thread_1_running_ran
    thread_1_exit_run (by decide),
   C15_idle_slot_stays_queued.2.2.2.2 thread_1_exited _ 0 thread_1_exited_ran rfl⟩

/-- C14: the first `mythread_create` from the initial state returns 0, writes 1
to `*new_thread_ID`, and leaves slot 0 allocated with baton 1, slot 1 allocated
with baton 0 and the given entry function and argument, `head` designating
slot 0 and the queue in `next`-order `[0, 1]`.  Every later call below
capacity, in a state reached by calls in which only application threads exit,
returns 0, allocates exactly the slot the counter designates with baton 0 and
the given entry function and argument, appends it at the queue tail, and
changes neither `head` nor the baton, `state`, `retval`, `id` or `func` of any
slot allocated before. -/
theorem C14_create_allocates_next_slot :
    (∀ (start_func arg : Nat),
      ∃ s', mythread_create initial start_func arg = .ok (s', 1, 0) ∧ s'.thread_num = 2 ∧
        (s'.threads 0).id = 0 ∧ (s'.threads 0).fut = 1 ∧
        (s'.threads 1).id = 1 ∧ (s'.threads 1).fut = 0 ∧
        (s'.threads 1).func = { func := start_func, arg := arg } ∧
        s'.head = some 0 ∧ Linked s' [0, 1] ∧ walk s' 2 s'.head = [0, 1]) ∧
    (∀ (s : State) (start_func arg : Nat), Ran s → s.thread_num ≠ 0 →
      s.thread_num < THREADS →
      ∃ s' q, Linked s q ∧
        mythread_create s start_func arg = .ok (s', s.thread_num, 0) ∧
        s'.thread_num = s.thread_num + 1 ∧
        (s'.threads s.thread_num).id = s.thread_num ∧ (s'.threads s.thread_num).fut = 0 ∧
        (s'.threads s.thread_num).func = { func := start_func, arg := arg } ∧
        Linked s' (q ++ [s.thread_num]) ∧ s'.head = s.head ∧
        (∀ i, i < s.thread_num →
          (s'.threads i).fut = (s.threads i).fut ∧
          (s'.threads i).state = (s.threads i).state ∧
          (s'.threads i).retval = (s.threads i).retval ∧
          (s'.threads i).id = (s.threads i).id ∧
          (s'.threads i).func = (s.threads i).func)) := by
  constructor
  · intro start_func arg
    obtain ⟨s', k, e1, e2, e3, e4, _, _, _, e8, _, e10, e11⟩ :=
      mythread_create_spec initial [] start_func arg poolInv_initial (by decide)
    have hk : k = 1 := by simpa using e2
    subst hk
    have hl : Linked s' [0, 1] := by simpa using e3.1
    have h0 : initial.thread_num = 0 := rfl
    refine ⟨s', e1, e4, ?_, (e8 h0).1, ?_, e10, e11, (linked_head hl).1, hl, ?_⟩
    · exact e3.2.2.2.2.2.1 0 (by omega)
    · exact e3.2.2.2.2.2.1 1 (by omega)
    · simpa using (linked_walk hl).1
  · intro s start_func arg hr hn hlt
    obtain ⟨q, h1, _, h3⟩ := ran_inv s hr
    obtain ⟨s', k, e1, e2, e3, e4, _, e6, e7, _, _, e10, e11⟩ :=
      mythread_create_spec s q start_func arg h1 hlt
    have hk : k = s.thread_num := by simpa [hn] using e2
    subst hk
    rw [if_neg hn] at e3
    have hmem := h3 hn
    refine ⟨s', q, h1.1, e1, e4, e3.2.2.2.2.2.1 _ (by omega), e10, e11, e3.1, ?_, ?_⟩
    · cases q with
      | nil => simp at hmem
      | cons a r =>
        rw [(linked_head h1.1).1]
        simpa using e3.1.1
    · intro i hi
      refine ⟨(e6 i hi).1, (e7 i).1, (e7 i).2, ?_, (e6 i hi).2⟩
      rw [e3.2.2.2.2.2.1 i (by omega), h1.2.2.2.2.2.1 i hi]

theorem C14_create_allocates_next_slot_witness :
    ∃ s' q, Linked created_1 q ∧
        mythread_create created_1 7 8 = .ok (s', created_1.thread_num, 0) ∧
        s'.thread_num = created_1.thread_num + 1 ∧
        (s'.threads created_1.thread_num).id = created_1.thread_num ∧
        (s'.threads created_1.thread_num).fut = 0 ∧
        (s'.threads created_1.thread_num).func = { func := 7, arg := 8 } ∧
        Linked s' (q ++ [created_1.thread_num]) ∧ s'.head = created_1.head ∧
        (∀ i, i < created_1.thread_num →
          (s'.threads i).fut = (created_1.threads i).fut ∧
          (s'.threads i).state = (created_1.threads i).state ∧
          (s'.threads i).retval = (created_1.threads i).retval ∧
          (s'.threads i).id = (created_1.threads i).id ∧
          (s'.threads i).func = (created_1.threads i).func) :=
  C14_create_allocates_next_slot.2 created_1 7 8
    (Ran.step initial created_1 Ran.start (Run.create initial created_1 0 0 1 0 rfl))
    (by decide) (by decide)

end MyThread
